import Mathlib

/-!
# A verification development for the spreadsheet engine

Shallow embedding of `sheet.cpp`, `cell.cpp` and `formula.cpp`.

Conventions of the embedding.

* A `std::vector<std::vector<std::unique_ptr<Cell>>>` is a list of rows, each a list of
  optional cells; `nullptr` is `none`.
* A `const Cell*` is represented by the position at which the pointee is installed (or, while
  `SetCell` runs, is about to be installed).  The sets `parents_` and `visited` are therefore lists
  of positions.
* A reference to a slot (`auto& old_cell = cells_[pos.row][pos.col]`) is the index pair of the
  slot, and it is good for as long as the row it refers into is not resized: `std::vector::resize`
  moves the elements of the row to other storage unless it finds room in the capacity of the row,
  and after a move the reference refers to none of them.  Growing the list of rows moves the rows
  and leaves their storage where it is.  `SetCell` uses its reference again after the loop that
  wires the children; when that loop has resized the row of the slot, the call ends in
  `Outcome.undefined` (see `slotRefLive`), and no sheet is reachable through it.  What a run can
  hold after such a call is described apart (`SetCell_inPlace`, `SetCell_goesOn`, `Attainable`).
* A `std::map<int, size_t>` is an association list; `size_t` arithmetic is taken modulo `2^64`.
* The recursive traversals carry an explicit fuel argument; `none` means the fuel ran out.
* Dereferencing an absent cell inside `RemoveParent` or `InvalidateCacheImpl` (undefined in the
  source) leaves the sheet as it is.  In a reachable sheet these dereferences find their cell
  (`Reachable.linked`, `Reachable.unwire_meets_cells`, `Reachable.parent_occupied`); after a call
  of `SetCell` that lost its new cell they need not (`orphanSheet`).
-/

namespace Spreadsheet

/-! ## Data model -/

/-- Modelled from the spec: the `Position` of `common.h`, which is not among the sources: a pair
`(row, col)` of nonnegative integers. -/
structure Position where
  row : Nat
  col : Nat
deriving DecidableEq, Repr

/-- Modelled from the spec: the bound on rows named by `common.h` (16384 by default). -/
def MAX_ROWS : Nat := 16384

/-- Modelled from the spec: the bound on columns named by `common.h` (16384 by default). -/
def MAX_COLS : Nat := 16384

/-- Modelled from the spec: a position is valid iff both coordinates are in range. -/
def Position.IsValid (p : Position) : Bool :=
  decide (p.row < MAX_ROWS) && decide (p.col < MAX_COLS)

/-- Modelled from the spec: positions are ordered lexicographically by `(row, col)`. -/
def Position.lt (a b : Position) : Bool :=
  decide (a.row < b.row) || (decide (a.row = b.row) && decide (a.col < b.col))

/-- Modelled from the spec: `Size` of `common.h`, `(rows, cols)`. -/
structure Size where
  rows : Nat
  cols : Nat
deriving DecidableEq, Repr

/-- Modelled from the spec: a formula yields a finite number; arithmetic on it is exact. -/
abbrev Number := ℚ

/-- Modelled from the spec: the categories of `FormulaError` (`common.h`). -/
inductive FormulaError where
  | Ref
  | Value
  | Div0
deriving DecidableEq, Repr

/-- Modelled from the spec: the variant `CellInterface::Value` of `common.h`: a string, a number or
a formula error. -/
inductive Value where
  | text (s : String)
  | number (x : Number)
  | error (e : FormulaError)
deriving DecidableEq, Repr

/-- Modelled from the spec: the exception classes of `common.h` that leave the sheet
interface. -/
inductive Exception where
  | InvalidPosition
  | FormulaException
  | CircularDependency
deriving DecidableEq, Repr

/-- Modelled from the spec: the `FormulaAST` of `FormulaAST.h`, which is not among the sources: an
arithmetic expression over numbers and cell references. -/
inductive FormulaAST where
  | num (x : Number)
  | cell (p : Position)
  | neg (a : FormulaAST)
  | add (a b : FormulaAST)
  | sub (a b : FormulaAST)
  | mul (a b : FormulaAST)
  | div (a b : FormulaAST)
deriving DecidableEq, Repr

/-- Modelled from the spec: `FormulaAST::GetCells`, the positions the expression mentions. -/
def FormulaAST.GetCells : FormulaAST → List Position
  | .num _ => []
  | .cell p => [p]
  | .neg a => a.GetCells
  | .add a b => a.GetCells ++ b.GetCells
  | .sub a b => a.GetCells ++ b.GetCells
  | .mul a b => a.GetCells ++ b.GetCells
  | .div a b => a.GetCells ++ b.GetCells

/-- Modelled from the spec: the collaborators the core consumes by name only, none of them among
the sources: the formula parser (`none` when it throws), the printer of an expression, the C
library `strtod` (the number read and how many characters of the C string it consumed) and the
stream output of a number. -/
structure Library where
  ParseFormulaAST : String → Option FormulaAST
  PrintFormula : FormulaAST → String
  strtod : List Char → Number × Nat
  printNumber : Number → String

/-- The three content kinds: `EmptyImpl`, `TextImpl` and `FormulaImpl`. -/
inductive Impl where
  | Empty
  | Text (text_ : String)
  | Formula (formula_ : FormulaAST)
deriving DecidableEq, Repr

/-- The class `Cell`: content, cache, children and parents. -/
structure Cell where
  impl_ : Impl
  cache_ : Option Value
  children_ : List Position
  parents_ : List Position
deriving DecidableEq, Repr

/-- An ordered map from `int` to `size_t`, as an association list with at most one entry per key
in use (see `CountMap.set`). -/
abbrev CountMap := List (Nat × Nat)

/-- The class `Sheet`: the grid and the two occupancy maps. -/
structure Sheet where
  cells_ : List (List (Option Cell))
  row_cells_count_ : CountMap
  col_cells_count_ : CountMap
deriving DecidableEq, Repr

/-- What a call on the sheet does: it returns, it raises (the sheet at the point of the throw is
kept), a traversal ran out of fuel, or the call uses a slot reference after a resize of the row
it refers into: unless the resize found room in the capacity of the row, the reference refers to
no slot any more, and the language defines no behaviour and no sheet from there on. -/
inductive Outcome where
  | ok (s : Sheet)
  | raised (e : Exception) (s : Sheet)
  | exhausted
  | undefined
deriving DecidableEq, Repr

/-! ## Characters and strings -/

/-- Modelled from the spec: `FORMULA_SIGN` of `common.h`, the sign `=` that starts a formula. -/
def FORMULA_SIGN : Char := Char.ofNat 61

/-- Modelled from the spec: `ESCAPE_SIGN` of `common.h`, the apostrophe that escapes a text. -/
def ESCAPE_SIGN : Char := Char.ofNat 39

/-- The terminator of a C string. -/
def NUL : Char := Char.ofNat 0

/-- The call `text.front()`; on the empty string it reads the terminator. -/
def front (text : String) : Char := text.data.headD NUL

/-- The call `text.substr(1)`. -/
def substr1 (text : String) : String := String.mk (text.data.drop 1)

/-! ## The occupancy maps -/

/-- The call `m.find(k)`. -/
def CountMap.find (m : CountMap) (k : Nat) : Option Nat :=
  match m with
  | [] => none
  | (k1, v) :: rest => if k1 = k then some v else CountMap.find rest k

/-- The call `m.erase(k)`. -/
def CountMap.erase (m : CountMap) (k : Nat) : CountMap :=
  m.filter (fun e => decide (e.1 ≠ k))

/-- Storing `v` under `k`. -/
def CountMap.set (m : CountMap) (k v : Nat) : CountMap :=
  (k, v) :: CountMap.erase m k

/-- The value `m[k]` reads: an absent key is created with 0. -/
def CountMap.at (m : CountMap) (k : Nat) : Nat := (CountMap.find m k).getD 0

/-- The statement `++m[k]` on `size_t`. -/
def CountMap.increment (m : CountMap) (k : Nat) : CountMap :=
  CountMap.set m k ((CountMap.at m k + 1) % 2 ^ 64)

/-- The statement `if(--m[k] == 0) m.erase(k)` on `size_t`. -/
def CountMap.decrementAndPurge (m : CountMap) (k : Nat) : CountMap :=
  let v := (CountMap.at m k + (2 ^ 64 - 1)) % 2 ^ 64
  if v = 0 then CountMap.erase m k else CountMap.set m k v

/-- The key `m.rbegin()->first`, the largest one; `none` on an empty map. -/
def CountMap.lastKey (m : CountMap) : Option Nat :=
  match m with
  | [] => none
  | (k, _) :: rest =>
    match CountMap.lastKey rest with
    | none => some k
    | some k1 => some (max k k1)

/-! ## Cells -/

/-- Inserting into a sorted list without duplicates, as `std::set<Position>::insert` does. -/
def insertSorted (p : Position) : List Position → List Position
  | [] => [p]
  | q :: rest =>
    if Position.lt p q then p :: q :: rest
    else if p = q then q :: rest
    else q :: insertSorted p rest

/-- The method `Formula::GetReferencedCells`: the cells of the expression through a `std::set`. -/
def Formula_GetReferencedCells (ast_ : FormulaAST) : List Position :=
  ast_.GetCells.foldl (fun acc p => insertSorted p acc) []

/-- The virtual `Impl::GetReferencedCells`. -/
def Impl.GetReferencedCells : Impl → List Position
  | .Empty => []
  | .Text _ => []
  | .Formula formula_ => Formula_GetReferencedCells formula_

/-- The constructor `Cell::Cell(sheet, text)`; `none` when the formula parser throws
`FormulaException`. -/
def Cell.make (L : Library) (text : String) : Option Cell :=
  if front text = FORMULA_SIGN ∧ text.data.length > 1 then
    match L.ParseFormulaAST (substr1 text) with
    | none => none
    | some ast =>
      some { impl_ := .Formula ast, cache_ := none,
             children_ := (Impl.Formula ast).GetReferencedCells, parents_ := [] }
  else
    some { impl_ := .Text text, cache_ := none,
           children_ := (Impl.Text text).GetReferencedCells, parents_ := [] }

/-- The constructor `Cell::Cell(sheet)`: an Empty cell. -/
def Cell.makeEmpty : Cell :=
  { impl_ := .Empty, cache_ := none, children_ := [], parents_ := [] }

/-- The method `Cell::IsEmpty`. -/
def Cell.IsEmpty (c : Cell) : Bool :=
  match c.impl_ with
  | .Empty => true
  | _ => false

/-- The method `Cell::AddParent`. -/
def Cell.AddParent (c : Cell) (parent : Position) : Cell :=
  { c with parents_ := if parent ∈ c.parents_ then c.parents_ else c.parents_ ++ [parent] }

/-- The method `Cell::RemoveParent`. -/
def Cell.RemoveParent (c : Cell) (parent : Position) : Cell :=
  { c with parents_ := c.parents_.filter (fun q => decide (q ≠ parent)) }

/-- The method `Cell::SetParents`. -/
def Cell.SetParents (c : Cell) (parents : List Position) : Cell :=
  { c with parents_ := parents }

/-- The method `Cell::InvalidateCache`. -/
def Cell.InvalidateCache (c : Cell) : Cell :=
  { c with cache_ := none }

/-- The method `Cell::GetText`. -/
def Cell.GetText (L : Library) (c : Cell) : String :=
  match c.impl_ with
  | .Empty => ""
  | .Text text_ => text_
  | .Formula formula_ => String.mk (FORMULA_SIGN :: (L.PrintFormula formula_).data)

/-! ## The grid -/

/-- The call `v.resize(n)` on a vector whose new elements are `d`. -/
def resize {α : Type} (v : List α) (n : Nat) (d : α) : List α :=
  v.take n ++ List.replicate (n - v.length) d

/-- The row `cells_[r]`. -/
def Sheet.rowAt (s : Sheet) (r : Nat) : List (Option Cell) := s.cells_.getD r []

/-- The method `Sheet::CheckSize`. -/
def CheckSize (s : Sheet) (pos : Position) : Bool :=
  decide (s.cells_.length > pos.row) && decide ((s.rowAt pos.row).length > pos.col)

/-- The method `Sheet::GetConcreteCell`. -/
def GetConcreteCell (s : Sheet) (pos : Position) : Option Cell :=
  if CheckSize s pos then (s.rowAt pos.row).getD pos.col none else none

/-- The assignment `cells_[pos.row][pos.col] = v`. -/
def Sheet.setSlot (s : Sheet) (pos : Position) (v : Option Cell) : Sheet :=
  { s with cells_ := s.cells_.set pos.row ((s.rowAt pos.row).set pos.col v) }

/-- The method `Sheet::MaybeIncreaseSizeToIncludePosition`. -/
def MaybeIncreaseSizeToIncludePosition (s : Sheet) (pos : Position) : Sheet :=
  let rows := if pos.row ≥ s.cells_.length then resize s.cells_ (pos.row + 1) [] else s.cells_
  let row := rows.getD pos.row []
  let row1 := if pos.col ≥ row.length then resize row (pos.col + 1) none else row
  { s with cells_ := rows.set pos.row row1 }

/-- The method `Sheet::GetOrCreateConcreteCell`, returning the sheet after the call; the cell it
returns is the one at `pos` there. -/
def GetOrCreateConcreteCell (s : Sheet) (pos : Position) : Sheet :=
  let s1 := MaybeIncreaseSizeToIncludePosition s pos
  match GetConcreteCell s1 pos with
  | none => s1.setSlot pos (some Cell.makeEmpty)
  | some _ => s1

/-- The method `Sheet::RemoveParent`. -/
def RemoveParent (s : Sheet) (pos : Position) (old_cell : Position) : Sheet :=
  match GetConcreteCell s pos with
  | none => s
  | some child_cell =>
    let child1 := child_cell.RemoveParent old_cell
    if child1.IsEmpty ∧ child1.parents_ = [] then s.setSlot pos none
    else s.setSlot pos (some child1)

/-- The sheet `CreateSheet` returns. -/
def CreateSheet : Sheet :=
  { cells_ := [], row_cells_count_ := [], col_cells_count_ := [] }

/-- The positions of the grid that hold a cell. -/
def occupied (s : Sheet) : List Position :=
  (List.range s.cells_.length).flatMap (fun r =>
    ((List.range (s.rowAt r).length).filter
      (fun c => (GetConcreteCell s ⟨r, c⟩).isSome)).map (fun c => (⟨r, c⟩ : Position)))

/-! ## Cycle detection -/

/-- The loop `for(child : children) if(f(child)) return true; return false;`. -/
def anyChild (f : Position → Option Bool) : List Position → Option Bool
  | [] => some false
  | c :: rest =>
    match f c with
    | none => none
    | some true => some true
    | some false => anyChild f rest

/-- The method `Sheet::FindCyclicDepsImpl`; `visited` is received by value. -/
def FindCyclicDepsImpl (s : Sheet) :
    Nat → List Position → Position → Position → Option Bool
  | 0, _, _, _ => none
  | fuel + 1, visited, pos, bad_pos =>
    if pos = bad_pos then some true
    else
      match GetConcreteCell s pos with
      | none => some false
      | some cell =>
        if pos ∈ visited then some false
        else
          anyChild (fun child_pos => FindCyclicDepsImpl s fuel (pos :: visited) child_pos bad_pos)
            cell.children_

/-- The method `Sheet::FindCyclicDeps`. -/
def FindCyclicDeps (s : Sheet) (cell_pos : Position) (cell : Cell) : Option Bool :=
  if cell.children_ = [] then some false
  else
    anyChild (fun pos => FindCyclicDepsImpl s ((occupied s).length + 1) [] pos cell_pos)
      cell.children_

/-! ## Cache invalidation -/

/-- The cell a `const Cell*` denotes while `SetCell(pos, _)` runs: the new cell for `pos`, the
installed cell for any other position. -/
def deref (pos : Position) (st : Sheet × Cell) (p : Position) : Option Cell :=
  if p = pos then some st.2 else GetConcreteCell st.1 p

/-- The call `cell.InvalidateCache()` through such a pointer. -/
def invalidateAt (pos : Position) (st : Sheet × Cell) (p : Position) : Sheet × Cell :=
  if p = pos then (st.1, st.2.InvalidateCache)
  else
    match GetConcreteCell st.1 p with
    | none => st
    | some c => (st.1.setSlot p (some c.InvalidateCache), st.2)

/-- The loop `for(parent : parents) f(parent);` over a state. -/
def forEachParent {σ : Type} (f : σ → Position → Option σ) : List Position → σ → Option σ
  | [], st => some st
  | p :: rest, st =>
    match f st p with
    | none => none
    | some st1 => forEachParent f rest st1

/-- The method `Sheet::InvalidateCacheImpl`; `visited` is received by value. -/
def InvalidateCacheImpl (pos : Position) :
    Nat → Sheet × Cell → Position → List Position → Option (Sheet × Cell)
  | 0, _, _, _ => none
  | fuel + 1, st, cell, visited =>
    if cell ∈ visited then some st
    else
      match deref pos st cell with
      | none => some st
      | some c =>
        forEachParent (fun st1 parent_cell =>
            InvalidateCacheImpl pos fuel st1 parent_cell (cell :: visited))
          c.parents_ (invalidateAt pos st cell)

/-- The method `Sheet::InvalidateCache`, called on the new cell of `SetCell(pos, _)`. -/
def InvalidateCache (pos : Position) (st : Sheet × Cell) : Option (Sheet × Cell) :=
  let st1 : Sheet × Cell := (st.1, st.2.InvalidateCache)
  forEachParent (fun st2 parent_cell =>
      InvalidateCacheImpl pos ((occupied st.1).length + 2) st2 parent_cell [])
    st1.2.parents_ st1

/-! ## The sheet interface -/

/-- The method `Sheet::CheckPosition`: whether it throws. -/
def CheckPosition (pos : Position) : Option Exception :=
  if pos.IsValid then none else some .InvalidPosition

/-- The loop of `SetCell` and `ClearCell` over the children of the old cell. -/
def unwire (s : Sheet) (pos : Position) (children : List Position) : Sheet :=
  children.foldl (fun st child_pos => RemoveParent st child_pos pos) s

/-- The statement `GetOrCreateConcreteCell(child_pos).AddParent(new_cell.get())`, the new cell
being the one for `pos`. -/
def wireStep (pos : Position) (s : Sheet) (child_pos : Position) : Sheet :=
  match GetConcreteCell (GetOrCreateConcreteCell s child_pos) child_pos with
  | none => GetOrCreateConcreteCell s child_pos
  | some c => (GetOrCreateConcreteCell s child_pos).setSlot child_pos (some (c.AddParent pos))

/-- The loop of `SetCell` over the children of the new cell. -/
def wire (s : Sheet) (pos : Position) (children : List Position) : Sheet :=
  children.foldl (wireStep pos) s

/-- The sheet and the new cell of `SetCell` once the old edges are removed, the parents are taken
over and the new edges are added (lines 27 to 38).  The old cell is left in its slot as it was:
that line 34 has moved its parents out shows only where line 44 does not replace it
(`SetCell_stale`). -/
def SetCell_wired (s : Sheet) (pos : Position) (new_cell : Cell) : Sheet × Cell :=
  let s1 := MaybeIncreaseSizeToIncludePosition s pos
  match GetConcreteCell s1 pos with
  | none => (wire s1 pos new_cell.children_, new_cell)
  | some old_cell =>
    let s2 := unwire s1 pos old_cell.children_
    let parents := match GetConcreteCell s2 pos with
      | none => []
      | some old1 => old1.parents_
    (wire s2 pos new_cell.children_, new_cell.SetParents parents)

/-- The statement `if(!old_cell || old_cell->IsEmpty())` of `SetCell` and `ClearCell`. -/
def slotIsFree (s : Sheet) (pos : Position) : Bool :=
  match GetConcreteCell s pos with
  | none => true
  | some old_cell => old_cell.IsEmpty

/-- Whether the reference `old_cell`, taken at line 29, is sure to refer to the slot of `pos`
when lines 40 and 44 use it: the wiring loop (lines 36 to 38) has not resized row `pos.row`, that
is, the row is as long after the loop as it was when the reference was taken.  (The loop over the
old children, lines 30 to 33, resizes nothing.)  A resize moves the row to other storage unless
it finds room in the capacity of the row; how much capacity a row has is decided by the library
and is no part of the sheet, so a resize of the row is taken to end what the source defines.  The
two courses a run can take from there are `SetCell_inPlace` and `SetCell_goesOn`. -/
def slotRefLive (s : Sheet) (pos : Position) (new_cell : Cell) : Bool :=
  decide (((SetCell_wired s pos new_cell).1.rowAt pos.row).length =
    ((MaybeIncreaseSizeToIncludePosition s pos).rowAt pos.row).length)

/-- The end of `SetCell` (lines 40 to 44) through a live reference: the occupancy counters are
raised when the slot was free, then the new cell takes the slot. -/
def SetCell_install (pos : Position) (st : Sheet × Cell) : Sheet :=
  let s4 : Sheet :=
    if slotIsFree st.1 pos then
      { st.1 with row_cells_count_ := CountMap.increment st.1.row_cells_count_ pos.row,
                  col_cells_count_ := CountMap.increment st.1.col_cells_count_ pos.col }
    else st.1
  s4.setSlot pos (some st.2)

/-- The body of `SetCell` from the cycle check on (lines 23 to 44), for the new cell built from
the text.  When line 40 is reached after the wiring loop has resized the row of the slot, the
call has no outcome the source defines. -/
def SetCell_checked (s : Sheet) (pos : Position) (new_cell : Cell) : Outcome :=
  match FindCyclicDeps s pos new_cell with
  | none => .exhausted
  | some true => .raised .CircularDependency s
  | some false =>
    match InvalidateCache pos (SetCell_wired s pos new_cell) with
    | none => .exhausted
    | some st => if slotRefLive s pos new_cell then .ok (SetCell_install pos st) else .undefined

/-- The end of `SetCell` (lines 40 to 44) in a run that goes on although the wiring loop has
resized row `pos.row`, so that `old_cell` refers to the storage the row has left.  `test` is what
the condition of line 40 reads there.  The assignment of line 44 stores the new cell there and
not in the grid, whose slot keeps what the resize moved along: the old cell, without the parents
that line 34 took from it.  The language promises nothing of this; it is the course of a run that
neither stops nor damages other storage. -/
def SetCell_stale (pos : Position) (test : Bool) (st : Sheet × Cell) : Sheet :=
  let s3 : Sheet :=
    match GetConcreteCell st.1 pos with
    | none => st.1
    | some old_cell => st.1.setSlot pos (some (old_cell.SetParents []))
  if test then
    { s3 with row_cells_count_ := CountMap.increment s3.row_cells_count_ pos.row,
              col_cells_count_ := CountMap.increment s3.col_cells_count_ pos.col }
  else s3

/-- The sheet `SetCell(pos, text)` leaves when the wiring loop resizes row `pos.row` and every
resize finds room in the capacity of the row: the row stays where it is, `old_cell` refers to
its slot as before, and lines 40 to 44 install the new cell.  `none` when the call does not
resize the row or does not get to line 40. -/
def SetCell_inPlace (L : Library) (s : Sheet) (pos : Position) (text : String) : Option Sheet :=
  match CheckPosition pos, Cell.make L text with
  | none, some new_cell =>
    match FindCyclicDeps s pos new_cell with
    | some false =>
      if slotRefLive s pos new_cell then none
      else (InvalidateCache pos (SetCell_wired s pos new_cell)).map (SetCell_install pos)
    | _ => none
  | _, _ => none

/-- The sheet a run of `SetCell(pos, text)` leaves when the wiring loop moves row `pos.row` to
other storage, so that line 40 is reached with an invalidated reference, and the run goes on as
`SetCell_stale` describes; `none` when the call does not resize the row or does not get to
line 40. -/
def SetCell_goesOn (L : Library) (s : Sheet) (pos : Position) (text : String) (test : Bool) :
    Option Sheet :=
  match CheckPosition pos, Cell.make L text with
  | none, some new_cell =>
    match FindCyclicDeps s pos new_cell with
    | some false =>
      if slotRefLive s pos new_cell then none
      else (InvalidateCache pos (SetCell_wired s pos new_cell)).map (SetCell_stale pos test)
    | _ => none
  | _, _ => none

/-- The method `Sheet::SetCell`. -/
def SetCell (L : Library) (s : Sheet) (pos : Position) (text : String) : Outcome :=
  match CheckPosition pos with
  | some e => .raised e s
  | none =>
    match Cell.make L text with
    | none => .raised .FormulaException s
    | some new_cell => SetCell_checked s pos new_cell

/-- The method `Sheet::GetCell`. -/
def GetCell (s : Sheet) (pos : Position) : Except Exception (Option Cell) :=
  match CheckPosition pos with
  | some e => .error e
  | none => .ok (GetConcreteCell s pos)

/-- The middle of `ClearCell` (lines 71 to 78): an Empty cell with the parents of the old one
takes the slot when there are parents, the slot is reset otherwise. -/
def ClearCell_replace (s : Sheet) (pos : Position) : Sheet :=
  match GetConcreteCell s pos with
  | none => s
  | some old_cell =>
    if old_cell.parents_ ≠ [] then
      s.setSlot pos (some (Cell.makeEmpty.SetParents old_cell.parents_))
    else s.setSlot pos none

/-- The end of `ClearCell` (lines 80 to 85): the occupancy counters are lowered and purged. -/
def ClearCell_uncount (s : Sheet) (pos : Position) : Sheet :=
  { s with
    row_cells_count_ := CountMap.decrementAndPurge s.row_cells_count_ pos.row,
    col_cells_count_ := CountMap.decrementAndPurge s.col_cells_count_ pos.col }

/-- The method `Sheet::ClearCell`. -/
def ClearCell (s : Sheet) (pos : Position) : Outcome :=
  match CheckPosition pos with
  | some e => .raised e s
  | none =>
    if !CheckSize s pos then .ok s
    else if slotIsFree s pos then .ok s
    else
      match GetConcreteCell s pos with
      | none => .ok s
      | some old_cell =>
        .ok (ClearCell_uncount (ClearCell_replace (unwire s pos old_cell.children_) pos) pos)

/-- The method `Sheet::GetPrintableSize`; `none` when it would read the last key of an empty
map. -/
def GetPrintableSize (s : Sheet) : Option Size :=
  if s.row_cells_count_ = [] then some ⟨0, 0⟩
  else
    match CountMap.lastKey s.row_cells_count_, CountMap.lastKey s.col_cells_count_ with
    | some r, some c => some ⟨r + 1, c + 1⟩
    | _, _ => none

/-! ## Evaluation -/

/-- The result of an evaluation step: the sheet with the caches it filled and either the number
or the `FormulaError` thrown; `none` when the fuel ran out. -/
abbrev Evaluated := Option (Sheet × Except FormulaError Number)

/-- A binary operator of the expression language: the left operand first, a thrown error
unwinds. -/
def binaryOp (f : Number → Number → Except FormulaError Number)
    (ea eb : Sheet → Evaluated) (s : Sheet) : Evaluated :=
  match ea s with
  | none => none
  | some (s1, .error e) => some (s1, .error e)
  | some (s1, .ok x) =>
    match eb s1 with
    | none => none
    | some (s2, .error e) => some (s2, .error e)
    | some (s2, .ok y) => some (s2, f x y)

/-- Modelled from the spec: `FormulaAST::Execute`, which is not among the sources: the value of
the expression under `lookup`, a division by zero being `Div0`. -/
def FormulaAST.Execute (lookup : Sheet → Position → Evaluated) :
    FormulaAST → Sheet → Evaluated
  | .num x, s => some (s, .ok x)
  | .cell p, s => lookup s p
  | .neg a, s =>
    match a.Execute lookup s with
    | none => none
    | some (s1, .error e) => some (s1, .error e)
    | some (s1, .ok x) => some (s1, .ok (-x))
  | .add a b, s => binaryOp (fun x y => .ok (x + y)) (a.Execute lookup) (b.Execute lookup) s
  | .sub a b, s => binaryOp (fun x y => .ok (x - y)) (a.Execute lookup) (b.Execute lookup) s
  | .mul a b, s => binaryOp (fun x y => .ok (x * y)) (a.Execute lookup) (b.Execute lookup) s
  | .div a b, s =>
    binaryOp (fun x y => if y = 0 then .error .Div0 else .ok (x / y))
      (a.Execute lookup) (b.Execute lookup) s

/-- The visitor `ValueToDouble`. -/
def ValueToDouble (L : Library) : Value → Except FormulaError Number
  | .number val => .ok val
  | .text val =>
    if val.data = [] then .ok 0
    else
      let cstr := val.data.takeWhile (fun ch => decide (ch ≠ NUL))
      let res := L.strtod cstr
      if (cstr.drop res.2).headD NUL ≠ NUL ∨ res.2 = 0 then .error .Value
      else .ok res.1
  | .error e => .error e

/-- The assignment to `cache_` of the cell at `pos`. -/
def Sheet.setCache (s : Sheet) (pos : Position) (v : Option Value) : Sheet :=
  match GetConcreteCell s pos with
  | none => s
  | some c => s.setSlot pos (some { c with cache_ := v })

/-- The method `TextImpl::GetValue`. -/
def TextImpl_GetValue (text_ : String) : Value :=
  if front text_ = ESCAPE_SIGN then .text (substr1 text_) else .text text_

/-- The method `Formula::Evaluate`: the expression is executed with the lookup that reads the
value of a cell through `cellGetValue` (the method `Cell::GetValue`); a `FormulaError` thrown on
the way is the result. -/
def Formula_Evaluate (L : Library) (cellGetValue : Sheet → Position → Option (Sheet × Value))
    (ast_ : FormulaAST) (sheet : Sheet) : Evaluated :=
  ast_.Execute (fun s1 pos =>
    if !pos.IsValid then some (s1, .error .Ref)
    else
      match GetConcreteCell s1 pos with
      | none => some (s1, .ok 0)
      | some _ =>
        match cellGetValue s1 pos with
        | none => none
        | some (s2, val) => some (s2, ValueToDouble L val)) sheet

/-- The method `Cell::GetValue` of the cell at `pos`; `none` when there is no cell at `pos` or the
fuel ran out. -/
def GetValue (L : Library) : Nat → Sheet → Position → Option (Sheet × Value)
  | 0, _, _ => none
  | fuel + 1, s, pos =>
    match GetConcreteCell s pos with
    | none => none
    | some cell =>
      match cell.cache_ with
      | some v => some (s, v)
      | none =>
        match cell.impl_ with
        | .Empty => some (s.setCache pos (some (.text "")), .text "")
        | .Text text_ =>
          some (s.setCache pos (some (TextImpl_GetValue text_)), TextImpl_GetValue text_)
        | .Formula formula_ =>
          match Formula_Evaluate L (fun s1 p => GetValue L fuel s1 p) formula_ s with
          | none => none
          | some (s1, .ok x) => some (s1.setCache pos (some (.number x)), .number x)
          | some (s1, .error e) => some (s1.setCache pos (some (.error e)), .error e)

/-- The sheet with every cache emptied. -/
def Sheet.dropCaches (s : Sheet) : Sheet :=
  { s with cells_ := s.cells_.map (fun row => row.map (fun slot => slot.map Cell.InvalidateCache)) }

/-- The value of the cell at `pos` when it is evaluated afresh, no cache being consulted. -/
def freshValue (L : Library) (fuel : Nat) (s : Sheet) (pos : Position) : Option Value :=
  (GetValue L fuel s.dropCaches pos).map (fun r => r.2)

/-! ## Vocabulary of the specification -/

/-- The child edges of the dependency graph: `a` holds a cell whose children list has `b`. -/
def Edge (s : Sheet) (a b : Position) : Prop :=
  ∃ c, GetConcreteCell s a = some c ∧ b ∈ c.children_

/-- No cycle in the graph of child edges. -/
def Acyclic (s : Sheet) : Prop := ∀ p, ¬ Relation.TransGen (Edge s) p p

/-- The parent edges: `a` holds a cell whose parents set has `b`. -/
def ParentEdge (s : Sheet) (a b : Position) : Prop :=
  ∃ c, GetConcreteCell s a = some c ∧ b ∈ c.parents_

/-- The cached value of the cell at `p`, if there is a cell and it has one. -/
def cacheAt (s : Sheet) (p : Position) : Option Value :=
  (GetConcreteCell s p).bind (fun c => c.cache_)

/-- Whether `p` holds a cell whose content is not Empty. -/
def nonEmptyAt (s : Sheet) (p : Position) : Bool := !slotIsFree s p

/-- The sheets a client can produce from `CreateSheet` by calls of `SetCell`, `ClearCell` and
`GetValue`, whether they return or raise.  A call of `SetCell` that ends in `Outcome.undefined`
produces no sheet: nothing is reachable through it. -/
inductive Reachable (L : Library) : Sheet → Prop where
  | create : Reachable L CreateSheet
  | setCell {s s1 : Sheet} (pos : Position) (text : String) :
      Reachable L s → SetCell L s pos text = .ok s1 → Reachable L s1
  | setCellRaised {s s1 : Sheet} (pos : Position) (text : String) (e : Exception) :
      Reachable L s → SetCell L s pos text = .raised e s1 → Reachable L s1
  | clearCell {s s1 : Sheet} (pos : Position) :
      Reachable L s → ClearCell s pos = .ok s1 → Reachable L s1
  | clearCellRaised {s s1 : Sheet} (pos : Position) (e : Exception) :
      Reachable L s → ClearCell s pos = .raised e s1 → Reachable L s1
  | getValue {s s1 : Sheet} (fuel : Nat) (pos : Position) (v : Value) :
      Reachable L s → GetValue L fuel s pos = some (s1, v) → Reachable L s1

/-- The sheet after a call that returns or raises; the sheet before it otherwise. -/
def Outcome.sheet (o : Outcome) (s : Sheet) : Sheet :=
  match o with
  | .ok s1 => s1
  | .raised _ s1 => s1
  | .exhausted => s
  | .undefined => s

/-! ## A sample library and sample positions

The scenarios of the specification name cells in A1 notation and use a handful of formula texts.
The sample parser knows exactly those texts; the sample `strtod` reads decimal digits. -/

/-- Cell A1. -/
def A1 : Position := ⟨0, 0⟩
/-- Cell A2. -/
def A2 : Position := ⟨1, 0⟩
/-- Cell A3. -/
def A3 : Position := ⟨2, 0⟩
/-- Cell B1. -/
def B1 : Position := ⟨0, 1⟩
/-- Cell B2. -/
def B2 : Position := ⟨1, 1⟩
/-- Cell C1. -/
def C1 : Position := ⟨0, 2⟩

/-- A parser for the formula texts of the scenarios. -/
def sampleParse (t : String) : Option FormulaAST :=
  if t = "A1" then some (.cell A1)
  else if t = "A2" then some (.cell A2)
  else if t = "A3" then some (.cell A3)
  else if t = "B1" then some (.cell B1)
  else if t = "A1+1" then some (.add (.cell A1) (.num 1))
  else if t = "B1+1" then some (.add (.cell B1) (.num 1))
  else if t = "C1" then some (.cell C1)
  else if t = "B2+A1+B2" then some (.add (.add (.cell B2) (.cell A1)) (.cell B2))
  else none

/-- The value of a run of decimal digits and its length. -/
def sampleDigits : List Char → Nat → Nat × Nat
  | [], acc => (acc, 0)
  | c :: rest, acc =>
    if 48 ≤ c.toNat ∧ c.toNat ≤ 57 then
      ((sampleDigits rest (acc * 10 + (c.toNat - 48))).1,
       (sampleDigits rest (acc * 10 + (c.toNat - 48))).2 + 1)
    else (acc, 0)

/-- A library for the scenarios. -/
def sampleLibrary : Library where
  ParseFormulaAST := sampleParse
  PrintFormula := fun _ => ""
  strtod := fun cs => (((sampleDigits cs 0).1 : Number), (sampleDigits cs 0).2)
  printNumber := fun _ => ""

/-! ## Vocabulary of the proofs -/

/-- A path of child edges from a position to `bad` none of whose cells before `bad` is in `V`. -/
inductive PathAvoid (s : Sheet) (bad : Position) (V : List Position) : Position → Prop where
  | here : PathAvoid s bad V bad
  | step {x y : Position} {c : Cell} : x ∉ V → GetConcreteCell s x = some c → y ∈ c.children_ →
      PathAvoid s bad V y → PathAvoid s bad V x

/-- The sheet `s1` is what `SetCell(pos, text)` leaves when lines 27 to 44 run and the new cell
takes the slot of `pos`. -/
def Installs (L : Library) (s : Sheet) (pos : Position) (text : String) (s1 : Sheet) : Prop :=
  ∃ new_cell st, pos.IsValid = true ∧ Cell.make L text = some new_cell ∧
    FindCyclicDeps s pos new_cell = some false ∧
    InvalidateCache pos (SetCell_wired s pos new_cell) = some st ∧
    s1 = SetCell_install pos st

/-- A change of the sheet that keeps the counters, the slots in range, which cells are not Empty
and the children of the cells it keeps. -/
structure Mild (s s1 : Sheet) : Prop where
  rows : s1.row_cells_count_ = s.row_cells_count_
  cols : s1.col_cells_count_ = s.col_cells_count_
  size : ∀ q, CheckSize s q = true → CheckSize s1 q = true
  nonEmpty : ∀ q, nonEmptyAt s1 q = nonEmptyAt s q
  children : ∀ q c1, GetConcreteCell s1 q = some c1 →
    c1.children_ = [] ∨ ∃ c, GetConcreteCell s q = some c ∧ c1.children_ = c.children_

/-- The parent edges as `SetCell(pos, _)` sees them while the new cell is not yet installed. -/
def OverlayParent (pos : Position) (st : Sheet × Cell) (a b : Position) : Prop :=
  ∃ c, deref pos st a = some c ∧ b ∈ c.parents_

/-- The cache behind a pointer while `SetCell(pos, _)` runs. -/
def overlayCache (pos : Position) (st : Sheet × Cell) (q : Position) : Option Value :=
  (deref pos st q).bind (fun c => c.cache_)

/-- Two sheets that differ in caches only. -/
def UpToCaches (s s1 : Sheet) : Prop :=
  s1.row_cells_count_ = s.row_cells_count_ ∧ s1.col_cells_count_ = s.col_cells_count_ ∧
  (∀ q, CheckSize s1 q = CheckSize s q) ∧
  ∀ q, (GetConcreteCell s1 q).map Cell.InvalidateCache =
    (GetConcreteCell s q).map Cell.InvalidateCache

/-- The second state arises from the first by emptying caches. -/
def Cleared (pos : Position) (st st1 : Sheet × Cell) : Prop :=
  UpToCaches st.1 st1.1 ∧ st1.2.InvalidateCache = st.2.InvalidateCache ∧
  ∀ q, overlayCache pos st q = none → overlayCache pos st1 q = none

/-- A path along `E` from `x` to `y` none of whose positions is in `V`. -/
inductive AncPath (E : Position → Position → Prop) (V : List Position) :
    Position → Position → Prop where
  | here {x : Position} : x ∉ V → AncPath E V x x
  | step {x p y : Position} : x ∉ V → E x p → AncPath E V p y → AncPath E V x y

/-- What a traversal guarantees: it returns, it only empties caches, and it empties the cache of
every position a path of parent edges outside `V` leads to. -/
def TraversalSpec (pos : Position) (V : List Position) (st : Sheet × Cell) (x : Position)
    (r : Option (Sheet × Cell)) : Prop :=
  ∃ st1, r = some st1 ∧ Cleared pos st st1 ∧
    ∀ y, AncPath (OverlayParent pos st) V x y → overlayCache pos st1 y = none

/-- The number of cells of row `r` whose content is not Empty. -/
def rowCount (s : Sheet) (r : Nat) : Nat :=
  (List.range MAX_COLS).countP (fun c => nonEmptyAt s ⟨r, c⟩)

/-- The number of cells of column `c` whose content is not Empty. -/
def colCount (s : Sheet) (c : Nat) : Nat :=
  (List.range MAX_ROWS).countP (fun r => nonEmptyAt s ⟨r, c⟩)

/-- The occupancy maps agree with the grid: a key is present exactly for a row (column) that
holds a cell with content, with the number of such cells as its value; such cells sit at valid
positions only. -/
structure Counted (s : Sheet) : Prop where
  valid : ∀ p, nonEmptyAt s p = true → p.IsValid = true
  rows : ∀ r, CountMap.find s.row_cells_count_ r =
    if rowCount s r = 0 then none else some (rowCount s r)
  cols : ∀ c, CountMap.find s.col_cells_count_ c =
    if colCount s c = 0 then none else some (colCount s c)

/-! ## The sheets of the scenarios -/

/-- The sheet after `SetCell(A1, "=A2")` and `SetCell(A2, "=A3")` on a fresh sheet: A3 holds an
Empty cell whose parents set names A2. -/
def chainSheet : Sheet :=
  { cells_ :=
      [[some (Cell.mk (.Formula (.cell A2)) none [A2] [])],
       [some (Cell.mk (.Formula (.cell A3)) none [A3] [A1])],
       [some (Cell.mk .Empty none [] [A2])]],
    row_cells_count_ := [(1, 1), (0, 1)],
    col_cells_count_ := [(0, 2)] }

/-- The sheet after `GetValue(A1)` on `chainSheet`: the three caches are filled. -/
def chainSheetCached : Sheet :=
  { cells_ :=
      [[some (Cell.mk (.Formula (.cell A2)) (some (.number 0)) [A2] [])],
       [some (Cell.mk (.Formula (.cell A3)) (some (.number 0)) [A3] [A1])],
       [some (Cell.mk .Empty (some (.text "")) [] [A2])]],
    row_cells_count_ := [(1, 1), (0, 1)],
    col_cells_count_ := [(0, 2)] }

/-- The sheet after `SetCell(A3, "5")` on `chainSheetCached`. -/
def chainSheetReset : Sheet :=
  { cells_ :=
      [[some (Cell.mk (.Formula (.cell A2)) none [A2] [])],
       [some (Cell.mk (.Formula (.cell A3)) none [A3] [A1])],
       [some (Cell.mk (.Text "5") none [] [A2])]],
    row_cells_count_ := [(2, 1), (1, 1), (0, 1)],
    col_cells_count_ := [(0, 3)] }

/-- The sheet after `SetCell(A2, "=A1+1")` and `SetCell(A1, "10")` on a fresh sheet. -/
def sumSheet : Sheet :=
  { cells_ :=
      [[some (Cell.mk (.Text "10") none [] [A2])],
       [some (Cell.mk (.Formula (.add (.cell A1) (.num 1))) none [A1] [])]],
    row_cells_count_ := [(0, 1), (1, 1)],
    col_cells_count_ := [(0, 2)] }

/-- The sheet after `GetValue(A2)` on `sumSheet` with the sample library. -/
def sumSheetCached : Sheet :=
  ((GetValue sampleLibrary 3 sumSheet A2).map (fun r => r.1)).getD sumSheet

/-- The sheet after `ClearCell(A1)` on `sumSheetCached`. -/
def sumSheetCleared : Sheet := (ClearCell sumSheetCached A1).sheet sumSheetCached

/-- The sheet after `SetCell(A1, "")` on a fresh sheet: a Text cell with the empty text. -/
def blankSheet : Sheet :=
  { cells_ := [[some (Cell.mk (.Text "") none [] [])]],
    row_cells_count_ := [(0, 1)],
    col_cells_count_ := [(0, 1)] }

/-- The sheet after `SetCell(B2, "x")` on a fresh sheet. -/
def cornerSheet : Sheet :=
  { cells_ := [[], [none, some (Cell.mk (.Text "x") none [] [])]],
    row_cells_count_ := [(1, 1)],
    col_cells_count_ := [(1, 1)] }

/-- The sheet after `ClearCell(B2)` on `cornerSheet`. -/
def cornerSheetCleared : Sheet :=
  { cells_ := [[], [none, none]], row_cells_count_ := [], col_cells_count_ := [] }

/-! ## The dependency graph is linked both ways -/

/-- The slot of a child after `RemoveParent(_, old)`. -/
def removedFrom (old : Position) (o : Option Cell) : Option Cell :=
  match o with
  | none => none
  | some c =>
    if (c.RemoveParent old).IsEmpty ∧ (c.RemoveParent old).parents_ = [] then none
    else some (c.RemoveParent old)

/-- The slot of a child after `GetOrCreateConcreteCell(_).AddParent(pos)`. -/
def addedTo (pos : Position) (o : Option Cell) : Option Cell :=
  some ((o.getD Cell.makeEmpty).AddParent pos)

/-- Invariant 1 of the data model, with what it needs to be inductive: every child of a cell of
the grid is occupied and names the cell among its parents; every parent named by a cell is
occupied and has the cell among its children; an Empty cell has no children. -/
structure Linked (s : Sheet) : Prop where
  child : ∀ a c p, GetConcreteCell s a = some c → p ∈ c.children_ →
    ∃ cp, GetConcreteCell s p = some cp ∧ a ∈ cp.parents_
  parent : ∀ x cx a, GetConcreteCell s x = some cx → a ∈ cx.parents_ →
    ∃ ca, GetConcreteCell s a = some ca ∧ x ∈ ca.children_
  leaf : ∀ a c, GetConcreteCell s a = some c → c.IsEmpty = true → c.children_ = []

/-- The children list of every cell of the grid is strictly increasing. -/
def ChildrenSorted (s : Sheet) : Prop :=
  ∀ a c, GetConcreteCell s a = some c →
    c.children_.Pairwise (fun x y => Position.lt x y = true)

/-- Every call of `RemoveParent` in the loop over the children of the old cell finds a cell in
the slot it dereferences. -/
def unwireMeetsCells (pos : Position) : Sheet → List Position → Prop
  | _, [] => True
  | s, child_pos :: rest =>
    (GetConcreteCell s child_pos).isSome = true ∧
      unwireMeetsCells pos (RemoveParent s child_pos pos) rest

/-! ## Further methods and vocabulary -/

/-- The method `Cell::GetReferencedCells`. -/
def Cell.GetReferencedCells (c : Cell) : List Position := c.children_

/-- Invariant 3 of the data model: every cell kept in the grid has content or parents. -/
def Retained (s : Sheet) : Prop :=
  ∀ p c, GetConcreteCell s p = some c → c.IsEmpty = false ∨ c.parents_ ≠ []

/-- The children list of every cell of the grid is what its content references. -/
def ChildrenOfImpl (s : Sheet) : Prop :=
  ∀ p c, GetConcreteCell s p = some c → c.children_ = c.impl_.GetReferencedCells

/-- What the specification says of the referenced cells of a cell: `GetReferencedCells` is the
children list; for a formula it is strictly increasing, without duplicates, and holds exactly the
positions of the expression; for an Empty or Text cell it is empty. -/
def ReferencedCellsSpec (c : Cell) : Prop :=
  c.GetReferencedCells = c.children_ ∧
  (∀ ast, c.impl_ = .Formula ast →
    c.GetReferencedCells.Pairwise (fun a b => Position.lt a b = true) ∧
    c.GetReferencedCells.Nodup ∧
    ∀ q, q ∈ c.GetReferencedCells ↔ q ∈ ast.GetCells) ∧
  (c.impl_ = .Empty → c.GetReferencedCells = []) ∧
  (∀ t, c.impl_ = .Text t → c.GetReferencedCells = [])

/-- A position outside the valid range: row `MAX_ROWS`. -/
def beyondLastRow : Position := ⟨MAX_ROWS, 0⟩

/-! ## The sheets of runs that go on from an invalidated reference -/

/-- The sheets a run of the program can hold: those a client produces by calls that return or
raise, and those a call of `SetCell` leaves whose wiring loop has resized the row of its slot,
be it that the resize found room in the capacity of the row (`SetCell_inPlace`) or that it moved
the row and the run goes on from the invalidated reference as `SetCell_goesOn` describes,
whatever the test of line 40 reads.  The sheet does not record capacities, so at such a call both
courses are taken in: the set is an upper bound of what any one build produces, and it holds the
sheets of `Reachable`.  A parents entry stands for a position here as everywhere; after a call
that went on, an entry that names its position is the one of the cell that was not installed. -/
inductive Attainable (L : Library) : Sheet → Prop where
  | create : Attainable L CreateSheet
  | setCell {s s1 : Sheet} (pos : Position) (text : String) :
      Attainable L s → SetCell L s pos text = .ok s1 → Attainable L s1
  | setCellRaised {s s1 : Sheet} (pos : Position) (text : String) (e : Exception) :
      Attainable L s → SetCell L s pos text = .raised e s1 → Attainable L s1
  | inPlace {s s1 : Sheet} (pos : Position) (text : String) :
      Attainable L s → SetCell_inPlace L s pos text = some s1 → Attainable L s1
  | goesOn {s s1 : Sheet} (pos : Position) (text : String) (test : Bool) :
      Attainable L s → SetCell_goesOn L s pos text test = some s1 → Attainable L s1
  | clearCell {s s1 : Sheet} (pos : Position) :
      Attainable L s → ClearCell s pos = .ok s1 → Attainable L s1
  | clearCellRaised {s s1 : Sheet} (pos : Position) (e : Exception) :
      Attainable L s → ClearCell s pos = .raised e s1 → Attainable L s1
  | getValue {s s1 : Sheet} (fuel : Nat) (pos : Position) (v : Value) :
      Attainable L s → GetValue L fuel s pos = some (s1, v) → Attainable L s1

/-! ## Sheets around a call that invalidates its slot reference -/

/-- The sheet a run leaves that goes on through `SetCell(B1, "=C1")` on a fresh sheet, the test
of line 40 reading true: the formula cell is nowhere in the grid, the Empty cell created for C1
names B1 as its parent, and both counters are raised. -/
def lostSheet : Sheet :=
  { cells_ := [[none, none, some (Cell.mk .Empty none [] [B1])]],
    row_cells_count_ := [(0, 1)],
    col_cells_count_ := [(1, 1)] }

/-- The sheet after `SetCell(A2, "=B1")` on a fresh sheet: B1 holds the Empty cell created for
it, whose parents set names A2. -/
def heldSheet : Sheet :=
  { cells_ :=
      [[none, some (Cell.mk .Empty none [] [A2])],
       [some (Cell.mk (.Formula (.cell B1)) none [B1] [])]],
    row_cells_count_ := [(1, 1)],
    col_cells_count_ := [(0, 1)] }

/-- The sheet a run leaves that goes on through `SetCell(B1, "=C1")` on `heldSheet`, the test of
line 40 reading true: B1 keeps the Empty cell, now without parents. -/
def bareSheet : Sheet :=
  { cells_ :=
      [[none, some (Cell.mk .Empty none [] []), some (Cell.mk .Empty none [] [B1])],
       [some (Cell.mk (.Formula (.cell B1)) none [B1] [])]],
    row_cells_count_ := [(0, 1), (1, 1)],
    col_cells_count_ := [(1, 1), (0, 1)] }

/-- The sheet after `SetCell(A3, "=B1")` and `ClearCell(A3)` on `bareSheet`: the slot of B1 is
empty although the formula at A2 has B1 as its child. -/
def orphanSheet : Sheet :=
  { cells_ :=
      [[none, none, some (Cell.mk .Empty none [] [B1])],
       [some (Cell.mk (.Formula (.cell B1)) none [B1] [])],
       [none]],
    row_cells_count_ := [(0, 1), (1, 1)],
    col_cells_count_ := [(0, 1), (1, 1)] }

/-- The sheet after `SetCell(B1, "5")` and `GetValue(B1)` on a fresh sheet: the cache of B1 is
filled. -/
def fiveSheet : Sheet :=
  { cells_ := [[none, some (Cell.mk (.Text "5") (some (.text "5")) [] [])]],
    row_cells_count_ := [(0, 1)],
    col_cells_count_ := [(1, 1)] }

/-- The grid a run leaves that goes on through `SetCell(B1, "=C1")` on `fiveSheet`: B1 keeps the
Text cell and its cache. -/
def fiveGrid : List (List (Option Cell)) :=
  [[none, some (Cell.mk (.Text "5") (some (.text "5")) [] []),
    some (Cell.mk .Empty none [] [B1])]]

/-- The sheet after `SetCell(A3, "=B2+A1+B2")` on a fresh sheet: the formula references B2 twice
and A1 once, its children list is `[A1, B2]`. -/
def tripleSheet : Sheet :=
  { cells_ :=
      [[some (Cell.mk .Empty none [] [A3])],
       [none, some (Cell.mk .Empty none [] [A3])],
       [some (Cell.mk (.Formula (.add (.add (.cell B2) (.cell A1)) (.cell B2))) none [A1, B2]
          [])]],
    row_cells_count_ := [(2, 1)],
    col_cells_count_ := [(0, 1)] }

/-! ## The lookup of an evaluation -/

/-- The lambda `Formula::Evaluate` hands to `Execute` (formula.cpp, lines 63 to 76): the number
behind a position, through `cellGetValue` (the method `Cell::GetValue`). -/
def Evaluate_lookup (L : Library) (cellGetValue : Sheet → Position → Option (Sheet × Value))
    (s1 : Sheet) (pos : Position) : Evaluated :=
  if !pos.IsValid then some (s1, .error .Ref)
  else
    match GetConcreteCell s1 pos with
    | none => some (s1, .ok 0)
    | some _ =>
      match cellGetValue s1 pos with
      | none => none
      | some (s2, val) => some (s2, ValueToDouble L val)

/-- The wording of the specification: the string is entirely a numeric literal, that is, `strtod`
reads at least one character and all of the string. -/
def NumericLiteral (L : Library) (val : String) : Prop :=
  0 < (L.strtod val.data).2 ∧ (L.strtod val.data).2 = val.data.length

/-- The part of a string a C function sees: the characters before the first terminator. -/
def cString (val : String) : List Char := val.data.takeWhile (fun ch => decide (ch ≠ NUL))

/-- The text of six characters `12`, NUL, `abc`. -/
def nulText : String := String.mk ['1', '2', NUL, 'a', 'b', 'c']

/-- The sheet after `SetCell(A1, nulText)` and `SetCell(A2, "=A1")` on a fresh sheet. -/
def nulSheet : Sheet :=
  { cells_ :=
      [[some (Cell.mk (.Text nulText) none [] [A2])],
       [some (Cell.mk (.Formula (.cell A1)) none [A1] [])]],
    row_cells_count_ := [(1, 1), (0, 1)],
    col_cells_count_ := [(0, 2)] }

/-! ## The traversals with one visited set shared by all calls

The source hands `visited` to each call by value.  The definitions of this section are the same
traversals with the set handed by reference: a call returns the set with what it added, and the
next sibling starts from it.  They are what the per-path traversals are compared with. -/

/-- The loop over the children when the visited set is shared. -/
def anyChildShared (f : List Position → Position → Option (Bool × List Position)) :
    List Position → List Position → Option (Bool × List Position)
  | [], visited => some (false, visited)
  | c :: rest, visited =>
    match f visited c with
    | none => none
    | some (true, visited1) => some (true, visited1)
    | some (false, visited1) => anyChildShared f rest visited1

/-- The traversal of `FindCyclicDepsImpl` with a shared visited set. -/
def FindCyclicDepsShared (s : Sheet) :
    Nat → List Position → Position → Position → Option (Bool × List Position)
  | 0, _, _, _ => none
  | fuel + 1, visited, pos, bad_pos =>
    if pos = bad_pos then some (true, visited)
    else
      match GetConcreteCell s pos with
      | none => some (false, visited)
      | some cell =>
        if pos ∈ visited then some (false, visited)
        else
          anyChildShared (fun visited1 child_pos =>
              FindCyclicDepsShared s fuel visited1 child_pos bad_pos)
            cell.children_ (pos :: visited)

/-- The check of `FindCyclicDeps` with one visited set for all the children of the new cell. -/
def FindCyclicDepsSharedAll (s : Sheet) (cell_pos : Position) (cell : Cell) : Option Bool :=
  if cell.children_ = [] then some false
  else
    (anyChildShared (fun visited pos =>
        FindCyclicDepsShared s ((occupied s).length + 1) visited pos cell_pos)
      cell.children_ []).map (fun r => r.1)

/-- The traversal of `InvalidateCacheImpl` with a shared visited set. -/
def InvalidateCacheShared (pos : Position) :
    Nat → (Sheet × Cell) × List Position → Position → Option ((Sheet × Cell) × List Position)
  | 0, _, _ => none
  | fuel + 1, acc, cell =>
    if cell ∈ acc.2 then some acc
    else
      match deref pos acc.1 cell with
      | none => some acc
      | some c =>
        forEachParent (fun acc1 parent_cell => InvalidateCacheShared pos fuel acc1 parent_cell)
          c.parents_ (invalidateAt pos acc.1 cell, cell :: acc.2)

/-- The traversal of `InvalidateCache` with one visited set for all the parents of the cell. -/
def InvalidateCacheSharedAll (pos : Position) (st : Sheet × Cell) : Option (Sheet × Cell) :=
  let st1 : Sheet × Cell := (st.1, st.2.InvalidateCache)
  (forEachParent (fun acc parent_cell =>
      InvalidateCacheShared pos ((occupied st.1).length + 2) acc parent_cell)
    st1.2.parents_ (st1, [])).map (fun r => r.1)

/-- The cells the shared cycle check has finished with: every position the traversal added to
`V` is not the target, and each child of its cell is not the target and is absent or in `V1`. -/
def ClosedIn (s : Sheet) (bad : Position) (V V1 : List Position) : Prop :=
  ∀ z ∈ V1, z ∉ V → z ≠ bad ∧
    ∀ c, GetConcreteCell s z = some c → ∀ y ∈ c.children_,
      y ≠ bad ∧ (GetConcreteCell s y = none ∨ y ∈ V1)

/-- What a call of the shared cycle check guarantees. -/
def SharedSpec (s : Sheet) (bad : Position) (V : List Position) (x : Position)
    (r : Option (Bool × List Position)) : Prop :=
  ∃ b V1, r = some (b, V1) ∧ (∀ v ∈ V, v ∈ V1) ∧ V1.Nodup ∧ (∀ v ∈ V1, v ∈ occupied s) ∧
    (b = true → PathAvoid s bad V x) ∧
    (b = false → x ≠ bad ∧ (GetConcreteCell s x = none ∨ x ∈ V1) ∧ ClosedIn s bad V V1)

/-- The second state is the first with the caches of the cells at the positions in `R` emptied
and nothing else changed: counters, shape of the grid, the slot at `pos` itself (shadowed by the
new cell while `SetCell(pos, _)` runs) and every other cell. -/
structure ClearedExactly (pos : Position) (R : Position → Prop) (st st1 : Sheet × Cell) :
    Prop where
  rows : st1.1.row_cells_count_ = st.1.row_cells_count_
  cols : st1.1.col_cells_count_ = st.1.col_cells_count_
  height : st1.1.cells_.length = st.1.cells_.length
  width : ∀ r, (st1.1.rowAt r).length = (st.1.rowAt r).length
  slot : GetConcreteCell st1.1 pos = GetConcreteCell st.1 pos
  hit : ∀ q, R q → deref pos st1 q = (deref pos st q).map Cell.InvalidateCache
  miss : ∀ q, ¬ R q → deref pos st1 q = deref pos st q

/-- Two states with the same cells up to caches behind every pointer. -/
def SameGraph (pos : Position) (st0 st : Sheet × Cell) : Prop :=
  ∀ q, (deref pos st q).map Cell.InvalidateCache = (deref pos st0 q).map Cell.InvalidateCache

/-- What a call of the shared invalidation traversal guarantees, in terms of the parent edges and
the cells of a state `st0` with the same graph: the set only grows, the caches of exactly the new
members are emptied, each new member holds a cell and is reached from `x` by parent edges outside
`V`, `x` itself is visited or absent, and every parent of a new member is visited or absent. -/
structure SharedClears (pos : Position) (st0 : Sheet × Cell) (nodes V : List Position)
    (st : Sheet × Cell) (st1 : Sheet × Cell) (V1 : List Position) : Prop where
  grows : ∀ v ∈ V, v ∈ V1
  nodup : V1.Nodup
  known : ∀ v ∈ V1, v ∈ nodes
  clears : ClearedExactly pos (fun q => q ∈ V1 ∧ q ∉ V) st st1
  closed : ∀ z ∈ V1, z ∉ V → ∀ p, OverlayParent pos st0 z p →
    p ∈ V1 ∨ deref pos st0 p = none
  occupied : ∀ z ∈ V1, z ∉ V → (deref pos st0 z).isSome = true

/-- A sheet whose graph has a cycle (no sequence of calls builds it): A1 and A2 reference each
other, each is the parent of the other, and both hold a cached value. -/
def loopSheet : Sheet :=
  { cells_ :=
      [[some (Cell.mk (.Formula (.cell A2)) (some (.number 1)) [A2] [A2])],
       [some (Cell.mk (.Formula (.cell A1)) (some (.number 2)) [A1] [A1])]],
    row_cells_count_ := [(1, 1), (0, 1)],
    col_cells_count_ := [(0, 2)] }

/-! ## Printing

The stream `output` is the list of the characters written to it so far. -/

theorem getD_set_list {α : Type} (l : List α) (i j : Nat) (x d : α) :
    (l.set i x).getD j d = if i = j ∧ i < l.length then x else l.getD j d := by
  simp only [List.getD_eq_getElem?_getD, List.getElem?_set]
  by_cases h : i = j
  · subst h
    by_cases h2 : i < l.length
    · simp [h2]
    · simp [h2, List.getElem?_eq_none (Nat.le_of_not_lt h2)]
  · simp [h]

theorem getD_of_length_le {α : Type} (l : List α) (j : Nat) (d : α) (h : l.length ≤ j) :
    l.getD j d = d := by
  rw [List.getD_eq_getElem?_getD, List.getElem?_eq_none h]; rfl

theorem getD_resize {α : Type} (l : List α) (n j : Nat) (d : α) (h : l.length ≤ n) :
    (resize l n d).getD j d = l.getD j d := by
  unfold resize
  rw [List.take_of_length_le h]
  simp only [List.getD_eq_getElem?_getD]
  by_cases hj : j < l.length
  · rw [List.getElem?_append_left hj]
  · rw [List.getElem?_append_right (by omega)]
    simp only [List.getElem?_replicate]
    have : l[j]? = none := by simp; omega
    rw [this]
    split <;> rfl

theorem length_resize {α : Type} (l : List α) (n : Nat) (d : α) :
    (resize l n d).length = n := by
  unfold resize
  simp
  omega

theorem getD_getD_set {α : Type} (g : List (List α)) (r c r1 c1 : Nat) (v d : α) :
    ((g.set r ((g.getD r []).set c v)).getD r1 []).getD c1 d =
      if (r1 = r ∧ c1 = c) ∧ (r < g.length ∧ c < (g.getD r []).length) then v
      else (g.getD r1 []).getD c1 d := by
  rw [getD_set_list]
  by_cases hr : r = r1
  · subst hr
    by_cases h1 : r < g.length
    · rw [if_pos ⟨rfl, h1⟩, getD_set_list]
      by_cases hc : c = c1
      · subst hc
        by_cases h2 : c < (g.getD r []).length
        · rw [if_pos ⟨rfl, h2⟩, if_pos ⟨⟨rfl, rfl⟩, h1, h2⟩]
        · rw [if_neg (fun h => h2 h.2), if_neg (fun h => h2 h.2.2)]
      · rw [if_neg (fun h => hc h.1), if_neg (fun h => hc h.1.2.symm)]
    · rw [if_neg (fun h => h1 h.2), if_neg (fun h => h1 h.2.1)]
  · rw [if_neg (fun h => hr h.1), if_neg (fun h => hr h.1.1.symm)]

theorem GetConcreteCell_eq (s : Sheet) (p : Position) :
    GetConcreteCell s p = (s.cells_.getD p.row []).getD p.col none := by
  unfold GetConcreteCell CheckSize Sheet.rowAt
  split
  · rfl
  · rename_i h
    simp only [Bool.and_eq_true, decide_eq_true_eq, not_and, not_lt] at h
    by_cases h1 : p.row < s.cells_.length
    · rw [getD_of_length_le _ _ _ (h h1)]
    · rw [getD_of_length_le s.cells_ _ _ (by omega)]; rfl

theorem CheckSize_iff (s : Sheet) (p : Position) :
    CheckSize s p = true ↔ p.row < s.cells_.length ∧ p.col < (s.cells_.getD p.row []).length := by
  unfold CheckSize Sheet.rowAt
  simp

theorem CheckSize_of_some {s : Sheet} {p : Position} {c : Cell}
    (h : GetConcreteCell s p = some c) : CheckSize s p = true := by
  unfold GetConcreteCell at h
  split at h
  · assumption
  · cases h

theorem GetConcreteCell_setSlot (s : Sheet) (p q : Position) (v : Option Cell) :
    GetConcreteCell (s.setSlot p v) q =
      if q = p then (if CheckSize s p then v else none) else GetConcreteCell s q := by
  rw [GetConcreteCell_eq, GetConcreteCell_eq]
  unfold Sheet.setSlot Sheet.rowAt
  rw [getD_getD_set]
  by_cases hq : q = p
  · subst hq
    rw [if_pos rfl]
    by_cases hc : CheckSize s q = true
    · rw [if_pos hc, if_pos ⟨⟨rfl, rfl⟩, (CheckSize_iff s q).1 hc⟩]
    · rw [if_neg hc, if_neg (fun h => hc ((CheckSize_iff s q).2 h.2))]
      have := GetConcreteCell_eq s q
      unfold GetConcreteCell at this
      rw [if_neg hc] at this
      exact this.symm
  · rw [if_neg hq, if_neg]
    intro h
    apply hq
    cases p; cases q
    simp only [Position.mk.injEq]
    exact h.1

theorem CheckSize_setSlot (s : Sheet) (p q : Position) (v : Option Cell) :
    CheckSize (s.setSlot p v) q = CheckSize s q := by
  unfold CheckSize Sheet.setSlot Sheet.rowAt
  simp only [List.length_set]
  by_cases hr : p.row = q.row
  · rw [getD_set_list]
    by_cases h1 : p.row < s.cells_.length
    · rw [if_pos ⟨hr, h1⟩, List.length_set, hr]
    · rw [if_neg (fun h => h1 h.2)]
  · rw [getD_set_list, if_neg (fun h => hr h.1)]

theorem rowAt_setSlot_length (s : Sheet) (p : Position) (v : Option Cell) (r : Nat) :
    ((s.setSlot p v).rowAt r).length = (s.rowAt r).length := by
  unfold Sheet.setSlot Sheet.rowAt
  simp only
  rw [getD_set_list]
  split
  · rename_i h
    rw [List.length_set, h.1]
  · rfl

theorem MaybeIncrease_rows (s : Sheet) (p : Position) :
    ∃ rows : List (List (Option Cell)),
      (if p.row ≥ s.cells_.length then resize s.cells_ (p.row + 1) [] else s.cells_) = rows ∧
      (∀ r, rows.getD r [] = s.cells_.getD r []) ∧ p.row < rows.length ∧
      s.cells_.length ≤ rows.length := by
  refine ⟨_, rfl, ?_, ?_, ?_⟩
  · intro r
    split
    · rw [getD_resize]; omega
    · rfl
  · split
    · rw [length_resize]; omega
    · omega
  · split
    · rw [length_resize]; omega
    · omega

theorem GetConcreteCell_MaybeIncrease (s : Sheet) (p q : Position) :
    GetConcreteCell (MaybeIncreaseSizeToIncludePosition s p) q = GetConcreteCell s q := by
  rw [GetConcreteCell_eq, GetConcreteCell_eq]
  unfold MaybeIncreaseSizeToIncludePosition
  simp only
  obtain ⟨rows, hR, hrows, hlen, -⟩ := MaybeIncrease_rows s p
  rw [hR, getD_set_list]
  split
  · rename_i h
    rw [← h.1, hrows]
    split
    · rw [getD_resize]; omega
    · rfl
  · rw [hrows]

theorem CheckSize_MaybeIncrease_self (s : Sheet) (p : Position) :
    CheckSize (MaybeIncreaseSizeToIncludePosition s p) p = true := by
  rw [CheckSize_iff]
  unfold MaybeIncreaseSizeToIncludePosition
  simp only [List.length_set]
  obtain ⟨rows, hR, hrows, hlen, -⟩ := MaybeIncrease_rows s p
  rw [hR]
  refine ⟨hlen, ?_⟩
  rw [getD_set_list, if_pos ⟨rfl, hlen⟩]
  split
  · rw [length_resize]; omega
  · omega

/-! ## Cycle detection computes reachability -/

theorem anyChild_true {f : Position → Option Bool} {l : List Position}
    (h : anyChild f l = some true) : ∃ c ∈ l, f c = some true := by
  induction l with
  | nil => simp [anyChild] at h
  | cons a rest ih =>
    unfold anyChild at h
    cases hfa : f a with
    | none => rw [hfa] at h; cases h
    | some b =>
      cases b with
      | true => exact ⟨a, List.mem_cons_self _ _, hfa⟩
      | false =>
        rw [hfa] at h
        obtain ⟨c, hc, hfc⟩ := ih h
        exact ⟨c, List.mem_cons_of_mem _ hc, hfc⟩

theorem anyChild_total {f : Position → Option Bool} {l : List Position}
    (h : ∀ c ∈ l, ∃ b, f c = some b) : ∃ b, anyChild f l = some b := by
  induction l with
  | nil => exact ⟨false, rfl⟩
  | cons a rest ih =>
    obtain ⟨b, hb⟩ := h a (List.mem_cons_self _ _)
    unfold anyChild
    rw [hb]
    cases b with
    | true => exact ⟨true, rfl⟩
    | false => exact ih (fun c hc => h c (List.mem_cons_of_mem _ hc))

theorem anyChild_complete {f : Position → Option Bool} {l : List Position}
    (h : ∀ c ∈ l, ∃ b, f c = some b) (hex : ∃ c ∈ l, f c = some true) :
    anyChild f l = some true := by
  induction l with
  | nil => obtain ⟨c, hc, -⟩ := hex; cases hc
  | cons a rest ih =>
    obtain ⟨b, hb⟩ := h a (List.mem_cons_self _ _)
    unfold anyChild
    rw [hb]
    cases b with
    | true => rfl
    | false =>
      apply ih (fun c hc => h c (List.mem_cons_of_mem _ hc))
      obtain ⟨c, hc, hfc⟩ := hex
      rcases List.mem_cons.1 hc with rfl | hc1
      · rw [hb] at hfc; cases hfc
      · exact ⟨c, hc1, hfc⟩

theorem mem_occupied (s : Sheet) (p : Position) :
    p ∈ occupied s ↔ (GetConcreteCell s p).isSome = true := by
  unfold occupied
  simp only [List.mem_flatMap, List.mem_range, List.mem_map, List.mem_filter]
  constructor
  · rintro ⟨r, -, c, ⟨-, hc⟩, rfl⟩
    exact hc
  · intro h
    have hs : CheckSize s p = true := by
      cases hg : GetConcreteCell s p with
      | none => rw [hg] at h; cases h
      | some c => exact CheckSize_of_some hg
    have := (CheckSize_iff s p).1 hs
    exact ⟨p.row, this.1, p.col, ⟨this.2, h⟩, rfl⟩

theorem PathAvoid.split_child {s : Sheet} {bad : Position} {V : List Position} {y : Position}
    (h : PathAvoid s bad V y) (x : Position) :
    PathAvoid s bad (x :: V) y ∨
      ∃ c z, GetConcreteCell s x = some c ∧ z ∈ c.children_ ∧ PathAvoid s bad (x :: V) z := by
  induction h with
  | here => exact Or.inl .here
  | @step u w c hu hc hw _ ih =>
    rcases ih with ih | ih
    · by_cases hux : u = x
      · subst hux
        exact Or.inr ⟨c, w, hc, hw, ih⟩
      · left
        exact .step (by simp [hux, hu]) hc hw ih
    · exact Or.inr ih

theorem PathAvoid.of_reachable {s : Sheet} {bad x : Position}
    (h : Relation.ReflTransGen (Edge s) x bad) : PathAvoid s bad [] x := by
  induction h using Relation.ReflTransGen.head_induction_on with
  | refl => exact .here
  | head hab _ ih =>
    obtain ⟨c, hc, hb⟩ := hab
    exact .step (by simp) hc hb ih

theorem FindCyclicDepsImpl_sound (s : Sheet) (bad : Position) :
    ∀ (fuel : Nat) (V : List Position) (x : Position),
      FindCyclicDepsImpl s fuel V x bad = some true → Relation.ReflTransGen (Edge s) x bad := by
  intro fuel
  induction fuel with
  | zero => intro V x h; simp [FindCyclicDepsImpl] at h
  | succ n ih =>
    intro V x h
    unfold FindCyclicDepsImpl at h
    by_cases hx : x = bad
    · subst hx; exact Relation.ReflTransGen.refl
    · rw [if_neg hx] at h
      cases hc : GetConcreteCell s x with
      | none => rw [hc] at h; cases h
      | some c =>
        rw [hc] at h
        simp only at h
        by_cases hv : x ∈ V
        · rw [if_pos hv] at h; cases h
        · rw [if_neg hv] at h
          obtain ⟨y, hy, hfy⟩ := anyChild_true h
          exact Relation.ReflTransGen.head ⟨c, hc, hy⟩ (ih _ _ hfy)

theorem FindCyclicDepsImpl_total (s : Sheet) (bad : Position) :
    ∀ (fuel : Nat) (V : List Position) (x : Position),
      V.Nodup → (∀ v ∈ V, v ∈ occupied s) → (occupied s).length < fuel + V.length →
      ∃ b, FindCyclicDepsImpl s fuel V x bad = some b := by
  intro fuel
  induction fuel with
  | zero =>
    intro V x hnd hsub hlt
    exfalso
    have := (List.subperm_of_subset hnd hsub).length_le
    omega
  | succ n ih =>
    intro V x hnd hsub hlt
    unfold FindCyclicDepsImpl
    by_cases hx : x = bad
    · exact ⟨true, by rw [if_pos hx]⟩
    · rw [if_neg hx]
      cases hc : GetConcreteCell s x with
      | none => exact ⟨false, rfl⟩
      | some c =>
        simp only
        by_cases hv : x ∈ V
        · exact ⟨false, by rw [if_pos hv]⟩
        · rw [if_neg hv]
          apply anyChild_total
          intro y _
          apply ih
          · exact List.nodup_cons.2 ⟨hv, hnd⟩
          · intro v hv1
            rcases List.mem_cons.1 hv1 with rfl | h1
            · rw [mem_occupied, hc]; rfl
            · exact hsub v h1
          · simp only [List.length_cons]; omega

theorem FindCyclicDepsImpl_complete (s : Sheet) (bad : Position) :
    ∀ (fuel : Nat) (V : List Position) (x : Position),
      V.Nodup → (∀ v ∈ V, v ∈ occupied s) → (occupied s).length < fuel + V.length →
      PathAvoid s bad V x → FindCyclicDepsImpl s fuel V x bad = some true := by
  intro fuel
  induction fuel with
  | zero =>
    intro V x hnd hsub hlt
    exfalso
    have := (List.subperm_of_subset hnd hsub).length_le
    omega
  | succ n ih =>
    intro V x hnd hsub hlt hpath
    unfold FindCyclicDepsImpl
    by_cases hx : x = bad
    · rw [if_pos hx]
    · rw [if_neg hx]
      cases hpath with
      | here => exact absurd rfl hx
      | @step _ y c hxV hc hy hrest =>
        rw [hc]
        simp only
        rw [if_neg hxV]
        have hnd1 : (x :: V).Nodup := List.nodup_cons.2 ⟨hxV, hnd⟩
        have hsub1 : ∀ v ∈ x :: V, v ∈ occupied s := by
          intro v hv1
          rcases List.mem_cons.1 hv1 with rfl | h1
          · rw [mem_occupied, hc]; rfl
          · exact hsub v h1
        have hlt1 : (occupied s).length < n + (x :: V).length := by
          simp only [List.length_cons]; omega
        apply anyChild_complete
        · intro z _
          exact FindCyclicDepsImpl_total s bad n (x :: V) z hnd1 hsub1 hlt1
        · rcases hrest.split_child x with h1 | ⟨c1, z, hc1, hz, h1⟩
          · exact ⟨y, hy, ih _ _ hnd1 hsub1 hlt1 h1⟩
          · rw [hc] at hc1
            cases hc1
            exact ⟨z, hz, ih _ _ hnd1 hsub1 hlt1 h1⟩

theorem FindCyclicDeps_total (s : Sheet) (pos : Position) (cell : Cell) :
    ∃ b, FindCyclicDeps s pos cell = some b := by
  unfold FindCyclicDeps
  split
  · exact ⟨false, rfl⟩
  · apply anyChild_total
    intro c _
    exact FindCyclicDepsImpl_total s pos _ [] c List.nodup_nil (by simp) (by simp)

theorem FindCyclicDeps_eq_true_iff (s : Sheet) (pos : Position) (cell : Cell) :
    FindCyclicDeps s pos cell = some true ↔
      ∃ c ∈ cell.children_, Relation.ReflTransGen (Edge s) c pos := by
  unfold FindCyclicDeps
  constructor
  · intro h
    split at h
    · cases h
    · obtain ⟨c, hc, hfc⟩ := anyChild_true h
      exact ⟨c, hc, FindCyclicDepsImpl_sound s pos _ _ _ hfc⟩
  · rintro ⟨c, hc, hreach⟩
    rw [if_neg (List.ne_nil_of_mem hc)]
    apply anyChild_complete
    · intro z _
      exact FindCyclicDepsImpl_total s pos _ [] z List.nodup_nil (by simp) (by simp)
    · exact ⟨c, hc, FindCyclicDepsImpl_complete s pos _ [] c List.nodup_nil (by simp) (by simp)
        (PathAvoid.of_reachable hreach)⟩

/-! ## Changes that keep counters, contents and children -/

theorem Mild.same (s : Sheet) : Mild s s :=
  ⟨rfl, rfl, fun _ h => h, fun _ => rfl, fun _ c1 h => Or.inr ⟨c1, h, rfl⟩⟩

theorem Mild.andThen {s s1 s2 : Sheet} (h1 : Mild s s1) (h2 : Mild s1 s2) : Mild s s2 := by
  refine ⟨h2.rows.trans h1.rows, h2.cols.trans h1.cols, fun q h => h2.size q (h1.size q h),
    fun q => (h2.nonEmpty q).trans (h1.nonEmpty q), ?_⟩
  intro q c2 hc2
  rcases h2.children q c2 hc2 with h | ⟨c1, hc1, e1⟩
  · exact Or.inl h
  · rcases h1.children q c1 hc1 with h | ⟨c, hc, e⟩
    · exact Or.inl (e1.trans h)
    · exact Or.inr ⟨c, hc, e1.trans e⟩

theorem nonEmptyAt_eq (s : Sheet) (q : Position) :
    nonEmptyAt s q = match GetConcreteCell s q with
      | none => false
      | some c => !c.IsEmpty := by
  unfold nonEmptyAt slotIsFree
  cases GetConcreteCell s q <;> rfl

theorem CheckSize_MaybeIncrease (s : Sheet) (p q : Position) (h : CheckSize s q = true) :
    CheckSize (MaybeIncreaseSizeToIncludePosition s p) q = true := by
  rw [CheckSize_iff] at h ⊢
  unfold MaybeIncreaseSizeToIncludePosition
  simp only [List.length_set]
  obtain ⟨rows, hR, hrows, hlen, hle⟩ := MaybeIncrease_rows s p
  rw [hR]
  refine ⟨by omega, ?_⟩
  rw [getD_set_list]
  split
  · rename_i hh
    rw [← hh.1] at h
    rw [hrows]
    split
    · rw [length_resize]; omega
    · exact h.2
  · rw [hrows]; exact h.2

theorem Mild.maybeIncrease (s : Sheet) (p : Position) :
    Mild s (MaybeIncreaseSizeToIncludePosition s p) := by
  refine ⟨rfl, rfl, fun q h => CheckSize_MaybeIncrease s p q h, ?_, ?_⟩
  · intro q
    rw [nonEmptyAt_eq, nonEmptyAt_eq, GetConcreteCell_MaybeIncrease]
  · intro q c1 h
    rw [GetConcreteCell_MaybeIncrease] at h
    exact Or.inr ⟨c1, h, rfl⟩

/-- Replacing the cell at `p` by one of the same content and children, or creating or deleting an
Empty cell without children there, is a mild change. -/
theorem Mild.setSlot (s : Sheet) (p : Position) (v : Option Cell)
    (hne : (match v with | none => false | some c => !c.IsEmpty) = nonEmptyAt s p)
    (hch : ∀ c1, v = some c1 →
      c1.children_ = [] ∨ ∃ c, GetConcreteCell s p = some c ∧ c1.children_ = c.children_) :
    Mild s (s.setSlot p v) := by
  refine ⟨rfl, rfl, fun q h => by rw [CheckSize_setSlot]; exact h, ?_, ?_⟩
  · intro q
    rw [nonEmptyAt_eq, GetConcreteCell_setSlot]
    by_cases hq : q = p
    · subst hq
      rw [if_pos rfl]
      by_cases hc : CheckSize s q = true
      · rw [if_pos hc]; exact hne
      · rw [if_neg hc, nonEmptyAt_eq]
        have : GetConcreteCell s q = none := by
          unfold GetConcreteCell; rw [if_neg hc]
        rw [this]
    · rw [if_neg hq, nonEmptyAt_eq]
  · intro q c1 h
    rw [GetConcreteCell_setSlot] at h
    by_cases hq : q = p
    · subst hq
      rw [if_pos rfl] at h
      by_cases hc : CheckSize s q = true
      · rw [if_pos hc] at h; exact hch c1 h
      · rw [if_neg hc] at h; cases h
    · rw [if_neg hq] at h
      exact Or.inr ⟨c1, h, rfl⟩

theorem Mild.removeParent (s : Sheet) (q old : Position) : Mild s (RemoveParent s q old) := by
  unfold RemoveParent
  cases hc : GetConcreteCell s q with
  | none => exact Mild.same s
  | some c =>
    simp only
    split
    · rename_i h
      apply Mild.setSlot
      · rw [nonEmptyAt_eq, hc]
        have : c.IsEmpty = true := h.1
        simp [this]
      · intro c1 h1; cases h1
    · apply Mild.setSlot
      · rw [nonEmptyAt_eq, hc]; rfl
      · intro c1 h1
        cases h1
        exact Or.inr ⟨c, hc, rfl⟩

theorem GetConcreteCell_removeParent_ne (s : Sheet) (q old p : Position) (h : p ≠ q) :
    GetConcreteCell (RemoveParent s q old) p = GetConcreteCell s p := by
  unfold RemoveParent
  cases GetConcreteCell s q with
  | none => rfl
  | some c =>
    simp only
    split <;> rw [GetConcreteCell_setSlot, if_neg h]

theorem Mild.unwire (s : Sheet) (pos : Position) (l : List Position) : Mild s (unwire s pos l) := by
  unfold Spreadsheet.unwire
  induction l generalizing s with
  | nil => exact Mild.same s
  | cons a rest ih =>
    rw [List.foldl_cons]
    exact (Mild.removeParent s a pos).andThen (ih _)

theorem GetConcreteCell_unwire_not_mem (s : Sheet) (pos : Position) (l : List Position)
    (p : Position) (h : p ∉ l) :
    GetConcreteCell (unwire s pos l) p = GetConcreteCell s p := by
  unfold Spreadsheet.unwire
  induction l generalizing s with
  | nil => rfl
  | cons a rest ih =>
    rw [List.foldl_cons, ih _ (fun hh => h (List.mem_cons_of_mem _ hh)),
      GetConcreteCell_removeParent_ne]
    intro hh
    exact h (hh ▸ List.mem_cons_self _ _)

theorem Mild.getOrCreate (s : Sheet) (q : Position) : Mild s (GetOrCreateConcreteCell s q) := by
  unfold GetOrCreateConcreteCell
  simp only
  cases hc : GetConcreteCell (MaybeIncreaseSizeToIncludePosition s q) q with
  | none =>
    simp only
    apply (Mild.maybeIncrease s q).andThen
    apply Mild.setSlot
    · rw [nonEmptyAt_eq, hc]; rfl
    · intro c1 h1; cases h1; exact Or.inl rfl
  | some c => exact Mild.maybeIncrease s q

theorem GetConcreteCell_getOrCreate_ne (s : Sheet) (q p : Position) (h : p ≠ q) :
    GetConcreteCell (GetOrCreateConcreteCell s q) p = GetConcreteCell s p := by
  unfold GetOrCreateConcreteCell
  simp only
  cases hc : GetConcreteCell (MaybeIncreaseSizeToIncludePosition s q) q with
  | none =>
    simp only
    rw [GetConcreteCell_setSlot, if_neg h, GetConcreteCell_MaybeIncrease]
  | some c => exact GetConcreteCell_MaybeIncrease s q p

theorem Mild.wireStep (s : Sheet) (pos q : Position) : Mild s (wireStep pos s q) := by
  unfold Spreadsheet.wireStep
  cases hc : GetConcreteCell (GetOrCreateConcreteCell s q) q with
  | none => exact Mild.getOrCreate s q
  | some c =>
    simp only
    apply (Mild.getOrCreate s q).andThen
    apply Mild.setSlot
    · rw [nonEmptyAt_eq, hc]; rfl
    · intro c1 h1
      cases h1
      exact Or.inr ⟨c, hc, rfl⟩

theorem Mild.wire (s : Sheet) (pos : Position) (l : List Position) : Mild s (wire s pos l) := by
  unfold Spreadsheet.wire
  induction l generalizing s with
  | nil => exact Mild.same s
  | cons a rest ih =>
    rw [List.foldl_cons]
    exact (Mild.wireStep s pos a).andThen (ih _)

theorem GetConcreteCell_wire_not_mem (s : Sheet) (pos : Position) (l : List Position)
    (p : Position) (h : p ∉ l) :
    GetConcreteCell (wire s pos l) p = GetConcreteCell s p := by
  unfold Spreadsheet.wire
  induction l generalizing s with
  | nil => rfl
  | cons a rest ih =>
    rw [List.foldl_cons, ih _ (fun hh => h (List.mem_cons_of_mem _ hh))]
    have hpa : p ≠ a := fun hh => h (hh ▸ List.mem_cons_self _ _)
    unfold Spreadsheet.wireStep
    cases hc : GetConcreteCell (GetOrCreateConcreteCell s a) a with
    | none => exact GetConcreteCell_getOrCreate_ne s a p hpa
    | some c =>
      simp only
      rw [GetConcreteCell_setSlot, if_neg hpa]
      exact GetConcreteCell_getOrCreate_ne s a p hpa

theorem Mild.wired (s : Sheet) (pos : Position) (new_cell : Cell) :
    Mild s (SetCell_wired s pos new_cell).1 := by
  unfold SetCell_wired
  simp only
  cases hc : GetConcreteCell (MaybeIncreaseSizeToIncludePosition s pos) pos with
  | none => exact (Mild.maybeIncrease s pos).andThen (Mild.wire _ _ _)
  | some c =>
    exact ((Mild.maybeIncrease s pos).andThen (Mild.unwire _ _ _)).andThen (Mild.wire _ _ _)

theorem wired_cell (s : Sheet) (pos : Position) (new_cell : Cell) :
    (SetCell_wired s pos new_cell).2.impl_ = new_cell.impl_ ∧
    (SetCell_wired s pos new_cell).2.children_ = new_cell.children_ ∧
    (SetCell_wired s pos new_cell).2.cache_ = new_cell.cache_ := by
  unfold SetCell_wired
  simp only
  cases GetConcreteCell (MaybeIncreaseSizeToIncludePosition s pos) pos with
  | none => exact ⟨rfl, rfl, rfl⟩
  | some c => exact ⟨rfl, rfl, rfl⟩

theorem wired_CheckSize (s : Sheet) (pos : Position) (new_cell : Cell) :
    CheckSize (SetCell_wired s pos new_cell).1 pos = true := by
  unfold SetCell_wired
  simp only
  cases hc : GetConcreteCell (MaybeIncreaseSizeToIncludePosition s pos) pos with
  | none => exact (Mild.wire _ _ _).size _ (CheckSize_MaybeIncrease_self s pos)
  | some c =>
    exact ((Mild.unwire _ _ _).andThen (Mild.wire _ _ _)).size _ (CheckSize_MaybeIncrease_self s pos)

/-! ## The invalidation traversal -/

theorem UpToCaches.unchanged (s : Sheet) : UpToCaches s s := ⟨rfl, rfl, fun _ => rfl, fun _ => rfl⟩

theorem UpToCaches.compose {s s1 s2 : Sheet} (h1 : UpToCaches s s1) (h2 : UpToCaches s1 s2) :
    UpToCaches s s2 :=
  ⟨h2.1.trans h1.1, h2.2.1.trans h1.2.1, fun q => (h2.2.2.1 q).trans (h1.2.2.1 q),
    fun q => (h2.2.2.2 q).trans (h1.2.2.2 q)⟩

theorem UpToCaches.symm {s s1 : Sheet} (h : UpToCaches s s1) : UpToCaches s1 s :=
  ⟨h.1.symm, h.2.1.symm, fun q => (h.2.2.1 q).symm, fun q => (h.2.2.2 q).symm⟩

theorem Cleared.nothing (pos : Position) (st : Sheet × Cell) : Cleared pos st st :=
  ⟨UpToCaches.unchanged _, rfl, fun _ h => h⟩

theorem Cleared.followedBy {pos : Position} {st st1 st2 : Sheet × Cell}
    (h1 : Cleared pos st st1) (h2 : Cleared pos st1 st2) : Cleared pos st st2 :=
  ⟨h1.1.compose h2.1, h2.2.1.trans h1.2.1, fun q h => h2.2.2 q (h1.2.2 q h)⟩

theorem Cleared.deref_map {pos : Position} {st st1 : Sheet × Cell} (h : Cleared pos st st1)
    (q : Position) :
    (deref pos st1 q).map Cell.InvalidateCache = (deref pos st q).map Cell.InvalidateCache := by
  unfold Spreadsheet.deref
  by_cases hq : q = pos
  · rw [if_pos hq, if_pos hq]
    simp only [Option.map_some']
    rw [h.2.1]
  · rw [if_neg hq, if_neg hq]
    exact h.1.2.2.2 q

theorem Cleared.parents_eq {pos : Position} {st st1 : Sheet × Cell} (h : Cleared pos st st1)
    {q : Position} {c : Cell} (hc : deref pos st q = some c) :
    ∃ c1, deref pos st1 q = some c1 ∧ c1.parents_ = c.parents_ := by
  have := h.deref_map q
  rw [hc] at this
  cases h1 : Spreadsheet.deref pos st1 q with
  | none => rw [h1] at this; cases this
  | some c1 =>
    rw [h1] at this
    simp only [Option.map_some', Option.some.injEq] at this
    refine ⟨c1, rfl, ?_⟩
    have := congrArg Cell.parents_ this
    exact this

theorem Cleared.isSome_eq {pos : Position} {st st1 : Sheet × Cell} (h : Cleared pos st st1)
    (q : Position) : (deref pos st1 q).isSome = (deref pos st q).isSome := by
  have := congrArg Option.isSome (h.deref_map q)
  simp only [Option.isSome_map'] at this
  exact this

theorem Cleared.edge_of {pos : Position} {st st1 : Sheet × Cell} (h : Cleared pos st st1)
    {a b : Position} (hab : OverlayParent pos st a b) : OverlayParent pos st1 a b := by
  obtain ⟨c, hc, hb⟩ := hab
  obtain ⟨c1, hc1, hp⟩ := h.parents_eq hc
  exact ⟨c1, hc1, hp ▸ hb⟩

theorem Cleared.edge_back {pos : Position} {st st1 : Sheet × Cell} (h : Cleared pos st st1)
    {a b : Position} (hab : OverlayParent pos st1 a b) : OverlayParent pos st a b := by
  obtain ⟨c1, hc1, hb⟩ := hab
  have := h.deref_map a
  rw [hc1] at this
  cases h0 : deref pos st a with
  | none => rw [h0] at this; cases this
  | some c =>
    rw [h0] at this
    simp only [Option.map_some', Option.some.injEq] at this
    refine ⟨c, h0, ?_⟩
    have h2 := congrArg Cell.parents_ this
    have h3 : c1.parents_ = c.parents_ := h2
    exact h3 ▸ hb

theorem AncPath.mono {E E1 : Position → Position → Prop} (hE : ∀ a b, E a b → E1 a b)
    {V : List Position} {x y : Position} (h : AncPath E V x y) : AncPath E1 V x y := by
  induction h with
  | here hx => exact .here hx
  | step hx he _ ih => exact .step hx (hE _ _ he) ih

theorem AncPath.split_parent {E : Position → Position → Prop} {V : List Position} {p y : Position}
    (h : AncPath E V p y) (x : Position) :
    AncPath E (x :: V) p y ∨ y = x ∨ ∃ q, E x q ∧ AncPath E (x :: V) q y := by
  induction h with
  | @here u hu =>
    by_cases hux : u = x
    · exact Or.inr (Or.inl hux)
    · exact Or.inl (.here (by simp [hux, hu]))
  | @step u q w hu he _ ih =>
    rcases ih with ih | ih | ih
    · by_cases hux : u = x
      · subst hux
        exact Or.inr (Or.inr ⟨q, he, ih⟩)
      · exact Or.inl (.step (by simp [hux, hu]) he ih)
    · exact Or.inr (Or.inl ih)
    · exact Or.inr (Or.inr ih)

theorem AncPath.of_reflTransGen {E : Position → Position → Prop} {x y : Position}
    (h : Relation.ReflTransGen E x y) : AncPath E [] x y := by
  induction h using Relation.ReflTransGen.head_induction_on with
  | refl => exact .here (by simp)
  | head hab _ ih => exact .step (by simp) hab ih

theorem Cleared.of_invalidateAt (pos : Position) (st : Sheet × Cell) (x : Position) :
    Cleared pos st (invalidateAt pos st x) ∧ overlayCache pos (invalidateAt pos st x) x = none := by
  unfold Spreadsheet.invalidateAt
  by_cases hx : x = pos
  · rw [if_pos hx]
    refine ⟨⟨UpToCaches.unchanged _, rfl, ?_⟩, ?_⟩
    · intro q hq
      unfold overlayCache Spreadsheet.deref at hq ⊢
      by_cases hqp : q = pos
      · rw [if_pos hqp]; rfl
      · rw [if_neg hqp] at hq ⊢; exact hq
    · unfold overlayCache Spreadsheet.deref
      rw [if_pos hx]; rfl
  · rw [if_neg hx]
    cases hc : GetConcreteCell st.1 x with
    | none =>
      refine ⟨Cleared.nothing pos st, ?_⟩
      unfold overlayCache Spreadsheet.deref
      rw [if_neg hx, hc]; rfl
    | some c =>
      simp only
      refine ⟨⟨⟨rfl, rfl, fun q => CheckSize_setSlot _ _ _ _, ?_⟩, rfl, ?_⟩, ?_⟩
      · intro q
        rw [GetConcreteCell_setSlot]
        by_cases hq : q = x
        · subst hq
          rw [if_pos rfl, if_pos (CheckSize_of_some hc), hc]
          rfl
        · rw [if_neg hq]
      · intro q hq
        unfold overlayCache Spreadsheet.deref at hq ⊢
        by_cases hqp : q = pos
        · rw [if_pos hqp] at hq ⊢; exact hq
        · rw [if_neg hqp] at hq ⊢
          simp only
          rw [GetConcreteCell_setSlot]
          by_cases hqx : q = x
          · subst hqx
            rw [if_pos rfl, if_pos (CheckSize_of_some hc)]
            rfl
          · rw [if_neg hqx]; exact hq
      · unfold overlayCache Spreadsheet.deref
        rw [if_neg hx]
        simp only
        rw [GetConcreteCell_setSlot, if_pos rfl, if_pos (CheckSize_of_some hc)]
        rfl

theorem forEachParent_spec (pos : Position) (V : List Position)
    (f : Sheet × Cell → Position → Option (Sheet × Cell)) (st0 : Sheet × Cell)
    (hf : ∀ st p, Cleared pos st0 st → TraversalSpec pos V st p (f st p)) :
    ∀ (l : List Position) (st : Sheet × Cell), Cleared pos st0 st →
      ∃ st1, forEachParent f l st = some st1 ∧ Cleared pos st st1 ∧
        ∀ p ∈ l, ∀ y, AncPath (OverlayParent pos st0) V p y → overlayCache pos st1 y = none := by
  intro l
  induction l with
  | nil =>
    intro st _
    exact ⟨st, rfl, Cleared.nothing pos st, fun p hp => by cases hp⟩
  | cons a rest ih =>
    intro st hst
    obtain ⟨st1, h1, hc1, hp1⟩ := hf st a hst
    obtain ⟨st2, h2, hc2, hp2⟩ := ih st1 (hst.followedBy hc1)
    refine ⟨st2, ?_, hc1.followedBy hc2, ?_⟩
    · unfold forEachParent
      rw [h1]
      exact h2
    · intro p hp y hy
      rcases List.mem_cons.1 hp with rfl | hp
      · exact hc2.2.2 y (hp1 y (hy.mono (fun _ _ => hst.edge_of)))
      · exact hp2 p hp y hy

theorem InvalidateCacheImpl_spec (pos : Position) (nodes : List Position) :
    ∀ (fuel : Nat) (st : Sheet × Cell) (x : Position) (V : List Position),
      V.Nodup → (∀ v ∈ V, v ∈ nodes) → (∀ q, (deref pos st q).isSome = true → q ∈ nodes) →
      nodes.length < fuel + V.length →
      TraversalSpec pos V st x (InvalidateCacheImpl pos fuel st x V) := by
  intro fuel
  induction fuel with
  | zero =>
    intro st x V hnd hsub _ hlt
    exfalso
    have := (List.subperm_of_subset hnd hsub).length_le
    omega
  | succ n ih =>
    intro st x V hnd hsub hnodes hlt
    unfold InvalidateCacheImpl
    by_cases hv : x ∈ V
    · rw [if_pos hv]
      refine ⟨st, rfl, Cleared.nothing pos st, ?_⟩
      intro y hy
      cases hy with
      | here h => exact absurd hv h
      | step h _ _ => exact absurd hv h
    · rw [if_neg hv]
      cases hc : deref pos st x with
      | none =>
        refine ⟨st, rfl, Cleared.nothing pos st, ?_⟩
        intro y hy
        cases hy with
        | here h => unfold overlayCache; rw [hc]; rfl
        | step h he _ =>
          obtain ⟨c, hc1, -⟩ := he
          rw [hc] at hc1; cases hc1
      | some c =>
        simp only
        obtain ⟨hcl, hx0⟩ := Cleared.of_invalidateAt pos st x
        have hnd1 : (x :: V).Nodup := List.nodup_cons.2 ⟨hv, hnd⟩
        have hsub1 : ∀ v ∈ x :: V, v ∈ nodes := by
          intro v hv1
          rcases List.mem_cons.1 hv1 with rfl | h1
          · apply hnodes; rw [hc]; rfl
          · exact hsub v h1
        have hlt1 : nodes.length < n + (x :: V).length := by
          simp only [List.length_cons]; omega
        obtain ⟨st1, h1, hc1, hp1⟩ := forEachParent_spec pos (x :: V)
          (fun st1 parent_cell => InvalidateCacheImpl pos n st1 parent_cell (x :: V))
          (invalidateAt pos st x)
          (fun st2 p hst2 => ih st2 p (x :: V) hnd1 hsub1
            (fun q hq => hnodes q (by rw [← (hcl.followedBy hst2).isSome_eq q]; exact hq)) hlt1)
          c.parents_ (invalidateAt pos st x) (Cleared.nothing pos _)
        refine ⟨st1, h1, hcl.followedBy hc1, ?_⟩
        intro y hy
        have hsplit : y = x ∨ ∃ q, OverlayParent pos st x q ∧
            AncPath (OverlayParent pos st) (x :: V) q y := by
          cases hy with
          | here _ => exact Or.inl rfl
          | @step _ p _ _ he hrest =>
            rcases hrest.split_parent x with h2 | h2 | h2
            · exact Or.inr ⟨p, he, h2⟩
            · exact Or.inl h2
            · exact Or.inr h2
        rcases hsplit with rfl | ⟨q, ⟨c2, hc2, hq⟩, hpath⟩
        · exact hc1.2.2 y hx0
        · rw [hc] at hc2
          cases hc2
          exact hp1 q hq y (hpath.mono (fun _ _ => hcl.edge_of))

theorem InvalidateCache_spec (pos : Position) (st : Sheet × Cell) :
    ∃ st1, InvalidateCache pos st = some st1 ∧ UpToCaches st.1 st1.1 ∧
      st1.2 = st.2.InvalidateCache ∧
      ∀ y, Relation.ReflTransGen (OverlayParent pos st1) pos y → overlayCache pos st1 y = none := by
  unfold InvalidateCache
  simp only
  have h0 : Cleared pos st (st.1, st.2.InvalidateCache) := by
    refine ⟨UpToCaches.unchanged _, rfl, ?_⟩
    intro q hq
    unfold overlayCache Spreadsheet.deref at hq ⊢
    by_cases hqp : q = pos
    · rw [if_pos hqp]; rfl
    · rw [if_neg hqp] at hq ⊢; exact hq
  have hnodes : ∀ q, (deref pos (st.1, st.2.InvalidateCache) q).isSome = true →
      q ∈ pos :: occupied st.1 := by
    intro q hq
    unfold Spreadsheet.deref at hq
    by_cases hqp : q = pos
    · rw [hqp]; exact List.mem_cons_self _ _
    · rw [if_neg hqp] at hq
      exact List.mem_cons_of_mem _ ((mem_occupied _ _).2 hq)
  obtain ⟨st1, h1, hc1, hp1⟩ := forEachParent_spec pos []
    (fun st2 parent_cell => InvalidateCacheImpl pos ((occupied st.1).length + 2) st2 parent_cell [])
    (st.1, st.2.InvalidateCache)
    (fun st2 p hst2 => InvalidateCacheImpl_spec pos (pos :: occupied st.1) _ st2 p []
      List.nodup_nil (by simp)
      (fun q hq => hnodes q (by rw [← hst2.isSome_eq q]; exact hq))
      (by simp))
    st.2.InvalidateCache.parents_ (st.1, st.2.InvalidateCache) (Cleared.nothing pos _)
  refine ⟨st1, h1, hc1.1, ?_, ?_⟩
  · have h2 := hc1.2.1
    have hnone : st1.2.cache_ = none := by
      have := hc1.2.2 pos (by unfold overlayCache Spreadsheet.deref; rw [if_pos rfl]; rfl)
      unfold overlayCache Spreadsheet.deref at this
      rw [if_pos rfl] at this
      exact this
    have h3 : st1.2.InvalidateCache = st1.2 := by
      unfold Cell.InvalidateCache
      cases hst : st1.2 with
      | mk i ca ch pa =>
        rw [hst] at hnone
        simp only at hnone
        simp only [hnone]
    rw [← h3, h2]
    rfl
  · intro y hy
    have hself : overlayCache pos st1 pos = none :=
      hc1.2.2 pos (by unfold overlayCache Spreadsheet.deref; rw [if_pos rfl]; rfl)
    rcases Relation.ReflTransGen.cases_head hy with h | ⟨p, ⟨c, hc, hp⟩, hrest⟩
    · rw [← h]; exact hself
    · have hpar : c.parents_ = st.2.InvalidateCache.parents_ := by
        unfold Spreadsheet.deref at hc
        rw [if_pos rfl] at hc
        cases hc
        have := congrArg Cell.parents_ hc1.2.1
        exact this
      exact hp1 p (hpar ▸ hp) y
        ((AncPath.of_reflTransGen hrest).mono (fun _ _ => hc1.edge_back))

/-! ## The ways through `SetCell` -/

theorem CheckPosition_valid {pos : Position} (h : pos.IsValid = true) : CheckPosition pos = none := by
  unfold CheckPosition; rw [if_pos h]

theorem CheckPosition_invalid {pos : Position} (h : pos.IsValid = false) :
    CheckPosition pos = some .InvalidPosition := by
  unfold CheckPosition; rw [h]; rfl

/-- The five ways through `SetCell`. -/
theorem SetCell_cases (L : Library) (s : Sheet) (pos : Position) (text : String) :
    (pos.IsValid = false ∧ SetCell L s pos text = .raised .InvalidPosition s) ∨
    (pos.IsValid = true ∧ Cell.make L text = none ∧
      SetCell L s pos text = .raised .FormulaException s) ∨
    (∃ new_cell, pos.IsValid = true ∧ Cell.make L text = some new_cell ∧
      FindCyclicDeps s pos new_cell = some true ∧
      SetCell L s pos text = .raised .CircularDependency s) ∨
    (∃ new_cell st, pos.IsValid = true ∧ Cell.make L text = some new_cell ∧
      FindCyclicDeps s pos new_cell = some false ∧
      InvalidateCache pos (SetCell_wired s pos new_cell) = some st ∧
      SetCell L s pos text = .ok (SetCell_install pos st) ∧
      slotRefLive s pos new_cell = true) ∨
    (∃ new_cell, pos.IsValid = true ∧ Cell.make L text = some new_cell ∧
      FindCyclicDeps s pos new_cell = some false ∧
      SetCell L s pos text = .undefined ∧
      slotRefLive s pos new_cell = false) := by
  unfold SetCell
  cases hv : pos.IsValid with
  | false =>
    left
    rw [CheckPosition_invalid hv]
    exact ⟨rfl, rfl⟩
  | true =>
    right
    rw [CheckPosition_valid hv]
    simp only
    cases hm : Cell.make L text with
    | none => left; refine ⟨?_, ?_, ?_⟩ <;> first | rfl | trivial
    | some nc =>
      right
      simp only
      unfold SetCell_checked
      obtain ⟨b, hb⟩ := FindCyclicDeps_total s pos nc
      rw [hb]
      cases b with
      | true => left; refine ⟨nc, ?_, ?_, ?_, ?_⟩ <;> first | rfl | trivial
      | false =>
        right
        simp only
        obtain ⟨st, hst, -⟩ := InvalidateCache_spec pos (SetCell_wired s pos nc)
        rw [hst]
        simp only
        cases hl : slotRefLive s pos nc with
        | true =>
          left
          exact ⟨nc, st, trivial, rfl, hb, hst, by simp, hl⟩
        | false =>
          right
          exact ⟨nc, trivial, rfl, hb, by simp, hl⟩

theorem SetCell_ne_exhausted (L : Library) (s : Sheet) (pos : Position) (text : String) :
    SetCell L s pos text ≠ .exhausted := by
  rcases SetCell_cases L s pos text with h | h | ⟨_, h⟩ | ⟨_, _, h⟩ | ⟨_, h⟩
  · rw [h.2]; intro hh; cases hh
  · rw [h.2.2]; intro hh; cases hh
  · rw [h.2.2.2]; intro hh; cases hh
  · rw [h.2.2.2.2.1]; intro hh; cases hh
  · rw [h.2.2.2.1]; intro hh; cases hh

theorem SetCell_raised_same (L : Library) (s : Sheet) (pos : Position) (text : String)
    (e : Exception) (s1 : Sheet) (h : SetCell L s pos text = .raised e s1) : s1 = s := by
  rcases SetCell_cases L s pos text with h1 | h1 | ⟨_, h1⟩ | ⟨_, _, h1⟩ | ⟨_, h1⟩
  · rw [h1.2] at h; cases h; rfl
  · rw [h1.2.2] at h; cases h; rfl
  · rw [h1.2.2.2] at h; cases h; rfl
  · rw [h1.2.2.2.2.1] at h; cases h
  · rw [h1.2.2.2.1] at h; cases h

theorem SetCell_ok_inv (L : Library) (s : Sheet) (pos : Position) (text : String) (s1 : Sheet)
    (h : SetCell L s pos text = .ok s1) :
    ∃ new_cell st, pos.IsValid = true ∧ Cell.make L text = some new_cell ∧
      FindCyclicDeps s pos new_cell = some false ∧
      InvalidateCache pos (SetCell_wired s pos new_cell) = some st ∧
      s1 = SetCell_install pos st := by
  rcases SetCell_cases L s pos text with h1 | h1 | ⟨_, h1⟩ | ⟨nc, st, h1⟩ | ⟨_, h1⟩
  · rw [h1.2] at h; cases h
  · rw [h1.2.2] at h; cases h
  · rw [h1.2.2.2] at h; cases h
  · rw [h1.2.2.2.2.1] at h
    cases h
    exact ⟨nc, st, h1.1, h1.2.1, h1.2.2.1, h1.2.2.2.1, rfl⟩
  · rw [h1.2.2.2.1] at h; cases h

theorem SetCell_installs (L : Library) (s : Sheet) (pos : Position) (text : String) (s1 : Sheet)
    (h : SetCell L s pos text = .ok s1) : Installs L s pos text s1 :=
  SetCell_ok_inv L s pos text s1 h

/-- A call of `SetCell` that returns has used a live reference: the wiring loop has left the row
of the slot as long as it was. -/
theorem SetCell_ok_live (L : Library) (s : Sheet) (pos : Position) (text : String) (s1 : Sheet)
    (h : SetCell L s pos text = .ok s1) :
    ∃ new_cell, Cell.make L text = some new_cell ∧ slotRefLive s pos new_cell = true := by
  rcases SetCell_cases L s pos text with h1 | h1 | ⟨_, h1⟩ | ⟨nc, st, h1⟩ | ⟨_, h1⟩
  · rw [h1.2] at h; cases h
  · rw [h1.2.2] at h; cases h
  · rw [h1.2.2.2] at h; cases h
  · exact ⟨nc, h1.2.1, h1.2.2.2.2.2⟩
  · rw [h1.2.2.2.1] at h; cases h

/-! ### When the slot reference stays live -/

theorem rowAt_MaybeIncrease_length (s : Sheet) (p : Position) (r : Nat) :
    ((MaybeIncreaseSizeToIncludePosition s p).rowAt r).length =
      if r = p.row then max (s.rowAt r).length (p.col + 1) else (s.rowAt r).length := by
  unfold MaybeIncreaseSizeToIncludePosition Sheet.rowAt
  simp only
  obtain ⟨rows, hR, hrows, hlen, -⟩ := MaybeIncrease_rows s p
  rw [hR, getD_set_list]
  by_cases hr : r = p.row
  · subst hr
    rw [if_pos ⟨rfl, hlen⟩, if_pos rfl, hrows]
    split
    · rw [length_resize]; omega
    · omega
  · rw [if_neg (fun h => hr h.1.symm), if_neg hr, hrows]

theorem rowAt_RemoveParent_length (s : Sheet) (q old : Position) (r : Nat) :
    ((RemoveParent s q old).rowAt r).length = (s.rowAt r).length := by
  unfold RemoveParent
  cases GetConcreteCell s q with
  | none => rfl
  | some c =>
    simp only
    split <;> exact rowAt_setSlot_length _ _ _ _

theorem rowAt_unwire_length (s : Sheet) (pos : Position) (l : List Position) (r : Nat) :
    ((unwire s pos l).rowAt r).length = (s.rowAt r).length := by
  unfold unwire
  induction l generalizing s with
  | nil => rfl
  | cons a rest ih => rw [List.foldl_cons, ih, rowAt_RemoveParent_length]

theorem rowAt_getOrCreate_length (s : Sheet) (q : Position) (r : Nat) :
    ((GetOrCreateConcreteCell s q).rowAt r).length =
      if r = q.row then max (s.rowAt r).length (q.col + 1) else (s.rowAt r).length := by
  unfold GetOrCreateConcreteCell
  simp only
  cases GetConcreteCell (MaybeIncreaseSizeToIncludePosition s q) q with
  | none =>
    simp only
    rw [rowAt_setSlot_length, rowAt_MaybeIncrease_length]
  | some c => exact rowAt_MaybeIncrease_length s q r

theorem rowAt_wireStep_length (pos : Position) (s : Sheet) (q : Position) (r : Nat) :
    ((wireStep pos s q).rowAt r).length =
      if r = q.row then max (s.rowAt r).length (q.col + 1) else (s.rowAt r).length := by
  unfold wireStep
  cases GetConcreteCell (GetOrCreateConcreteCell s q) q with
  | none => exact rowAt_getOrCreate_length s q r
  | some c =>
    simp only
    rw [rowAt_setSlot_length, rowAt_getOrCreate_length]

/-- The wiring loop never shortens a row. -/
theorem rowAt_wire_length_le (s : Sheet) (pos : Position) (l : List Position) (r : Nat) :
    (s.rowAt r).length ≤ ((wire s pos l).rowAt r).length := by
  unfold wire
  induction l generalizing s with
  | nil => exact Nat.le_refl _
  | cons a rest ih =>
    rw [List.foldl_cons]
    refine Nat.le_trans ?_ (ih _)
    rw [rowAt_wireStep_length]
    split
    · exact Nat.le_max_left _ _
    · exact Nat.le_refl _

/-- The wiring loop leaves row `r` as long as it was exactly when every child in that row lies
within it. -/
theorem rowAt_wire_length_eq_iff (s : Sheet) (pos : Position) (l : List Position) (r : Nat) :
    ((wire s pos l).rowAt r).length = (s.rowAt r).length ↔
      ∀ c ∈ l, c.row = r → c.col < (s.rowAt r).length := by
  induction l generalizing s with
  | nil =>
    constructor
    · intro _ c hc; cases hc
    · intro _; rfl
  | cons a rest ih =>
    have hstep := rowAt_wireStep_length pos s a r
    have hle := rowAt_wire_length_le (wireStep pos s a) pos rest r
    have hunf : wire s pos (a :: rest) = wire (wireStep pos s a) pos rest := rfl
    rw [hunf]
    constructor
    · intro h c hc hcr
      have h1 : ((wireStep pos s a).rowAt r).length = (s.rowAt r).length := by
        have h2 : (s.rowAt r).length ≤ ((wireStep pos s a).rowAt r).length := by
          rw [hstep]
          split
          · exact Nat.le_max_left _ _
          · exact Nat.le_refl _
        omega
      rcases List.mem_cons.1 hc with rfl | hc
      · rw [hstep, if_pos hcr.symm] at h1
        have := Nat.le_max_right (s.rowAt r).length (c.col + 1)
        omega
      · have h3 := (ih (wireStep pos s a)).1 (by rw [h, h1]) c hc hcr
        rw [h1] at h3
        exact h3
    · intro h
      have h1 : ((wireStep pos s a).rowAt r).length = (s.rowAt r).length := by
        rw [hstep]
        split
        · rename_i hra
          have := h a (List.mem_cons_self _ _) hra.symm
          exact Nat.max_eq_left (by omega)
        · rfl
      rw [← h1]
      apply (ih (wireStep pos s a)).2
      intro c hc hcr
      rw [h1]
      exact h c (List.mem_cons_of_mem _ hc) hcr

/-- The reference of `SetCell` stays live exactly when no child of the new cell lies in the row
of the slot beyond the length that row has when the reference is taken. -/
theorem slotRefLive_iff (s : Sheet) (pos : Position) (new_cell : Cell) :
    slotRefLive s pos new_cell = true ↔
      ∀ c ∈ new_cell.children_, c.row = pos.row →
        c.col < ((MaybeIncreaseSizeToIncludePosition s pos).rowAt pos.row).length := by
  unfold slotRefLive SetCell_wired
  simp only [decide_eq_true_eq]
  cases GetConcreteCell (MaybeIncreaseSizeToIncludePosition s pos) pos with
  | none => exact rowAt_wire_length_eq_iff _ pos _ _
  | some oc =>
    simp only
    have hu := rowAt_unwire_length (MaybeIncreaseSizeToIncludePosition s pos) pos oc.children_
      pos.row
    rw [← hu]
    exact rowAt_wire_length_eq_iff _ pos _ _

theorem slotRefLive_of_no_children (s : Sheet) (pos : Position) (new_cell : Cell)
    (h : new_cell.children_ = []) : slotRefLive s pos new_cell = true := by
  rw [slotRefLive_iff, h]
  intro c hc
  cases hc

/-- With a new cell that has no children `SetCell` returns. -/
theorem SetCell_returns_of_no_children (L : Library) (s : Sheet) (pos : Position) (text : String)
    (new_cell : Cell) (hv : pos.IsValid = true) (hm : Cell.make L text = some new_cell)
    (hch : new_cell.children_ = []) :
    ∃ st, InvalidateCache pos (SetCell_wired s pos new_cell) = some st ∧
      SetCell L s pos text = .ok (SetCell_install pos st) := by
  have hlive := slotRefLive_of_no_children s pos new_cell hch
  rcases SetCell_cases L s pos text with h1 | h1 | ⟨nc, h1⟩ | ⟨nc, st, h1⟩ | ⟨nc, h1⟩
  · rw [hv] at h1; cases h1.1
  · rw [hm] at h1; cases h1.2.1
  · rw [hm] at h1
    have h2 := Option.some.inj h1.2.1
    subst h2
    have : FindCyclicDeps s pos new_cell = some false := by
      unfold FindCyclicDeps
      rw [if_pos hch]
    rw [this] at h1
    cases h1.2.2.1
  · rw [hm] at h1
    have h2 := Option.some.inj h1.2.1
    subst h2
    exact ⟨st, h1.2.2.2.1, h1.2.2.2.2.1⟩
  · rw [hm] at h1
    have h2 := Option.some.inj h1.2.1
    subst h2
    rw [hlive] at h1
    cases h1.2.2.2.2

theorem GetConcreteCell_install (pos : Position) (st : Sheet × Cell)
    (hsz : CheckSize st.1 pos = true) (q : Position) :
    GetConcreteCell (SetCell_install pos st) q = deref pos st q := by
  unfold SetCell_install Spreadsheet.deref
  simp only
  rw [GetConcreteCell_setSlot]
  by_cases hq : q = pos
  · rw [if_pos hq, if_pos hq]
    have : CheckSize (if slotIsFree st.1 pos = true then
        { st.1 with row_cells_count_ := CountMap.increment st.1.row_cells_count_ pos.row,
                    col_cells_count_ := CountMap.increment st.1.col_cells_count_ pos.col }
        else st.1) pos = true := by
      split
      · exact hsz
      · exact hsz
    rw [if_pos this]
  · rw [if_neg hq, if_neg hq]
    split <;> rfl

theorem invalidated_CheckSize (s : Sheet) (pos : Position) (new_cell : Cell) (st : Sheet × Cell)
    (h : InvalidateCache pos (SetCell_wired s pos new_cell) = some st) :
    CheckSize st.1 pos = true := by
  obtain ⟨st1, h1, hu, -⟩ := InvalidateCache_spec pos (SetCell_wired s pos new_cell)
  rw [h] at h1
  cases h1
  rw [hu.2.2.1]
  exact wired_CheckSize s pos new_cell

/-- After a `SetCell(q, _)` that returns, neither the cell at `q` nor any cell reachable from it
through parents has a cached value. -/
theorem SetCell_invalidates (L : Library) (s : Sheet) (q : Position) (text : String) (s1 : Sheet)
    (h : SetCell L s q text = .ok s1) (y : Position)
    (hy : Relation.ReflTransGen (ParentEdge s1) q y) : cacheAt s1 y = none := by
  obtain ⟨nc, st, _, _, _, hinv, rfl⟩ := SetCell_ok_inv L s q text s1 h
  have hsz := invalidated_CheckSize s q nc st hinv
  obtain ⟨st1, h1, _, _, hclear⟩ := InvalidateCache_spec q (SetCell_wired s q nc)
  rw [hinv] at h1
  cases h1
  have hG := GetConcreteCell_install q st hsz
  have hE : ∀ a b, ParentEdge (SetCell_install q st) a b → OverlayParent q st a b := by
    intro a b hab
    obtain ⟨c, hc, hb⟩ := hab
    rw [hG] at hc
    exact ⟨c, hc, hb⟩
  have := hclear y (Relation.ReflTransGen.mono hE hy)
  unfold cacheAt
  rw [hG]
  exact this

/-- `SetCell` raises `CircularDependency` exactly when its position is reachable from a child of
the new cell (a child being reachable from itself). -/
theorem SetCell_circular_iff (L : Library) (s : Sheet) (pos : Position) (text : String)
    (new_cell : Cell) (hv : pos.IsValid = true) (hm : Cell.make L text = some new_cell) :
    (∃ s1, SetCell L s pos text = .raised .CircularDependency s1) ↔
      ∃ c ∈ new_cell.children_, Relation.ReflTransGen (Edge s) c pos := by
  rw [← FindCyclicDeps_eq_true_iff]
  rcases SetCell_cases L s pos text with h1 | h1 | ⟨nc, h1⟩ | ⟨nc, st, h1⟩ | ⟨nc, h1⟩
  · rw [hv] at h1; cases h1.1
  · rw [hm] at h1; cases h1.2.1
  · rw [hm] at h1
    cases h1.2.1
    exact ⟨fun _ => h1.2.2.1, fun _ => ⟨s, h1.2.2.2⟩⟩
  · rw [hm] at h1
    cases h1.2.1
    rw [h1.2.2.2.2.1, h1.2.2.1]
    constructor
    · rintro ⟨s1, hh⟩; cases hh
    · intro hh; cases hh
  · rw [hm] at h1
    cases h1.2.1
    rw [h1.2.2.2.1, h1.2.2.1]
    constructor
    · rintro ⟨s1, hh⟩; cases hh
    · intro hh; cases hh

/-! ## Evaluation changes caches only -/

theorem Cell.InvalidateCache_cache (c : Cell) (v : Option Value) :
    Cell.InvalidateCache { c with cache_ := v } = Cell.InvalidateCache c := rfl

theorem UpToCaches.setCache (s : Sheet) (pos : Position) (v : Option Value) :
    UpToCaches s (s.setCache pos v) := by
  unfold Sheet.setCache
  cases hc : GetConcreteCell s pos with
  | none => exact UpToCaches.unchanged s
  | some c =>
    simp only
    refine ⟨rfl, rfl, fun q => CheckSize_setSlot _ _ _ _, ?_⟩
    intro q
    rw [GetConcreteCell_setSlot]
    by_cases hq : q = pos
    · subst hq
      rw [if_pos rfl, if_pos (CheckSize_of_some hc), hc]
      rfl
    · rw [if_neg hq]

theorem binaryOp_upToCaches (f : Number → Number → Except FormulaError Number)
    (ea eb : Sheet → Evaluated)
    (ha : ∀ s s1 r, ea s = some (s1, r) → UpToCaches s s1)
    (hb : ∀ s s1 r, eb s = some (s1, r) → UpToCaches s s1)
    (s s1 : Sheet) (r : Except FormulaError Number)
    (h : binaryOp f ea eb s = some (s1, r)) : UpToCaches s s1 := by
  unfold binaryOp at h
  cases h1 : ea s with
  | none => rw [h1] at h; cases h
  | some p1 =>
    obtain ⟨sa, ra⟩ := p1
    have hsa := ha s sa ra h1
    rw [h1] at h
    cases ra with
    | error e =>
      simp only [Option.some.injEq, Prod.mk.injEq] at h
      rw [← h.1]; exact hsa
    | ok x =>
      simp only at h
      cases h2 : eb sa with
      | none => rw [h2] at h; cases h
      | some p2 =>
        obtain ⟨sb, rb⟩ := p2
        have hsb := hb sa sb rb h2
        rw [h2] at h
        cases rb with
        | error e =>
          simp only [Option.some.injEq, Prod.mk.injEq] at h
          rw [← h.1]; exact hsa.compose hsb
        | ok y =>
          simp only [Option.some.injEq, Prod.mk.injEq] at h
          rw [← h.1]; exact hsa.compose hsb

theorem Execute_upToCaches (lookup : Sheet → Position → Evaluated)
    (hl : ∀ s p s1 r, lookup s p = some (s1, r) → UpToCaches s s1) :
    ∀ (ast : FormulaAST) (s s1 : Sheet) (r : Except FormulaError Number),
      ast.Execute lookup s = some (s1, r) → UpToCaches s s1 := by
  intro ast
  induction ast with
  | num x =>
    intro s s1 r h
    simp only [FormulaAST.Execute, Option.some.injEq, Prod.mk.injEq] at h
    rw [← h.1]; exact UpToCaches.unchanged s
  | cell p =>
    intro s s1 r h
    exact hl s p s1 r h
  | neg a ih =>
    intro s s1 r h
    unfold FormulaAST.Execute at h
    cases h1 : a.Execute lookup s with
    | none => rw [h1] at h; cases h
    | some p1 =>
      obtain ⟨sa, ra⟩ := p1
      have hsa := ih s sa ra h1
      rw [h1] at h
      cases ra with
      | error e =>
        simp only [Option.some.injEq, Prod.mk.injEq] at h
        rw [← h.1]; exact hsa
      | ok x =>
        simp only [Option.some.injEq, Prod.mk.injEq] at h
        rw [← h.1]; exact hsa
  | add a b iha ihb =>
    intro s s1 r h
    exact binaryOp_upToCaches _ _ _ iha ihb s s1 r h
  | sub a b iha ihb =>
    intro s s1 r h
    exact binaryOp_upToCaches _ _ _ iha ihb s s1 r h
  | mul a b iha ihb =>
    intro s s1 r h
    exact binaryOp_upToCaches _ _ _ iha ihb s s1 r h
  | div a b iha ihb =>
    intro s s1 r h
    exact binaryOp_upToCaches _ _ _ iha ihb s s1 r h

theorem Formula_Evaluate_upToCaches (L : Library)
    (cellGetValue : Sheet → Position → Option (Sheet × Value))
    (hg : ∀ s p s1 v, cellGetValue s p = some (s1, v) → UpToCaches s s1)
    (ast : FormulaAST) (s s1 : Sheet) (r : Except FormulaError Number)
    (h : Formula_Evaluate L cellGetValue ast s = some (s1, r)) : UpToCaches s s1 := by
  unfold Formula_Evaluate at h
  refine Execute_upToCaches _ ?_ ast s s1 r h
  intro s3 p s4 r1 hl
  simp only at hl
  split at hl
  · simp only [Option.some.injEq, Prod.mk.injEq] at hl
    rw [← hl.1]; exact UpToCaches.unchanged _
  · split at hl
    · simp only [Option.some.injEq, Prod.mk.injEq] at hl
      rw [← hl.1]; exact UpToCaches.unchanged _
    · split at hl
      · cases hl
      · rename_i s5 val hgv
        simp only [Option.some.injEq, Prod.mk.injEq] at hl
        rw [← hl.1]
        exact hg _ _ _ _ hgv

theorem GetValue_upToCaches (L : Library) :
    ∀ (fuel : Nat) (s : Sheet) (pos : Position) (s1 : Sheet) (v : Value),
      GetValue L fuel s pos = some (s1, v) → UpToCaches s s1 := by
  intro fuel
  induction fuel with
  | zero => intro s pos s1 v h; simp [GetValue] at h
  | succ n ih =>
    intro s pos s1 v h
    unfold GetValue at h
    cases hc : GetConcreteCell s pos with
    | none => rw [hc] at h; cases h
    | some c =>
      rw [hc] at h
      simp only at h
      cases hca : c.cache_ with
      | some w =>
        rw [hca] at h
        simp only [Option.some.injEq, Prod.mk.injEq] at h
        rw [← h.1]; exact UpToCaches.unchanged s
      | none =>
        rw [hca] at h
        simp only at h
        cases hi : c.impl_ with
        | Empty =>
          rw [hi] at h
          simp only [Option.some.injEq, Prod.mk.injEq] at h
          rw [← h.1]; exact UpToCaches.setCache _ _ _
        | Text t =>
          rw [hi] at h
          simp only [Option.some.injEq, Prod.mk.injEq] at h
          rw [← h.1]; exact UpToCaches.setCache _ _ _
        | Formula ast =>
          rw [hi] at h
          simp only at h
          split at h
          · cases h
          · rename_i s2 x hx
            simp only [Option.some.injEq, Prod.mk.injEq] at h
            rw [← h.1]
            exact (Formula_Evaluate_upToCaches L _ (fun s3 p s4 v1 hv => ih s3 p s4 v1 hv)
              ast s s2 _ hx).compose (UpToCaches.setCache _ _ _)
          · rename_i s2 e hx
            simp only [Option.some.injEq, Prod.mk.injEq] at h
            rw [← h.1]
            exact (Formula_Evaluate_upToCaches L _ (fun s3 p s4 v1 hv => ih s3 p s4 v1 hv)
              ast s s2 _ hx).compose (UpToCaches.setCache _ _ _)

/-! ## What a change up to caches keeps -/

theorem UpToCaches.cell {s s1 : Sheet} (h : UpToCaches s s1) {q : Position} {c1 : Cell}
    (hc : GetConcreteCell s1 q = some c1) :
    ∃ c, GetConcreteCell s q = some c ∧ c1.impl_ = c.impl_ ∧ c1.children_ = c.children_ ∧
      c1.parents_ = c.parents_ := by
  have := h.2.2.2 q
  rw [hc] at this
  cases h0 : GetConcreteCell s q with
  | none => rw [h0] at this; cases this
  | some c =>
    rw [h0] at this
    simp only [Option.map_some', Option.some.injEq] at this
    have e1 : c1.InvalidateCache.impl_ = c.InvalidateCache.impl_ := congrArg Cell.impl_ this
    have e2 : c1.InvalidateCache.children_ = c.InvalidateCache.children_ :=
      congrArg Cell.children_ this
    have e3 : c1.InvalidateCache.parents_ = c.InvalidateCache.parents_ :=
      congrArg Cell.parents_ this
    exact ⟨c, rfl, e1, e2, e3⟩

theorem UpToCaches.mild {s s1 : Sheet} (h : UpToCaches s s1) : Mild s s1 := by
  refine ⟨h.1, h.2.1, fun q hq => by rw [h.2.2.1]; exact hq, ?_, ?_⟩
  · intro q
    rw [nonEmptyAt_eq, nonEmptyAt_eq]
    have := h.2.2.2 q
    cases h1 : GetConcreteCell s1 q with
    | none =>
      rw [h1] at this
      cases h0 : GetConcreteCell s q with
      | none => rfl
      | some c => rw [h0] at this; cases this
    | some c1 =>
      obtain ⟨c, hc, hi, -⟩ := h.cell h1
      rw [hc]
      simp only [Cell.IsEmpty, hi]
  · intro q c1 hc1
    obtain ⟨c, hc, -, hch, -⟩ := h.cell hc1
    exact Or.inr ⟨c, hc, hch⟩

/-! ## No edit creates a cycle -/

theorem Mild.edge {s s1 : Sheet} (h : Mild s s1) {a b : Position} (hab : Edge s1 a b) :
    Edge s a b := by
  obtain ⟨c1, hc1, hb⟩ := hab
  rcases h.children a c1 hc1 with h0 | ⟨c, hc, e⟩
  · rw [h0] at hb; cases hb
  · exact ⟨c, hc, e ▸ hb⟩

/-- Adding edges out of one position `pos` to a graph without cycles creates no cycle when `pos`
is not reachable from the targets of the new edges. -/
theorem acyclic_of_added_edges (E E1 : Position → Position → Prop) (pos : Position)
    (N : List Position)
    (hE : ∀ a b, E1 a b → E a b ∨ (a = pos ∧ b ∈ N))
    (hacyc : ∀ p, ¬ Relation.TransGen E p p)
    (hN : ∀ c ∈ N, ¬ Relation.ReflTransGen E c pos) :
    ∀ p, ¬ Relation.TransGen E1 p p := by
  -- after the last new edge a path runs in the old graph
  have hA : ∀ a b, Relation.ReflTransGen E1 a b →
      Relation.ReflTransGen E a b ∨ ∃ c ∈ N, Relation.ReflTransGen E c b := by
    intro a b hab
    induction hab with
    | refl => exact Or.inl Relation.ReflTransGen.refl
    | tail _ hmb ih =>
      rcases hE _ _ hmb with he | ⟨-, hbN⟩
      · rcases ih with ih | ⟨c, hc, ih⟩
        · exact Or.inl (ih.tail he)
        · exact Or.inr ⟨c, hc, ih.tail he⟩
      · exact Or.inr ⟨_, hbN, Relation.ReflTransGen.refl⟩
  -- a cycle of the new graph passes through `pos`
  have hC : ∀ a b, Relation.TransGen E1 a b →
      Relation.TransGen E a b ∨
        (Relation.ReflTransGen E1 a pos ∧ Relation.TransGen E1 pos b) := by
    intro a b hab
    induction hab with
    | single hab1 =>
      rcases hE _ _ hab1 with he | ⟨ha, -⟩
      · exact Or.inl (Relation.TransGen.single he)
      · subst ha
        exact Or.inr ⟨Relation.ReflTransGen.refl, Relation.TransGen.single hab1⟩
    | tail ham hmb ih =>
      rcases ih with ih | ⟨h1, h2⟩
      · rcases hE _ _ hmb with he | ⟨hm, -⟩
        · exact Or.inl (ih.tail he)
        · subst hm
          exact Or.inr ⟨ham.to_reflTransGen, Relation.TransGen.single hmb⟩
      · exact Or.inr ⟨h1, h2.tail hmb⟩
  intro p hp
  rcases hC p p hp with h | ⟨h1, h2⟩
  · exact hacyc p h
  · have hpos : Relation.TransGen E1 pos pos :=
      Relation.TransGen.trans_left h2 h1
    obtain ⟨x, hx, hrest⟩ := Relation.TransGen.head'_iff.1 hpos
    rcases hA x pos hrest with hr | ⟨c, hc, hr⟩
    · rcases hE _ _ hx with he | ⟨-, hxN⟩
      · exact hacyc pos (Relation.TransGen.head' he hr)
      · exact hN x hxN hr
    · exact hN c hc hr

theorem Edge_install {pos : Position} {st : Sheet × Cell} (hsz : CheckSize st.1 pos = true)
    {a b : Position} (hab : Edge (SetCell_install pos st) a b) :
    Edge st.1 a b ∨ (a = pos ∧ b ∈ st.2.children_) := by
  obtain ⟨c, hc, hb⟩ := hab
  rw [GetConcreteCell_install pos st hsz] at hc
  unfold deref at hc
  by_cases ha : a = pos
  · rw [if_pos ha] at hc
    cases hc
    exact Or.inr ⟨ha, hb⟩
  · rw [if_neg ha] at hc
    exact Or.inl ⟨c, hc, hb⟩

theorem Installs.keeps_acyclic {L : Library} {s : Sheet} {pos : Position} {text : String} {s1 : Sheet}
    (h : Installs L s pos text s1) (hs : Acyclic s) : Acyclic s1 := by
  obtain ⟨nc, st, _, _, hfind, hinv, rfl⟩ := h
  have hsz := invalidated_CheckSize s pos nc st hinv
  obtain ⟨st1, h1, hu, hcell, -⟩ := InvalidateCache_spec pos (SetCell_wired s pos nc)
  rw [hinv] at h1
  cases h1
  have hmild : Mild s st.1 := (Mild.wired s pos nc).andThen hu.mild
  have hch : st.2.children_ = nc.children_ := by
    rw [hcell]
    exact (wired_cell s pos nc).2.1
  apply acyclic_of_added_edges (Edge s) _ pos nc.children_ _ hs
  · intro c hc hreach
    have : FindCyclicDeps s pos nc = some true :=
      (FindCyclicDeps_eq_true_iff s pos nc).2 ⟨c, hc, hreach⟩
    rw [hfind] at this
    cases this
  · intro a b hab
    rcases Edge_install hsz hab with he | ⟨ha, hb⟩
    · exact Or.inl (hmild.edge he)
    · exact Or.inr ⟨ha, hch ▸ hb⟩

theorem SetCell_acyclic (L : Library) (s : Sheet) (pos : Position) (text : String) (s1 : Sheet)
    (h : SetCell L s pos text = .ok s1) (hs : Acyclic s) : Acyclic s1 :=
  (SetCell_installs L s pos text s1 h).keeps_acyclic hs

/-- The ways through `ClearCell`. -/
theorem ClearCell_cases (s : Sheet) (pos : Position) :
    (pos.IsValid = false ∧ ClearCell s pos = .raised .InvalidPosition s) ∨
    (pos.IsValid = true ∧ nonEmptyAt s pos = false ∧ ClearCell s pos = .ok s) ∨
    (∃ old_cell, pos.IsValid = true ∧ GetConcreteCell s pos = some old_cell ∧
      old_cell.IsEmpty = false ∧
      ClearCell s pos =
        .ok (ClearCell_uncount (ClearCell_replace (unwire s pos old_cell.children_) pos) pos)) := by
  unfold ClearCell
  cases hv : pos.IsValid with
  | false =>
    left
    rw [CheckPosition_invalid hv]
    exact ⟨rfl, rfl⟩
  | true =>
    right
    rw [CheckPosition_valid hv]
    simp only
    cases hsz : CheckSize s pos with
    | false =>
      left
      refine ⟨trivial, ?_, rfl⟩
      rw [nonEmptyAt_eq]
      unfold GetConcreteCell
      rw [hsz]
      rfl
    | true =>
      cases hc : GetConcreteCell s pos with
      | none =>
        left
        refine ⟨trivial, ?_, ?_⟩
        · rw [nonEmptyAt_eq, hc]
        · simp [slotIsFree, hc]
      | some c =>
        cases he : c.IsEmpty with
        | true =>
          left
          refine ⟨trivial, ?_, ?_⟩
          · rw [nonEmptyAt_eq, hc]; simp [he]
          · simp [slotIsFree, hc, he]
        | false =>
          right
          refine ⟨c, trivial, rfl, he, ?_⟩
          simp [slotIsFree, hc, he]

theorem GetConcreteCell_uncount (s : Sheet) (pos q : Position) :
    GetConcreteCell (ClearCell_uncount s pos) q = GetConcreteCell s q := by
  rw [GetConcreteCell_eq, GetConcreteCell_eq]
  unfold ClearCell_uncount
  rfl

theorem Edge_replace {s : Sheet} {pos a b : Position} (hab : Edge (ClearCell_replace s pos) a b) :
    Edge s a b := by
  obtain ⟨c, hc, hb⟩ := hab
  unfold ClearCell_replace at hc
  cases h0 : GetConcreteCell s pos with
  | none => rw [h0] at hc; exact ⟨c, hc, hb⟩
  | some old =>
    rw [h0] at hc
    simp only at hc
    by_cases ha : a = pos
    · subst ha
      split at hc
      · rw [GetConcreteCell_setSlot, if_pos rfl, if_pos (CheckSize_of_some h0)] at hc
        cases hc
        cases hb
      · rw [GetConcreteCell_setSlot, if_pos rfl, if_pos (CheckSize_of_some h0)] at hc
        cases hc
    · split at hc <;>
      · rw [GetConcreteCell_setSlot, if_neg ha] at hc
        exact ⟨c, hc, hb⟩

theorem ClearCell_acyclic (s : Sheet) (pos : Position) (s1 : Sheet)
    (h : ClearCell s pos = .ok s1) (hs : Acyclic s) : Acyclic s1 := by
  rcases ClearCell_cases s pos with h1 | h1 | ⟨old, h1⟩
  · rw [h1.2] at h; cases h
  · rw [h1.2.2] at h; cases h; exact hs
  · rw [h1.2.2.2] at h
    have h3 := Outcome.ok.inj h
    subst h3
    intro p hp
    apply hs p
    refine Relation.TransGen.mono ?_ hp
    intro a b hab
    have h2 : Edge (ClearCell_replace (unwire s pos old.children_) pos) a b := by
      obtain ⟨c, hc, hb⟩ := hab
      rw [GetConcreteCell_uncount] at hc
      exact ⟨c, hc, hb⟩
    exact (Mild.unwire s pos old.children_).edge (Edge_replace h2)

theorem ClearCell_raised_same (s : Sheet) (pos : Position) (e : Exception) (s1 : Sheet)
    (h : ClearCell s pos = .raised e s1) : s1 = s := by
  rcases ClearCell_cases s pos with h1 | h1 | ⟨old, h1⟩
  · rw [h1.2] at h; cases h; rfl
  · rw [h1.2.2] at h; cases h
  · rw [h1.2.2.2] at h; cases h

theorem Acyclic_create : Acyclic CreateSheet := by
  intro p hp
  obtain ⟨x, ⟨c, hc, -⟩, -⟩ := Relation.TransGen.head'_iff.1 hp
  rw [GetConcreteCell_eq] at hc
  simp [CreateSheet] at hc

theorem Reachable.acyclic {L : Library} {s : Sheet} (h : Reachable L s) : Acyclic s := by
  induction h with
  | create => exact Acyclic_create
  | setCell pos text _ hstep ih => exact SetCell_acyclic L _ pos text _ hstep ih
  | setCellRaised pos text e _ hstep ih =>
    rw [SetCell_raised_same L _ pos text e _ hstep]; exact ih
  | clearCell pos _ hstep ih => exact ClearCell_acyclic _ pos _ hstep ih
  | clearCellRaised pos e _ hstep ih =>
    rw [ClearCell_raised_same _ pos e _ hstep]; exact ih
  | getValue fuel pos v _ hstep ih =>
    intro p hp
    apply ih p
    refine Relation.TransGen.mono ?_ hp
    intro a b hab
    exact (GetValue_upToCaches L fuel _ pos _ v hstep).mild.edge hab

/-! ## What `ClearCell` leaves at its position -/

theorem Reachable.no_self_child {L : Library} {s : Sheet} (h : Reachable L s) {p : Position}
    {c : Cell} (hc : GetConcreteCell s p = some c) : p ∉ c.children_ := by
  intro hp
  exact h.acyclic p (Relation.TransGen.single ⟨c, hc, hp⟩)

theorem GetCell_valid {s : Sheet} {p : Position} (hv : p.IsValid = true) :
    GetCell s p = .ok (GetConcreteCell s p) := by
  unfold GetCell
  rw [CheckPosition_valid hv]

theorem ClearCell_at (s : Sheet) (p : Position) (c : Cell)
    (hc : GetConcreteCell s p = some c) (hself : p ∉ c.children_) :
    GetConcreteCell (ClearCell_uncount (ClearCell_replace (unwire s p c.children_) p) p) p =
      if c.parents_ ≠ [] then some (Cell.makeEmpty.SetParents c.parents_) else none := by
  rw [GetConcreteCell_uncount]
  have h1 : GetConcreteCell (unwire s p c.children_) p = some c := by
    rw [GetConcreteCell_unwire_not_mem s p c.children_ p hself, hc]
  unfold ClearCell_replace
  rw [h1]
  simp only
  split
  · rw [GetConcreteCell_setSlot, if_pos rfl, if_pos (CheckSize_of_some h1)]
  · rw [GetConcreteCell_setSlot, if_pos rfl, if_pos (CheckSize_of_some h1)]

theorem ClearCell_reachable_spec (L : Library) (s : Sheet) (hr : Reachable L s) (p : Position)
    (hv : p.IsValid = true) :
    (∀ c, GetConcreteCell s p = some c → c.IsEmpty = false →
      ∃ s1, ClearCell s p = .ok s1 ∧
        (c.parents_ = [] → GetCell s1 p = .ok none) ∧
        (c.parents_ ≠ [] → ∃ c1, GetCell s1 p = .ok (some c1) ∧ c1.IsEmpty = true ∧
          c1.parents_ = c.parents_)) ∧
    ((CheckSize s p = false ∨ GetConcreteCell s p = none ∨
        ∃ c, GetConcreteCell s p = some c ∧ c.IsEmpty = true) → ClearCell s p = .ok s) := by
  constructor
  · intro c hc hne
    rcases ClearCell_cases s p with h1 | h1 | ⟨old, h1⟩
    · rw [hv] at h1; cases h1.1
    · have := h1.2.1
      rw [nonEmptyAt_eq, hc] at this
      simp only [hne] at this
      cases this
    · rw [hc] at h1
      have hold : c = old := Option.some.inj h1.2.1
      subst hold
      refine ⟨_, h1.2.2.2, ?_, ?_⟩
      · intro hp
        rw [GetCell_valid hv, ClearCell_at s p c hc (hr.no_self_child hc), if_neg (by simp [hp])]
      · intro hp
        refine ⟨Cell.makeEmpty.SetParents c.parents_, ?_, rfl, rfl⟩
        rw [GetCell_valid hv, ClearCell_at s p c hc (hr.no_self_child hc), if_pos hp]
  · intro h
    rcases ClearCell_cases s p with h1 | h1 | ⟨old, h1⟩
    · rw [hv] at h1; cases h1.1
    · exact h1.2.2
    · exfalso
      rcases h with h | h | ⟨c, hc, he⟩
      · rw [CheckSize_of_some h1.2.1] at h; cases h
      · rw [h] at h1; cases h1.2.1
      · rw [hc] at h1
        have hold : c = old := Option.some.inj h1.2.1
        subst hold
        have h2 := h1.2.2.1
        rw [he] at h2
        cases h2

/-! ## The occupancy maps -/

theorem CountMap.find_cons (a v : Nat) (rest : CountMap) (k : Nat) :
    CountMap.find ((a, v) :: rest) k = if a = k then some v else CountMap.find rest k := rfl

theorem CountMap.find_erase (m : CountMap) (k k1 : Nat) :
    CountMap.find (CountMap.erase m k) k1 = if k1 = k then none else CountMap.find m k1 := by
  induction m with
  | nil => simp [CountMap.erase, CountMap.find]
  | cons e rest ih =>
    obtain ⟨a, v⟩ := e
    unfold CountMap.erase at ih ⊢
    by_cases ha : a = k
    · subst ha
      rw [List.filter_cons_of_neg (by simp), ih]
      by_cases hk : k1 = a
      · rw [if_pos hk, if_pos hk]
      · rw [if_neg hk, if_neg hk, CountMap.find_cons, if_neg (fun h => hk h.symm)]
    · rw [List.filter_cons_of_pos (by simp [ha])]
      rw [CountMap.find_cons, CountMap.find_cons]
      by_cases hak : a = k1
      · rw [if_pos hak, if_pos hak, if_neg (fun h => ha (hak.trans h))]
      · rw [if_neg hak, if_neg hak]
        exact ih

theorem CountMap.find_set (m : CountMap) (k v k1 : Nat) :
    CountMap.find (CountMap.set m k v) k1 = if k1 = k then some v else CountMap.find m k1 := by
  unfold CountMap.set
  rw [CountMap.find_cons]
  by_cases hk : k = k1
  · rw [if_pos hk, if_pos hk.symm]
  · rw [if_neg hk, if_neg (fun h => hk h.symm), CountMap.find_erase,
      if_neg (fun h => hk h.symm)]

theorem CountMap.find_increment (m : CountMap) (k k1 n : Nat)
    (hn : CountMap.find m k = if n = 0 then none else some n) (hlt : n + 1 < 2 ^ 64) :
    CountMap.find (CountMap.increment m k) k1 =
      if k1 = k then some (n + 1) else CountMap.find m k1 := by
  unfold CountMap.increment
  rw [CountMap.find_set]
  have hat : CountMap.at m k = n := by
    unfold CountMap.at
    rw [hn]
    by_cases h0 : n = 0
    · rw [if_pos h0, h0]; rfl
    · rw [if_neg h0]; rfl
  rw [hat, Nat.mod_eq_of_lt hlt]

theorem CountMap.find_decrementAndPurge (m : CountMap) (k k1 n : Nat)
    (hn : CountMap.find m k = some (n + 1)) (hlt : n + 1 < 2 ^ 64) :
    CountMap.find (CountMap.decrementAndPurge m k) k1 =
      if k1 = k then (if n = 0 then none else some n) else CountMap.find m k1 := by
  unfold CountMap.decrementAndPurge
  have hat : CountMap.at m k = n + 1 := by
    unfold CountMap.at
    rw [hn]; rfl
  have hv : (CountMap.at m k + (2 ^ 64 - 1)) % 2 ^ 64 = n := by
    rw [hat]
    have : n + 1 + (2 ^ 64 - 1) = n + 2 ^ 64 := by omega
    rw [this, Nat.add_mod_right, Nat.mod_eq_of_lt (by omega)]
  simp only [hv]
  by_cases h0 : n = 0
  · rw [if_pos h0, CountMap.find_erase]
    by_cases hk : k1 = k
    · rw [if_pos hk, if_pos hk, if_pos h0]
    · rw [if_neg hk, if_neg hk]
  · rw [if_neg h0, CountMap.find_set]
    by_cases hk : k1 = k
    · rw [if_pos hk, if_pos hk, if_neg h0]
    · rw [if_neg hk, if_neg hk]

theorem CountMap.eq_nil_iff (m : CountMap) : m = [] ↔ ∀ k, CountMap.find m k = none := by
  constructor
  · intro h k; rw [h]; rfl
  · intro h
    cases m with
    | nil => rfl
    | cons e rest =>
      obtain ⟨a, v⟩ := e
      have := h a
      rw [CountMap.find_cons, if_pos rfl] at this
      cases this

theorem CountMap.lastKey_spec (m : CountMap) (hm : m ≠ []) :
    ∃ k, CountMap.lastKey m = some k ∧ CountMap.find m k ≠ none ∧
      ∀ k1, CountMap.find m k1 ≠ none → k1 ≤ k := by
  induction m with
  | nil => exact absurd rfl hm
  | cons e rest ih =>
    obtain ⟨a, v⟩ := e
    unfold CountMap.lastKey
    cases hrest : rest with
    | nil =>
      refine ⟨a, by simp [CountMap.lastKey], by simp [CountMap.find], ?_⟩
      intro k1 hk1
      rw [CountMap.find_cons] at hk1
      by_cases hak : a = k1
      · omega
      · rw [if_neg hak] at hk1
        exact absurd rfl hk1
    | cons e1 rest1 =>
      rw [← hrest]
      obtain ⟨k, hk, hfind, hmax⟩ := ih (by rw [hrest]; simp)
      rw [hk]
      refine ⟨max a k, rfl, ?_, ?_⟩
      · rw [CountMap.find_cons]
        by_cases hak : a = max a k
        · rw [if_pos hak]; simp
        · rw [if_neg hak]
          have : max a k = k := by omega
          rw [this]; exact hfind
      · intro k1 hk1
        rw [CountMap.find_cons] at hk1
        by_cases hak : a = k1
        · omega
        · rw [if_neg hak] at hk1
          have := hmax k1 hk1
          omega

/-! ## Counting the cells of a row -/

theorem countP_range_update (P P1 : Nat → Bool) (c0 : Nat) (h : ∀ c, c ≠ c0 → P1 c = P c)
    (h0 : P c0 = false) (h1 : P1 c0 = true) (N : Nat) :
    (List.range N).countP P1 = (List.range N).countP P + if c0 < N then 1 else 0 := by
  induction N with
  | zero => simp
  | succ n ih =>
    rw [List.range_succ, List.countP_append, List.countP_append, ih]
    by_cases hn : n = c0
    · subst hn
      simp [List.countP_cons, h0, h1]
    · rw [List.countP_singleton, List.countP_singleton, h n hn]
      have hiff : c0 < n + 1 ↔ c0 < n := by omega
      simp only [hiff]
      omega

theorem rowCount_congr {s s1 : Sheet} (h : ∀ q, nonEmptyAt s1 q = nonEmptyAt s q) (r : Nat) :
    rowCount s1 r = rowCount s r := by
  unfold rowCount
  congr 1
  funext c
  exact h _

theorem colCount_congr {s s1 : Sheet} (h : ∀ q, nonEmptyAt s1 q = nonEmptyAt s q) (c : Nat) :
    colCount s1 c = colCount s c := by
  unfold colCount
  congr 1
  funext r
  exact h _

theorem rowCount_le (s : Sheet) (r : Nat) : rowCount s r ≤ MAX_COLS := by
  unfold rowCount
  have := @List.countP_le_length _ (fun c => nonEmptyAt s ⟨r, c⟩) (List.range MAX_COLS)
  simpa using this

theorem colCount_le (s : Sheet) (c : Nat) : colCount s c ≤ MAX_ROWS := by
  unfold colCount
  have := @List.countP_le_length _ (fun r => nonEmptyAt s ⟨r, c⟩) (List.range MAX_ROWS)
  simpa using this

theorem rowCount_pos_iff (s : Sheet) (r : Nat) :
    rowCount s r ≠ 0 ↔ ∃ c, c < MAX_COLS ∧ nonEmptyAt s ⟨r, c⟩ = true := by
  unfold rowCount
  rw [← Nat.pos_iff_ne_zero, List.countP_pos_iff]
  simp

theorem colCount_pos_iff (s : Sheet) (c : Nat) :
    colCount s c ≠ 0 ↔ ∃ r, r < MAX_ROWS ∧ nonEmptyAt s ⟨r, c⟩ = true := by
  unfold colCount
  rw [← Nat.pos_iff_ne_zero, List.countP_pos_iff]
  simp

/-- The counts after the flag of one valid position changes from false to true. -/
theorem rowCount_flip {s s1 : Sheet} {pos : Position} (hv : pos.IsValid = true)
    (h : ∀ q, q ≠ pos → nonEmptyAt s1 q = nonEmptyAt s q)
    (h0 : nonEmptyAt s pos = false) (h1 : nonEmptyAt s1 pos = true) (r : Nat) :
    rowCount s1 r = rowCount s r + if r = pos.row then 1 else 0 := by
  unfold rowCount
  unfold Position.IsValid at hv
  simp only [Bool.and_eq_true, decide_eq_true_eq] at hv
  by_cases hr : r = pos.row
  · subst hr
    rw [countP_range_update (fun c => nonEmptyAt s ⟨pos.row, c⟩)
      (fun c => nonEmptyAt s1 ⟨pos.row, c⟩) pos.col ?_ h0 h1, if_pos hv.2, if_pos rfl]
    intro c hc
    apply h
    intro hh
    apply hc
    rw [← hh]
  · rw [if_neg hr]
    simp only [add_zero]
    congr 1
    funext c
    apply h
    intro hh
    apply hr
    rw [← hh]

theorem colCount_flip {s s1 : Sheet} {pos : Position} (hv : pos.IsValid = true)
    (h : ∀ q, q ≠ pos → nonEmptyAt s1 q = nonEmptyAt s q)
    (h0 : nonEmptyAt s pos = false) (h1 : nonEmptyAt s1 pos = true) (c : Nat) :
    colCount s1 c = colCount s c + if c = pos.col then 1 else 0 := by
  unfold colCount
  unfold Position.IsValid at hv
  simp only [Bool.and_eq_true, decide_eq_true_eq] at hv
  by_cases hc : c = pos.col
  · subst hc
    rw [countP_range_update (fun r => nonEmptyAt s ⟨r, pos.col⟩)
      (fun r => nonEmptyAt s1 ⟨r, pos.col⟩) pos.row ?_ h0 h1, if_pos hv.1, if_pos rfl]
    intro r hr
    apply h
    intro hh
    apply hr
    rw [← hh]
  · rw [if_neg hc]
    simp only [add_zero]
    congr 1
    funext r
    apply h
    intro hh
    apply hc
    rw [← hh]

/-! ## The occupancy maps agree with the grid in every reachable sheet -/

theorem Cell.make_not_empty {L : Library} {text : String} {c : Cell}
    (h : Cell.make L text = some c) : c.IsEmpty = false := by
  unfold Cell.make at h
  split at h
  · split at h
    · cases h
    · cases h; rfl
  · cases h; rfl

theorem Counted.of_same {s s1 : Sheet} (hc : Counted s)
    (hF : ∀ q, nonEmptyAt s1 q = nonEmptyAt s q)
    (hr : s1.row_cells_count_ = s.row_cells_count_)
    (hcol : s1.col_cells_count_ = s.col_cells_count_) : Counted s1 := by
  refine ⟨fun p hp => hc.valid p (by rw [← hF]; exact hp), ?_, ?_⟩
  · intro r
    rw [hr, rowCount_congr hF]
    exact hc.rows r
  · intro c
    rw [hcol, colCount_congr hF]
    exact hc.cols c

theorem MAX_COLS_lt : MAX_COLS + 1 < 2 ^ 64 := by unfold MAX_COLS; norm_num

theorem MAX_ROWS_lt : MAX_ROWS + 1 < 2 ^ 64 := by unfold MAX_ROWS; norm_num

theorem Counted.of_raise {s s1 : Sheet} {pos : Position} (hc : Counted s)
    (hv : pos.IsValid = true)
    (hF : ∀ q, q ≠ pos → nonEmptyAt s1 q = nonEmptyAt s q)
    (h0 : nonEmptyAt s pos = false) (h1 : nonEmptyAt s1 pos = true)
    (hr : s1.row_cells_count_ = CountMap.increment s.row_cells_count_ pos.row)
    (hcol : s1.col_cells_count_ = CountMap.increment s.col_cells_count_ pos.col) :
    Counted s1 := by
  refine ⟨?_, ?_, ?_⟩
  · intro p hp
    by_cases hpp : p = pos
    · rw [hpp]; exact hv
    · exact hc.valid p (by rw [← hF p hpp]; exact hp)
  · intro r
    have hle := rowCount_le s pos.row
    have hlt := MAX_COLS_lt
    rw [hr, CountMap.find_increment _ _ _ (rowCount s pos.row) (hc.rows pos.row)
        (Nat.lt_of_le_of_lt (Nat.succ_le_succ hle) hlt),
      rowCount_flip hv hF h0 h1 r]
    by_cases hrp : r = pos.row
    · rw [if_pos hrp, if_pos hrp, if_neg (Nat.succ_ne_zero _), hrp]
    · rw [if_neg hrp, if_neg hrp]
      simp only [add_zero]
      exact hc.rows r
  · intro c
    have hle := colCount_le s pos.col
    have hlt := MAX_ROWS_lt
    rw [hcol, CountMap.find_increment _ _ _ (colCount s pos.col) (hc.cols pos.col)
        (Nat.lt_of_le_of_lt (Nat.succ_le_succ hle) hlt),
      colCount_flip hv hF h0 h1 c]
    by_cases hcp : c = pos.col
    · rw [if_pos hcp, if_pos hcp, if_neg (Nat.succ_ne_zero _), hcp]
    · rw [if_neg hcp, if_neg hcp]
      simp only [add_zero]
      exact hc.cols c

theorem Counted.of_lower {s s1 : Sheet} {pos : Position} (hc : Counted s)
    (hv : pos.IsValid = true)
    (hF : ∀ q, q ≠ pos → nonEmptyAt s1 q = nonEmptyAt s q)
    (h0 : nonEmptyAt s pos = true) (h1 : nonEmptyAt s1 pos = false)
    (hr : s1.row_cells_count_ = CountMap.decrementAndPurge s.row_cells_count_ pos.row)
    (hcol : s1.col_cells_count_ = CountMap.decrementAndPurge s.col_cells_count_ pos.col) :
    Counted s1 := by
  have hF1 : ∀ q, q ≠ pos → nonEmptyAt s q = nonEmptyAt s1 q := fun q hq => (hF q hq).symm
  refine ⟨?_, ?_, ?_⟩
  · intro p hp
    by_cases hpp : p = pos
    · rw [hpp]; exact hv
    · exact hc.valid p (by rw [← hF p hpp]; exact hp)
  · intro r
    have hle := rowCount_le s pos.row
    have hlt := MAX_COLS_lt
    have hflip := rowCount_flip hv hF1 h1 h0
    have hpos := hflip pos.row
    rw [if_pos rfl] at hpos
    have hfind : CountMap.find s.row_cells_count_ pos.row = some (rowCount s1 pos.row + 1) := by
      rw [hc.rows pos.row, if_neg (by rw [hpos]; exact Nat.succ_ne_zero _), hpos]
    have hle1 : rowCount s1 pos.row + 1 ≤ MAX_COLS := by rw [← hpos]; exact hle
    rw [hr, CountMap.find_decrementAndPurge _ _ _ (rowCount s1 pos.row) hfind
      (Nat.lt_of_le_of_lt hle1 (Nat.lt_trans (Nat.lt_succ_self _) hlt))]
    by_cases hrp : r = pos.row
    · rw [if_pos hrp, hrp]
    · rw [if_neg hrp, hc.rows r]
      have := hflip r
      rw [if_neg hrp] at this
      simp only [add_zero] at this
      rw [this]
  · intro c
    have hle := colCount_le s pos.col
    have hlt := MAX_ROWS_lt
    have hflip := colCount_flip hv hF1 h1 h0
    have hpos := hflip pos.col
    rw [if_pos rfl] at hpos
    have hfind : CountMap.find s.col_cells_count_ pos.col = some (colCount s1 pos.col + 1) := by
      rw [hc.cols pos.col, if_neg (by rw [hpos]; exact Nat.succ_ne_zero _), hpos]
    have hle1 : colCount s1 pos.col + 1 ≤ MAX_ROWS := by rw [← hpos]; exact hle
    rw [hcol, CountMap.find_decrementAndPurge _ _ _ (colCount s1 pos.col) hfind
      (Nat.lt_of_le_of_lt hle1 (Nat.lt_trans (Nat.lt_succ_self _) hlt))]
    by_cases hcp : c = pos.col
    · rw [if_pos hcp, hcp]
    · rw [if_neg hcp, hc.cols c]
      have := hflip c
      rw [if_neg hcp] at this
      simp only [add_zero] at this
      rw [this]

theorem slotIsFree_eq (s : Sheet) (p : Position) : slotIsFree s p = !nonEmptyAt s p := by
  unfold nonEmptyAt
  simp

theorem SetCell_counted (L : Library) (s : Sheet) (pos : Position) (text : String) (s1 : Sheet)
    (h : SetCell L s pos text = .ok s1) (hs : Counted s) : Counted s1 := by
  obtain ⟨nc, st, hv, hmake, _, hinv, rfl⟩ := SetCell_ok_inv L s pos text s1 h
  have hsz := invalidated_CheckSize s pos nc st hinv
  obtain ⟨st1, h1, hu, hcell, -⟩ := InvalidateCache_spec pos (SetCell_wired s pos nc)
  rw [hinv] at h1
  cases h1
  have hmild : Mild s st.1 := (Mild.wired s pos nc).andThen hu.mild
  have hne : st.2.IsEmpty = false := by
    have : st.2.impl_ = nc.impl_ := by rw [hcell]; exact (wired_cell s pos nc).1
    have h2 := Cell.make_not_empty hmake
    unfold Cell.IsEmpty at h2 ⊢
    rw [this]; exact h2
  have hF : ∀ q, q ≠ pos → nonEmptyAt (SetCell_install pos st) q = nonEmptyAt s q := by
    intro q hq
    rw [nonEmptyAt_eq, GetConcreteCell_install pos st hsz, ← hmild.nonEmpty q, nonEmptyAt_eq]
    unfold deref
    rw [if_neg hq]
  have hpos : nonEmptyAt (SetCell_install pos st) pos = true := by
    rw [nonEmptyAt_eq, GetConcreteCell_install pos st hsz]
    unfold deref
    rw [if_pos rfl]
    simp [hne]
  have hfree : slotIsFree st.1 pos = !nonEmptyAt s pos := by
    rw [slotIsFree_eq, hmild.nonEmpty]
  cases h0 : nonEmptyAt s pos with
  | true =>
    rw [h0] at hfree
    apply hs.of_same
    · intro q
      by_cases hq : q = pos
      · rw [hq, hpos, h0]
      · exact hF q hq
    · unfold SetCell_install
      simp only [hfree, Bool.not_true, Bool.false_eq_true, if_false]
      exact hmild.rows
    · unfold SetCell_install
      simp only [hfree, Bool.not_true, Bool.false_eq_true, if_false]
      exact hmild.cols
  | false =>
    rw [h0] at hfree
    apply hs.of_raise hv hF h0 hpos
    · unfold SetCell_install
      simp only [hfree, Bool.not_false, if_true]
      show CountMap.increment st.1.row_cells_count_ pos.row = _
      rw [hmild.rows]
    · unfold SetCell_install
      simp only [hfree, Bool.not_false, if_true]
      show CountMap.increment st.1.col_cells_count_ pos.col = _
      rw [hmild.cols]

theorem nonEmptyAt_replace (s : Sheet) (pos q : Position) :
    nonEmptyAt (ClearCell_replace s pos) q = if q = pos then false else nonEmptyAt s q := by
  rw [nonEmptyAt_eq]
  unfold ClearCell_replace
  cases h0 : GetConcreteCell s pos with
  | none =>
    simp only
    by_cases hq : q = pos
    · rw [if_pos hq, hq, h0]
    · rw [if_neg hq, nonEmptyAt_eq]
  | some old =>
    simp only
    by_cases hq : q = pos
    · rw [if_pos hq, hq]
      by_cases hp : old.parents_ ≠ []
      · rw [if_pos hp, GetConcreteCell_setSlot, if_pos rfl, if_pos (CheckSize_of_some h0)]
        rfl
      · rw [if_neg hp, GetConcreteCell_setSlot, if_pos rfl, if_pos (CheckSize_of_some h0)]
    · rw [if_neg hq, nonEmptyAt_eq]
      by_cases hp : old.parents_ ≠ []
      · rw [if_pos hp, GetConcreteCell_setSlot, if_neg hq]
      · rw [if_neg hp, GetConcreteCell_setSlot, if_neg hq]

theorem ClearCell_replace_counts (s : Sheet) (pos : Position) :
    (ClearCell_replace s pos).row_cells_count_ = s.row_cells_count_ ∧
    (ClearCell_replace s pos).col_cells_count_ = s.col_cells_count_ := by
  unfold ClearCell_replace
  cases GetConcreteCell s pos with
  | none => exact ⟨rfl, rfl⟩
  | some old =>
    simp only
    split <;> exact ⟨rfl, rfl⟩

theorem ClearCell_uncount_rows (s : Sheet) (pos : Position) :
    (ClearCell_uncount s pos).row_cells_count_ =
      CountMap.decrementAndPurge s.row_cells_count_ pos.row := by
  simp only [ClearCell_uncount]

theorem ClearCell_uncount_cols (s : Sheet) (pos : Position) :
    (ClearCell_uncount s pos).col_cells_count_ =
      CountMap.decrementAndPurge s.col_cells_count_ pos.col := by
  simp only [ClearCell_uncount]

theorem ClearCell_counted (s : Sheet) (pos : Position) (s1 : Sheet)
    (h : ClearCell s pos = .ok s1) (hs : Counted s) : Counted s1 := by
  rcases ClearCell_cases s pos with h1 | h1 | ⟨old, hv, hold, hne, h1⟩
  · rw [h1.2] at h; cases h
  · rw [h1.2.2] at h; cases h; exact hs
  · rw [h1] at h
    have h3 := Outcome.ok.inj h
    subst h3
    have hm := Mild.unwire s pos old.children_
    have hG : ∀ q, nonEmptyAt
        (ClearCell_uncount (ClearCell_replace (unwire s pos old.children_) pos) pos) q =
        nonEmptyAt (ClearCell_replace (unwire s pos old.children_) pos) q := by
      intro q
      rw [nonEmptyAt_eq, nonEmptyAt_eq, GetConcreteCell_uncount]
    apply hs.of_lower hv
    · intro q hq
      rw [hG, nonEmptyAt_replace, if_neg hq, hm.nonEmpty]
    · rw [nonEmptyAt_eq, hold]
      simp [hne]
    · rw [hG, nonEmptyAt_replace, if_pos rfl]
    · rw [ClearCell_uncount_rows, (ClearCell_replace_counts _ _).1, hm.rows]
    · rw [ClearCell_uncount_cols, (ClearCell_replace_counts _ _).2, hm.cols]

theorem Counted_create : Counted CreateSheet := by
  have hF : ∀ p, nonEmptyAt CreateSheet p = false := by
    intro p
    rw [nonEmptyAt_eq, GetConcreteCell_eq]
    simp [CreateSheet]
  refine ⟨fun p hp => absurd hp (by rw [hF]; simp), ?_, ?_⟩
  · intro r
    have : rowCount CreateSheet r = 0 := by
      unfold rowCount
      simp [hF]
    rw [this]; rfl
  · intro c
    have : colCount CreateSheet c = 0 := by
      unfold colCount
      simp [hF]
    rw [this]; rfl

theorem Reachable.counted {L : Library} {s : Sheet} (h : Reachable L s) : Counted s := by
  induction h with
  | create => exact Counted_create
  | setCell pos text _ hstep ih => exact SetCell_counted L _ pos text _ hstep ih
  | setCellRaised pos text e _ hstep ih =>
    rw [SetCell_raised_same L _ pos text e _ hstep]; exact ih
  | clearCell pos _ hstep ih => exact ClearCell_counted _ pos _ hstep ih
  | clearCellRaised pos e _ hstep ih =>
    rw [ClearCell_raised_same _ pos e _ hstep]; exact ih
  | getValue fuel pos v _ hstep ih =>
    have hm := (GetValue_upToCaches L fuel _ pos _ v hstep).mild
    exact ih.of_same hm.nonEmpty hm.rows hm.cols

/-- The printable size of a sheet whose maps agree with its grid. -/
theorem Counted.printableSize {s : Sheet} (hc : Counted s) :
    ∃ sz, GetPrintableSize s = some sz ∧
      ((∀ p, nonEmptyAt s p = false) → sz = ⟨0, 0⟩) ∧
      ((∃ p, nonEmptyAt s p = true) →
        (∃ p, nonEmptyAt s p = true ∧ sz.rows = p.row + 1) ∧
        (∃ p, nonEmptyAt s p = true ∧ sz.cols = p.col + 1) ∧
        ∀ p, nonEmptyAt s p = true → p.row + 1 ≤ sz.rows ∧ p.col + 1 ≤ sz.cols) := by
  have hrow : ∀ p, nonEmptyAt s p = true → CountMap.find s.row_cells_count_ p.row ≠ none := by
    intro p hp
    have hv := hc.valid p hp
    unfold Position.IsValid at hv
    simp only [Bool.and_eq_true, decide_eq_true_eq] at hv
    have : rowCount s p.row ≠ 0 := (rowCount_pos_iff s p.row).2 ⟨p.col, hv.2, hp⟩
    rw [hc.rows, if_neg this]
    simp
  have hcol : ∀ p, nonEmptyAt s p = true → CountMap.find s.col_cells_count_ p.col ≠ none := by
    intro p hp
    have hv := hc.valid p hp
    unfold Position.IsValid at hv
    simp only [Bool.and_eq_true, decide_eq_true_eq] at hv
    have : colCount s p.col ≠ 0 := (colCount_pos_iff s p.col).2 ⟨p.row, hv.1, hp⟩
    rw [hc.cols, if_neg this]
    simp
  unfold GetPrintableSize
  by_cases hnil : s.row_cells_count_ = []
  · rw [if_pos hnil]
    refine ⟨⟨0, 0⟩, rfl, fun _ => rfl, ?_⟩
    rintro ⟨p, hp⟩
    exact absurd ((CountMap.eq_nil_iff _).1 hnil p.row) (hrow p hp)
  · rw [if_neg hnil]
    obtain ⟨R, hR, hRfind, hRmax⟩ := CountMap.lastKey_spec _ hnil
    have hRcount : rowCount s R ≠ 0 := by
      intro h0
      rw [hc.rows, if_pos h0] at hRfind
      exact hRfind rfl
    obtain ⟨c0, -, hc0⟩ := (rowCount_pos_iff s R).1 hRcount
    have hcnil : s.col_cells_count_ ≠ [] := by
      intro h0
      exact absurd ((CountMap.eq_nil_iff _).1 h0 c0) (hcol ⟨R, c0⟩ hc0)
    obtain ⟨C, hC, hCfind, hCmax⟩ := CountMap.lastKey_spec _ hcnil
    have hCcount : colCount s C ≠ 0 := by
      intro h0
      rw [hc.cols, if_pos h0] at hCfind
      exact hCfind rfl
    obtain ⟨r0, -, hr0⟩ := (colCount_pos_iff s C).1 hCcount
    rw [hR, hC]
    refine ⟨⟨R + 1, C + 1⟩, rfl, ?_, ?_⟩
    · intro hall
      rw [hall] at hc0
      cases hc0
    · intro _
      refine ⟨⟨⟨R, c0⟩, hc0, rfl⟩, ⟨⟨r0, C⟩, hr0, rfl⟩, ?_⟩
      intro p hp
      have h1 := hRmax p.row (hrow p hp)
      have h2 := hCmax p.col (hcol p hp)
      simp only
      omega

/-! ## The scenarios -/

theorem make_formula (L : Library) (text body : String) (ast : FormulaAST)
    (hf : front text = FORMULA_SIGN) (hl : text.data.length > 1) (hb : substr1 text = body)
    (hp : L.ParseFormulaAST body = some ast) :
    Cell.make L text = some (Cell.mk (.Formula ast) none (Formula_GetReferencedCells ast) []) := by
  unfold Cell.make
  rw [if_pos ⟨hf, hl⟩, hb, hp]
  rfl

theorem make_text (L : Library) (text : String)
    (h : ¬ (front text = FORMULA_SIGN ∧ text.data.length > 1)) :
    Cell.make L text = some (Cell.mk (.Text text) none [] []) := by
  unfold Cell.make
  rw [if_neg h]
  rfl

theorem SetCell_formula (L : Library) (s : Sheet) (pos : Position) (text body : String)
    (ast : FormulaAST) (hv : pos.IsValid = true)
    (hf : front text = FORMULA_SIGN) (hl : text.data.length > 1) (hb : substr1 text = body)
    (hp : L.ParseFormulaAST body = some ast) :
    SetCell L s pos text =
      SetCell_checked s pos (Cell.mk (.Formula ast) none (Formula_GetReferencedCells ast) []) := by
  unfold SetCell
  rw [CheckPosition_valid hv, make_formula L text body ast hf hl hb hp]

theorem SetCell_text (L : Library) (s : Sheet) (pos : Position) (text : String)
    (hv : pos.IsValid = true) (h : ¬ (front text = FORMULA_SIGN ∧ text.data.length > 1)) :
    SetCell L s pos text = SetCell_checked s pos (Cell.mk (.Text text) none [] []) := by
  unfold SetCell
  rw [CheckPosition_valid hv, make_text L text h]

theorem chain_built (L : Library) (h2 : L.ParseFormulaAST "A2" = some (.cell A2))
    (h3 : L.ParseFormulaAST "A3" = some (.cell A3)) :
    ∃ s1, SetCell L CreateSheet A1 "=A2" = .ok s1 ∧ SetCell L s1 A2 "=A3" = .ok chainSheet := by
  refine ⟨(SetCell_checked CreateSheet A1 (Cell.mk (.Formula (.cell A2)) none [A2] [])).sheet
    CreateSheet, ?_, ?_⟩
  · rw [SetCell_formula L _ A1 "=A2" "A2" _ (by decide) (by decide) (by decide) (by decide) h2]
    decide
  · rw [SetCell_formula L _ A2 "=A3" "A3" _ (by decide) (by decide) (by decide) (by decide) h3]
    decide

theorem chain_rejects (L : Library) (h1 : L.ParseFormulaAST "A1" = some (.cell A1)) :
    SetCell L chainSheet A3 "=A1" = .raised .CircularDependency chainSheet := by
  rw [SetCell_formula L _ A3 "=A1" "A1" _ (by decide) (by decide) (by decide) (by decide) h1]
  decide

theorem chain_value (L : Library) (n : Nat) :
    GetValue L (n + 3) chainSheet A1 = some (chainSheetCached, .number 0) := rfl

theorem chain_reset (L : Library) : SetCell L chainSheetCached A3 "5" = .ok chainSheetReset := by
  rw [SetCell_text L _ A3 "5" (by decide) (by decide)]
  decide

theorem chain_reset_path : Relation.ReflTransGen (ParentEdge chainSheetReset) A3 A1 := by
  have e1 : ParentEdge chainSheetReset A3 A2 := ⟨Cell.mk (.Text "5") none [] [A2], rfl, by decide⟩
  have e2 : ParentEdge chainSheetReset A2 A1 :=
    ⟨Cell.mk (.Formula (.cell A3)) none [A3] [A1], rfl, by decide⟩
  exact Relation.ReflTransGen.head e1 (Relation.ReflTransGen.head e2 Relation.ReflTransGen.refl)

theorem sum_built :
    ∃ s1, SetCell sampleLibrary CreateSheet A2 "=A1+1" = .ok s1 ∧
      SetCell sampleLibrary s1 A1 "10" = .ok sumSheet := by
  refine ⟨(SetCell sampleLibrary CreateSheet A2 "=A1+1").sheet CreateSheet, by decide, by decide⟩

theorem sum_value :
    GetValue sampleLibrary 3 sumSheet A2 = some (sumSheetCached, .number 11) := by
  have h : GetValue sampleLibrary 3 sumSheet A2 = some (sumSheetCached, .number (10 + 1)) := rfl
  rw [h]
  norm_num

theorem sum_cleared : ClearCell sumSheetCached A1 = .ok sumSheetCleared := rfl

theorem sum_stale_cache : cacheAt sumSheetCleared A2 = some (.number 11) := by
  have h : cacheAt sumSheetCleared A2 = some (.number (10 + 1)) := rfl
  rw [h]
  norm_num

theorem sum_stale_value (n : Nat) :
    GetValue sampleLibrary (n + 1) sumSheetCleared A2 = some (sumSheetCleared, .number 11) := by
  have h : GetValue sampleLibrary (n + 1) sumSheetCleared A2 =
      some (sumSheetCleared, .number (10 + 1)) := rfl
  rw [h]
  norm_num

theorem sum_fresh_value (n : Nat) :
    freshValue sampleLibrary (n + 2) sumSheetCleared A2 = some (.number 1) := by
  have h : freshValue sampleLibrary (n + 2) sumSheetCleared A2 = some (.number (0 + 1)) := rfl
  rw [h]
  norm_num

theorem sum_reachable : Reachable sampleLibrary sumSheetCleared := by
  obtain ⟨s1, h1, h2⟩ := sum_built
  exact .clearCell A1 (.getValue 3 A2 _ (.setCell A1 "10" (.setCell A2 "=A1+1" .create h1) h2)
    sum_value) sum_cleared

theorem blank_built (L : Library) : SetCell L CreateSheet A1 "" = .ok blankSheet := by
  rw [SetCell_text L _ A1 "" (by decide) (by decide)]
  decide

theorem corner_built (L : Library) : SetCell L CreateSheet B2 "x" = .ok cornerSheet := by
  rw [SetCell_text L _ B2 "x" (by decide) (by decide)]
  decide

theorem corner_cleared : ClearCell cornerSheet B2 = .ok cornerSheetCleared := by decide

/-! ## The slots after the edges of a cell are removed and added -/

theorem GetConcreteCell_removeParent_self (s : Sheet) (q old : Position) :
    GetConcreteCell (RemoveParent s q old) q = removedFrom old (GetConcreteCell s q) := by
  unfold RemoveParent removedFrom
  cases hc : GetConcreteCell s q with
  | none => simp only; exact hc
  | some c =>
    simp only
    by_cases h : (c.RemoveParent old).IsEmpty = true ∧ (c.RemoveParent old).parents_ = []
    · rw [if_pos h, if_pos h, GetConcreteCell_setSlot, if_pos rfl, if_pos (CheckSize_of_some hc)]
    · rw [if_neg h, if_neg h, GetConcreteCell_setSlot, if_pos rfl, if_pos (CheckSize_of_some hc)]

theorem Cell.RemoveParent_idem (c : Cell) (old : Position) :
    (c.RemoveParent old).RemoveParent old = c.RemoveParent old := by
  unfold Cell.RemoveParent
  simp only [List.filter_filter, Bool.and_self]

theorem removedFrom_idem (old : Position) (o : Option Cell) :
    removedFrom old (removedFrom old o) = removedFrom old o := by
  cases o with
  | none => rfl
  | some c =>
    unfold removedFrom
    simp only
    by_cases h : (c.RemoveParent old).IsEmpty = true ∧ (c.RemoveParent old).parents_ = []
    · rw [if_pos h]
    · rw [if_neg h]
      simp only [Cell.RemoveParent_idem]
      rw [if_neg h]

theorem GetConcreteCell_unwire (s : Sheet) (pos : Position) (l : List Position) (x : Position) :
    GetConcreteCell (unwire s pos l) x =
      if x ∈ l then removedFrom pos (GetConcreteCell s x) else GetConcreteCell s x := by
  induction l generalizing s with
  | nil => simp [unwire]
  | cons a rest ih =>
    have hstep : unwire s pos (a :: rest) = unwire (RemoveParent s a pos) pos rest := by
      unfold unwire
      rw [List.foldl_cons]
    rw [hstep, ih]
    by_cases hxa : x = a
    · subst hxa
      rw [GetConcreteCell_removeParent_self, removedFrom_idem]
      simp
    · rw [GetConcreteCell_removeParent_ne _ _ _ _ hxa]
      simp [hxa]

theorem Cell.AddParent_idem (c : Cell) (pos : Position) :
    (c.AddParent pos).AddParent pos = c.AddParent pos := by
  unfold Cell.AddParent
  by_cases h : pos ∈ c.parents_
  · simp [h]
  · simp [h]

theorem addedTo_idem (pos : Position) (o : Option Cell) :
    addedTo pos (addedTo pos o) = addedTo pos o := by
  unfold addedTo
  simp only [Option.getD_some, Cell.AddParent_idem]

theorem GetConcreteCell_getOrCreate_self (s : Sheet) (q : Position) :
    GetConcreteCell (GetOrCreateConcreteCell s q) q =
      some ((GetConcreteCell s q).getD Cell.makeEmpty) := by
  unfold GetOrCreateConcreteCell
  simp only
  cases hc : GetConcreteCell (MaybeIncreaseSizeToIncludePosition s q) q with
  | none =>
    simp only
    rw [GetConcreteCell_setSlot, if_pos rfl, if_pos (CheckSize_MaybeIncrease_self s q)]
    rw [GetConcreteCell_MaybeIncrease] at hc
    rw [hc]; rfl
  | some c =>
    simp only
    rw [hc]
    rw [GetConcreteCell_MaybeIncrease] at hc
    rw [hc]; rfl

theorem GetConcreteCell_wireStep (pos : Position) (s : Sheet) (q x : Position) :
    GetConcreteCell (wireStep pos s q) x =
      if x = q then addedTo pos (GetConcreteCell s x) else GetConcreteCell s x := by
  unfold wireStep
  rw [GetConcreteCell_getOrCreate_self]
  simp only
  by_cases hx : x = q
  · subst hx
    rw [if_pos rfl, GetConcreteCell_setSlot, if_pos rfl]
    have : CheckSize (GetOrCreateConcreteCell s x) x = true :=
      CheckSize_of_some (GetConcreteCell_getOrCreate_self s x)
    rw [if_pos this]
    rfl
  · rw [if_neg hx, GetConcreteCell_setSlot, if_neg hx, GetConcreteCell_getOrCreate_ne _ _ _ hx]

theorem wire_cons (s : Sheet) (pos a : Position) (rest : List Position) :
    wire s pos (a :: rest) = wire (wireStep pos s a) pos rest := by
  unfold wire
  rw [List.foldl_cons]

theorem GetConcreteCell_wire (s : Sheet) (pos : Position) (l : List Position) (x : Position) :
    GetConcreteCell (wire s pos l) x =
      if x ∈ l then addedTo pos (GetConcreteCell s x) else GetConcreteCell s x := by
  induction l generalizing s with
  | nil => simp [wire]
  | cons a rest ih =>
    rw [wire_cons, ih, GetConcreteCell_wireStep]
    by_cases hxa : x = a
    · subst hxa
      simp [addedTo_idem]
    · simp [hxa]

/-! ## The graph stays linked -/

/-- The slot at `x` after the old edges of `pos` are removed and the new ones added. -/
theorem GetConcreteCell_wired (s : Sheet) (pos : Position) (nc : Cell) (x : Position) :
    GetConcreteCell (SetCell_wired s pos nc).1 x =
      let o1 := match GetConcreteCell s pos with
        | none => GetConcreteCell s x
        | some oc => if x ∈ oc.children_ then removedFrom pos (GetConcreteCell s x)
            else GetConcreteCell s x
      if x ∈ nc.children_ then addedTo pos o1 else o1 := by
  unfold SetCell_wired
  simp only
  rw [GetConcreteCell_MaybeIncrease]
  cases hold : GetConcreteCell s pos with
  | none =>
    simp only
    rw [GetConcreteCell_wire, GetConcreteCell_MaybeIncrease]
  | some oc =>
    simp only
    rw [GetConcreteCell_wire, GetConcreteCell_unwire, GetConcreteCell_MaybeIncrease]

theorem wired_parents (s : Sheet) (pos : Position) (nc : Cell) :
    (SetCell_wired s pos nc).2.parents_ =
      match GetConcreteCell s pos with
      | none => nc.parents_
      | some oc =>
        match (if pos ∈ oc.children_ then removedFrom pos (some oc) else some oc) with
        | none => []
        | some old1 => old1.parents_ := by
  unfold SetCell_wired
  simp only
  rw [GetConcreteCell_MaybeIncrease]
  cases hold : GetConcreteCell s pos with
  | none => rfl
  | some oc =>
    simp only
    rw [GetConcreteCell_unwire, GetConcreteCell_MaybeIncrease, hold]
    rfl

theorem removedFrom_some {old : Position} {o : Option Cell} {c1 : Cell}
    (h : removedFrom old o = some c1) :
    ∃ c, o = some c ∧ c1 = c.RemoveParent old := by
  cases o with
  | none => cases h
  | some c =>
    unfold removedFrom at h
    simp only at h
    split at h
    · cases h
    · cases h; exact ⟨c, rfl, rfl⟩

theorem removedFrom_keeps {old : Position} {c : Cell}
    (h : c.IsEmpty = false ∨ ∃ a, a ≠ old ∧ a ∈ c.parents_) :
    removedFrom old (some c) = some (c.RemoveParent old) := by
  unfold removedFrom
  simp only
  rw [if_neg]
  rintro ⟨h1, h2⟩
  rcases h with h | ⟨a, ha, hm⟩
  · have : (c.RemoveParent old).IsEmpty = c.IsEmpty := rfl
    rw [this, h] at h1
    cases h1
  · have : a ∈ (c.RemoveParent old).parents_ := by
      unfold Cell.RemoveParent
      simp [hm, ha]
    rw [h2] at this
    cases this

theorem mem_RemoveParent (c : Cell) (old a : Position) :
    a ∈ (c.RemoveParent old).parents_ ↔ a ∈ c.parents_ ∧ a ≠ old := by
  unfold Cell.RemoveParent
  simp

theorem mem_AddParent (c : Cell) (pos a : Position) :
    a ∈ (c.AddParent pos).parents_ ↔ a ∈ c.parents_ ∨ a = pos := by
  unfold Cell.AddParent
  by_cases h : pos ∈ c.parents_
  · simp only [h, if_true]
    constructor
    · exact Or.inl
    · rintro (h1 | h1)
      · exact h1
      · rw [h1]; exact h
  · simp [h]

/-- What a kept or created cell looks like after the edges of `pos` are rewired: its content and
children are those of the cell that was there (or it is a new Empty cell), and its parents are
the former ones other than `pos`, with `pos` added exactly for a child of the new cell. -/
theorem wired_structure (s : Sheet) (pos : Position) (nc : Cell) (hl : Linked s) (x : Position)
    (cw : Cell) (h : GetConcreteCell (SetCell_wired s pos nc).1 x = some cw) :
    (GetConcreteCell s x = none ∧ cw.impl_ = .Empty ∧ cw.children_ = [] ∧
      ∀ a, a ∈ cw.parents_ ↔ (a = pos ∧ x ∈ nc.children_)) ∨
    (∃ c, GetConcreteCell s x = some c ∧ cw.impl_ = c.impl_ ∧ cw.children_ = c.children_ ∧
      ∀ a, a ∈ cw.parents_ ↔ (a ∈ c.parents_ ∧ a ≠ pos) ∨ (a = pos ∧ x ∈ nc.children_)) := by
  rw [GetConcreteCell_wired] at h
  simp only at h
  -- the slot once the old edges are removed
  have h1 : ∀ c1, (match GetConcreteCell s pos with
        | none => GetConcreteCell s x
        | some oc => if x ∈ oc.children_ then removedFrom pos (GetConcreteCell s x)
            else GetConcreteCell s x) = some c1 →
      ∃ c, GetConcreteCell s x = some c ∧ c1.impl_ = c.impl_ ∧ c1.children_ = c.children_ ∧
        ∀ a, a ∈ c1.parents_ ↔ a ∈ c.parents_ ∧ a ≠ pos := by
    intro c1 hc1
    have hnot : ∀ c, GetConcreteCell s x = some c →
        (∀ oc, GetConcreteCell s pos = some oc → x ∉ oc.children_) →
        ∀ a, a ∈ c.parents_ ↔ a ∈ c.parents_ ∧ a ≠ pos := by
      intro c hc hno a
      constructor
      · intro ha
        refine ⟨ha, fun hap => ?_⟩
        subst hap
        obtain ⟨ca, hca, hx⟩ := hl.parent x c a hc ha
        exact hno ca hca hx
      · exact fun ha => ha.1
    cases hold : GetConcreteCell s pos with
    | none =>
      rw [hold] at hc1
      simp only at hc1
      exact ⟨c1, hc1, rfl, rfl, hnot c1 hc1 (fun oc hoc => by rw [hold] at hoc; cases hoc)⟩
    | some oc =>
      rw [hold] at hc1
      simp only at hc1
      by_cases hA : x ∈ oc.children_
      · rw [if_pos hA] at hc1
        obtain ⟨c, hc, rfl⟩ := removedFrom_some hc1
        exact ⟨c, hc, rfl, rfl, fun a => mem_RemoveParent c pos a⟩
      · rw [if_neg hA] at hc1
        refine ⟨c1, hc1, rfl, rfl, hnot c1 hc1 (fun oc1 hoc1 => ?_)⟩
        rw [hold] at hoc1
        cases hoc1
        exact hA
  by_cases hB : x ∈ nc.children_
  · rw [if_pos hB] at h
    unfold addedTo at h
    simp only [Option.some.injEq] at h
    generalize ho : (match GetConcreteCell s pos with
        | none => GetConcreteCell s x
        | some oc => if x ∈ oc.children_ then removedFrom pos (GetConcreteCell s x)
            else GetConcreteCell s x) = o1 at h h1
    cases o1 with
    | none =>
      simp only [Option.getD_none] at h
      subst h
      by_cases hx : GetConcreteCell s x = none
      · left
        refine ⟨hx, rfl, rfl, fun a => ?_⟩
        rw [mem_AddParent]
        simp [Cell.makeEmpty, hB]
      · right
        obtain ⟨c, hc⟩ := Option.ne_none_iff_exists'.1 hx
        -- the cell was deleted with the old edges: it was Empty and had no other parent
        have hdel : c.impl_ = .Empty ∧ c.children_ = [] ∧ ∀ a, a ∈ c.parents_ → a = pos := by
          cases hold : GetConcreteCell s pos with
          | none => rw [hold] at ho; simp only at ho; rw [hc] at ho; cases ho
          | some oc =>
            rw [hold] at ho
            simp only at ho
            by_cases hA : x ∈ oc.children_
            · rw [if_pos hA, hc] at ho
              unfold removedFrom at ho
              simp only at ho
              split at ho
              · rename_i hcond
                have he : c.IsEmpty = true := hcond.1
                have himpl : c.impl_ = .Empty := by
                  unfold Cell.IsEmpty at he
                  cases hi : c.impl_ with
                  | Empty => rfl
                  | Text t => rw [hi] at he; cases he
                  | Formula f => rw [hi] at he; cases he
                refine ⟨himpl, hl.leaf x c hc he, fun a ha => ?_⟩
                by_contra hne
                have : a ∈ (c.RemoveParent pos).parents_ := (mem_RemoveParent c pos a).2 ⟨ha, hne⟩
                rw [hcond.2] at this
                cases this
              · cases ho
            · rw [if_neg hA, hc] at ho; cases ho
        refine ⟨c, hc, hdel.1.symm, hdel.2.1.symm, fun a => ?_⟩
        rw [mem_AddParent]
        constructor
        · rintro (ha | ha)
          · cases ha
          · exact Or.inr ⟨ha, hB⟩
        · rintro (⟨ha, hne⟩ | ⟨ha, -⟩)
          · exact absurd (hdel.2.2 a ha) hne
          · exact Or.inr ha
    | some c1 =>
      simp only [Option.getD_some] at h
      subst h
      right
      obtain ⟨c, hc, hi, hch, hp⟩ := h1 c1 rfl
      refine ⟨c, hc, hi, hch, fun a => ?_⟩
      rw [mem_AddParent, hp]
      constructor
      · rintro (ha | ha)
        · exact Or.inl ha
        · exact Or.inr ⟨ha, hB⟩
      · rintro (ha | ⟨ha, -⟩)
        · exact Or.inl ha
        · exact Or.inr ha
  · rw [if_neg hB] at h
    right
    obtain ⟨c, hc, hi, hch, hp⟩ := h1 cw h
    refine ⟨c, hc, hi, hch, fun a => ?_⟩
    rw [hp]
    constructor
    · exact Or.inl
    · rintro (ha | ⟨-, hb⟩)
      · exact ha
      · exact absurd hb hB

/-- A cell with content, or with a parent other than `pos`, is still there after the edges of
`pos` are rewired. -/
theorem wired_survives (s : Sheet) (pos : Position) (nc : Cell) (x : Position) (c : Cell)
    (hc : GetConcreteCell s x = some c)
    (hkeep : c.IsEmpty = false ∨ ∃ a, a ≠ pos ∧ a ∈ c.parents_) :
    ∃ cw, GetConcreteCell (SetCell_wired s pos nc).1 x = some cw := by
  rw [GetConcreteCell_wired]
  simp only
  have h1 : ∃ c1, (match GetConcreteCell s pos with
        | none => GetConcreteCell s x
        | some oc => if x ∈ oc.children_ then removedFrom pos (GetConcreteCell s x)
            else GetConcreteCell s x) = some c1 := by
    cases GetConcreteCell s pos with
    | none => exact ⟨c, hc⟩
    | some oc =>
      simp only
      by_cases hA : x ∈ oc.children_
      · rw [if_pos hA, hc, removedFrom_keeps hkeep]
        exact ⟨_, rfl⟩
      · rw [if_neg hA]
        exact ⟨c, hc⟩
  by_cases hB : x ∈ nc.children_
  · rw [if_pos hB]
    exact ⟨_, rfl⟩
  · rw [if_neg hB]
    exact h1

theorem Cell.make_parents {L : Library} {text : String} {c : Cell}
    (h : Cell.make L text = some c) : c.parents_ = [] := by
  unfold Cell.make at h
  split at h
  · split at h
    · cases h
    · cases h; rfl
  · cases h; rfl

theorem isEmpty_of_impl {c c1 : Cell} (h : c1.impl_ = c.impl_) : c1.IsEmpty = c.IsEmpty := by
  unfold Cell.IsEmpty
  rw [h]

theorem isEmpty_of_impl_Empty {c : Cell} (h : c.impl_ = .Empty) : c.IsEmpty = true := by
  unfold Cell.IsEmpty
  rw [h]

/-- The sheet `SetCell` leaves when it installs the new cell, slot by slot. -/
theorem Installs.slots {L : Library} {s : Sheet} {pos : Position} {text : String} {s1 : Sheet}
    (h : Installs L s pos text s1) :
    ∃ nc np, Cell.make L text = some nc ∧ pos ∉ nc.children_ ∧
      GetConcreteCell s1 pos = some np ∧ np.impl_ = nc.impl_ ∧ np.children_ = nc.children_ ∧
      np.parents_ = (SetCell_wired s pos nc).2.parents_ ∧
      (∀ x, x ≠ pos → ∀ c1, GetConcreteCell s1 x = some c1 →
        ∃ cw, GetConcreteCell (SetCell_wired s pos nc).1 x = some cw ∧ c1.impl_ = cw.impl_ ∧
          c1.children_ = cw.children_ ∧ c1.parents_ = cw.parents_) ∧
      (∀ x, x ≠ pos → ∀ cw, GetConcreteCell (SetCell_wired s pos nc).1 x = some cw →
        ∃ c1, GetConcreteCell s1 x = some c1 ∧ c1.impl_ = cw.impl_ ∧
          c1.children_ = cw.children_ ∧ c1.parents_ = cw.parents_) := by
  obtain ⟨nc, st, _, hmake, hfind, hinv, rfl⟩ := h
  have hsz := invalidated_CheckSize s pos nc st hinv
  obtain ⟨st1, h1, hu, hcell, -⟩ := InvalidateCache_spec pos (SetCell_wired s pos nc)
  rw [hinv] at h1
  cases h1
  have hnot : pos ∉ nc.children_ := by
    intro hp
    have : FindCyclicDeps s pos nc = some true :=
      (FindCyclicDeps_eq_true_iff s pos nc).2 ⟨pos, hp, Relation.ReflTransGen.refl⟩
    rw [hfind] at this
    cases this
  refine ⟨nc, st.2, hmake, hnot, ?_, ?_, ?_, ?_, ?_, ?_⟩
  · rw [GetConcreteCell_install pos st hsz]
    unfold deref
    rw [if_pos rfl]
  · rw [hcell]; exact (wired_cell s pos nc).1
  · rw [hcell]; exact (wired_cell s pos nc).2.1
  · rw [hcell]; rfl
  · intro x hx c1 hc1
    rw [GetConcreteCell_install pos st hsz] at hc1
    unfold deref at hc1
    rw [if_neg hx] at hc1
    exact hu.cell hc1
  · intro x hx cw hcw
    rw [GetConcreteCell_install pos st hsz]
    unfold deref
    rw [if_neg hx]
    obtain ⟨c1, hc1, hi, hch, hp⟩ := hu.symm.cell hcw
    exact ⟨c1, hc1, hi.symm, hch.symm, hp.symm⟩

/-- The sheet `SetCell` returns, slot by slot. -/
theorem SetCell_slots (L : Library) (s : Sheet) (pos : Position) (text : String) (s1 : Sheet)
    (h : SetCell L s pos text = .ok s1) :
    ∃ nc np, Cell.make L text = some nc ∧ pos ∉ nc.children_ ∧
      GetConcreteCell s1 pos = some np ∧ np.impl_ = nc.impl_ ∧ np.children_ = nc.children_ ∧
      np.parents_ = (SetCell_wired s pos nc).2.parents_ ∧
      (∀ x, x ≠ pos → ∀ c1, GetConcreteCell s1 x = some c1 →
        ∃ cw, GetConcreteCell (SetCell_wired s pos nc).1 x = some cw ∧ c1.impl_ = cw.impl_ ∧
          c1.children_ = cw.children_ ∧ c1.parents_ = cw.parents_) ∧
      (∀ x, x ≠ pos → ∀ cw, GetConcreteCell (SetCell_wired s pos nc).1 x = some cw →
        ∃ c1, GetConcreteCell s1 x = some c1 ∧ c1.impl_ = cw.impl_ ∧
          c1.children_ = cw.children_ ∧ c1.parents_ = cw.parents_) :=
  (SetCell_installs L s pos text s1 h).slots

theorem SetCell_linked (L : Library) (s : Sheet) (pos : Position) (text : String) (s1 : Sheet)
    (h : SetCell L s pos text = .ok s1) (hl : Linked s) (hac : Acyclic s) : Linked s1 := by
  obtain ⟨nc, np, hmake, hnot, hpos, hnpi, hnpc, hnpp, hfrom, hto⟩ :=
    SetCell_slots L s pos text s1 h
  have hself : ∀ oc, GetConcreteCell s pos = some oc → pos ∉ oc.children_ :=
    fun oc hoc hp => hac pos (Relation.TransGen.single ⟨oc, hoc, hp⟩)
  -- the parents of the new cell are those of the old one
  have hpar : ∀ a, a ∈ np.parents_ → ∃ oc, GetConcreteCell s pos = some oc ∧ a ∈ oc.parents_ := by
    intro a ha
    rw [hnpp, wired_parents] at ha
    cases hold : GetConcreteCell s pos with
    | none =>
      rw [hold] at ha
      simp only at ha
      rw [Cell.make_parents hmake] at ha
      cases ha
    | some oc =>
      rw [hold] at ha
      simp only at ha
      rw [if_neg (hself oc hold)] at ha
      exact ⟨oc, rfl, ha⟩
  have hparOld : ∀ oc, GetConcreteCell s pos = some oc → np.parents_ = oc.parents_ := by
    intro oc hold
    rw [hnpp, wired_parents, hold]
    simp only
    rw [if_neg (hself oc hold)]
  -- a cell of the old sheet that has children is kept with its children
  have hkeepChildren : ∀ a ca x, a ≠ pos → GetConcreteCell s a = some ca → x ∈ ca.children_ →
      ∃ c1, GetConcreteCell s1 a = some c1 ∧ x ∈ c1.children_ := by
    intro a ca x ha hca hx
    have hne : ca.IsEmpty = false := by
      cases he : ca.IsEmpty with
      | false => rfl
      | true =>
        have := hl.leaf a ca hca he
        rw [this] at hx
        cases hx
    obtain ⟨cw, hcw⟩ := wired_survives s pos nc a ca hca (Or.inl hne)
    obtain ⟨c1, hc1, -, hch, -⟩ := hto a ha cw hcw
    refine ⟨c1, hc1, ?_⟩
    rcases wired_structure s pos nc hl a cw hcw with ⟨hnone, -⟩ | ⟨c, hc, -, hcc, -⟩
    · rw [hca] at hnone; cases hnone
    · rw [hca] at hc
      cases hc
      rw [hch, hcc]
      exact hx
  -- a cell of the old sheet with a parent other than `pos` is kept with that parent
  have hkeepParent : ∀ p cp a, p ≠ pos → a ≠ pos → GetConcreteCell s p = some cp →
      a ∈ cp.parents_ → ∃ c1, GetConcreteCell s1 p = some c1 ∧ a ∈ c1.parents_ := by
    intro p cp a hp ha hcp hmem
    obtain ⟨cw, hcw⟩ := wired_survives s pos nc p cp hcp (Or.inr ⟨a, ha, hmem⟩)
    obtain ⟨c1, hc1, -, -, hpp⟩ := hto p hp cw hcw
    refine ⟨c1, hc1, ?_⟩
    rcases wired_structure s pos nc hl p cw hcw with ⟨hnone, -⟩ | ⟨c, hc, -, -, hcp1⟩
    · rw [hcp] at hnone; cases hnone
    · rw [hcp] at hc
      cases hc
      rw [hpp, hcp1]
      exact Or.inl ⟨hmem, ha⟩
  refine ⟨?_, ?_, ?_⟩
  · -- children are occupied and name their parent
    intro a c1 p hc1 hp
    by_cases ha : a = pos
    · subst ha
      rw [hpos] at hc1
      cases hc1
      rw [hnpc] at hp
      have hpp : p ≠ a := fun hh => hnot (hh ▸ hp)
      have hw : ∃ cw, GetConcreteCell (SetCell_wired s a nc).1 p = some cw ∧ a ∈ cw.parents_ := by
        rw [GetConcreteCell_wired]
        simp only
        rw [if_pos hp]
        refine ⟨_, rfl, ?_⟩
        rw [mem_AddParent]
        exact Or.inr rfl
      obtain ⟨cw, hcw, hmem⟩ := hw
      obtain ⟨c2, hc2, -, -, hpar2⟩ := hto p hpp cw hcw
      exact ⟨c2, hc2, hpar2 ▸ hmem⟩
    · obtain ⟨cw, hcw, -, hch, -⟩ := hfrom a ha c1 hc1
      rw [hch] at hp
      rcases wired_structure s pos nc hl a cw hcw with ⟨-, -, hnil, -⟩ | ⟨c, hc, -, hcc, -⟩
      · rw [hnil] at hp; cases hp
      · rw [hcc] at hp
        obtain ⟨cp, hcp, hmem⟩ := hl.child a c p hc hp
        by_cases hpp : p = pos
        · subst hpp
          exact ⟨np, hpos, by rw [hparOld cp hcp]; exact hmem⟩
        · exact hkeepParent p cp a hpp ha hcp hmem
  · -- parents are occupied and have the cell among their children
    intro x cx a hcx hmem
    have hfromPos : x ∈ nc.children_ → ∃ ca, GetConcreteCell s1 pos = some ca ∧
        x ∈ ca.children_ := fun hx => ⟨np, hpos, hnpc ▸ hx⟩
    have hfromOld : ∀ c, GetConcreteCell s x = some c → a ∈ c.parents_ → a ≠ pos →
        ∃ ca, GetConcreteCell s1 a = some ca ∧ x ∈ ca.children_ := by
      intro c hc hm ha
      obtain ⟨ca, hca, hxc⟩ := hl.parent x c a hc hm
      exact hkeepChildren a ca x ha hca hxc
    by_cases hx : x = pos
    · subst hx
      rw [hpos] at hcx
      cases hcx
      obtain ⟨oc, hoc, hmo⟩ := hpar a hmem
      have ha : a ≠ x := by
        intro hh
        subst hh
        obtain ⟨ca, hca, hxc⟩ := hl.parent a oc a hoc hmo
        exact hself ca hca hxc
      exact hfromOld oc hoc hmo ha
    · obtain ⟨cw, hcw, -, -, hpp⟩ := hfrom x hx cx hcx
      rw [hpp] at hmem
      rcases wired_structure s pos nc hl x cw hcw with ⟨-, -, -, hp1⟩ | ⟨c, hc, -, -, hp1⟩
      · obtain ⟨rfl, hxn⟩ := (hp1 a).1 hmem
        exact hfromPos hxn
      · rcases (hp1 a).1 hmem with ⟨hm, ha⟩ | ⟨rfl, hxn⟩
        · exact hfromOld c hc hm ha
        · exact hfromPos hxn
  · -- an Empty cell has no children
    intro a c1 hc1 he
    by_cases ha : a = pos
    · subst ha
      rw [hpos] at hc1
      cases hc1
      have := Cell.make_not_empty hmake
      rw [← isEmpty_of_impl hnpi, he] at this
      cases this
    · obtain ⟨cw, hcw, hi, hch, -⟩ := hfrom a ha c1 hc1
      rcases wired_structure s pos nc hl a cw hcw with ⟨-, -, hnil, -⟩ | ⟨c, hc, hci, hcc, -⟩
      · rw [hch, hnil]
      · rw [hch, hcc]
        apply hl.leaf a c hc
        rw [← isEmpty_of_impl hci, ← isEmpty_of_impl hi]
        exact he

/-- The sheet an effective `ClearCell` returns, slot by slot. -/
theorem ClearCell_slots (s : Sheet) (pos : Position) (oc : Cell)
    (hoc : GetConcreteCell s pos = some oc) (hself : pos ∉ oc.children_) (x : Position) :
    GetConcreteCell (ClearCell_uncount (ClearCell_replace (unwire s pos oc.children_) pos) pos) x =
      if x = pos then
        (if oc.parents_ ≠ [] then some (Cell.makeEmpty.SetParents oc.parents_) else none)
      else if x ∈ oc.children_ then removedFrom pos (GetConcreteCell s x)
      else GetConcreteCell s x := by
  by_cases hx : x = pos
  · subst hx
    rw [if_pos rfl]
    exact ClearCell_at s x oc hoc hself
  · rw [if_neg hx, GetConcreteCell_uncount]
    have h1 : GetConcreteCell (unwire s pos oc.children_) pos = some oc := by
      rw [GetConcreteCell_unwire_not_mem s pos oc.children_ pos hself, hoc]
    unfold ClearCell_replace
    rw [h1]
    simp only
    by_cases hp : oc.parents_ ≠ []
    · rw [if_pos hp, GetConcreteCell_setSlot, if_neg hx, GetConcreteCell_unwire]
    · rw [if_neg hp, GetConcreteCell_setSlot, if_neg hx, GetConcreteCell_unwire]

theorem ClearCell_linked (s : Sheet) (pos : Position) (s1 : Sheet)
    (h : ClearCell s pos = .ok s1) (hl : Linked s) (hac : Acyclic s) : Linked s1 := by
  rcases ClearCell_cases s pos with h1 | h1 | ⟨oc, _, hoc, hne, h1⟩
  · rw [h1.2] at h; cases h
  · rw [h1.2.2] at h; cases h; exact hl
  · rw [h1] at h
    have h3 := Outcome.ok.inj h
    subst h3
    have hself : pos ∉ oc.children_ :=
      fun hp => hac pos (Relation.TransGen.single ⟨oc, hoc, hp⟩)
    have hslot := ClearCell_slots s pos oc hoc hself
    -- a cell away from `pos` comes from the one that was there
    have hfrom : ∀ x c1, x ≠ pos →
        GetConcreteCell
          (ClearCell_uncount (ClearCell_replace (unwire s pos oc.children_) pos) pos) x = some c1 →
        ∃ c, GetConcreteCell s x = some c ∧ c1.impl_ = c.impl_ ∧ c1.children_ = c.children_ ∧
          ∀ a, a ∈ c1.parents_ → a ∈ c.parents_ ∧ a ≠ pos := by
      intro x c1 hx hc1
      rw [hslot, if_neg hx] at hc1
      by_cases hA : x ∈ oc.children_
      · rw [if_pos hA] at hc1
        obtain ⟨c, hc, rfl⟩ := removedFrom_some hc1
        exact ⟨c, hc, rfl, rfl, fun a ha => (mem_RemoveParent c pos a).1 ha⟩
      · rw [if_neg hA] at hc1
        refine ⟨c1, hc1, rfl, rfl, fun a ha => ⟨ha, fun hap => ?_⟩⟩
        subst hap
        obtain ⟨ca, hca, hxc⟩ := hl.parent x c1 a hc1 ha
        rw [hoc] at hca
        cases hca
        exact hA hxc
    -- a cell away from `pos` with content or another parent is kept
    have hto : ∀ x c, x ≠ pos → GetConcreteCell s x = some c →
        (c.IsEmpty = false ∨ ∃ a, a ≠ pos ∧ a ∈ c.parents_) →
        ∃ c1, GetConcreteCell
          (ClearCell_uncount (ClearCell_replace (unwire s pos oc.children_) pos) pos) x =
            some c1 ∧ c1.children_ = c.children_ ∧
          ∀ a, a ≠ pos → a ∈ c.parents_ → a ∈ c1.parents_ := by
      intro x c hx hc hkeep
      rw [hslot, if_neg hx]
      by_cases hA : x ∈ oc.children_
      · rw [if_pos hA, hc, removedFrom_keeps hkeep]
        exact ⟨_, rfl, rfl, fun a ha hm => (mem_RemoveParent c pos a).2 ⟨hm, ha⟩⟩
      · rw [if_neg hA]
        exact ⟨c, hc, rfl, fun a _ hm => hm⟩
    have hnonEmpty : ∀ a ca x, GetConcreteCell s a = some ca → x ∈ ca.children_ →
        ca.IsEmpty = false := by
      intro a ca x hca hx
      cases he : ca.IsEmpty with
      | false => rfl
      | true =>
        have := hl.leaf a ca hca he
        rw [this] at hx
        cases hx
    refine ⟨?_, ?_, ?_⟩
    · intro a c1 p hc1 hp
      by_cases ha : a = pos
      · subst ha
        rw [hslot, if_pos rfl] at hc1
        split at hc1
        · cases hc1; cases hp
        · cases hc1
      · obtain ⟨c, hc, -, hch, -⟩ := hfrom a c1 ha hc1
        rw [hch] at hp
        obtain ⟨cp, hcp, hmem⟩ := hl.child a c p hc hp
        by_cases hpp : p = pos
        · subst hpp
          rw [hoc] at hcp
          cases hcp
          refine ⟨Cell.makeEmpty.SetParents oc.parents_, ?_, hmem⟩
          rw [hslot, if_pos rfl, if_pos (List.ne_nil_of_mem hmem)]
        · obtain ⟨c2, hc2, -, hpar⟩ := hto p cp hpp hcp (Or.inr ⟨a, ha, hmem⟩)
          exact ⟨c2, hc2, hpar a ha hmem⟩
    · intro x cx a hcx hmem
      have hold : ∀ c, GetConcreteCell s x = some c → a ∈ c.parents_ → a ≠ pos →
          ∃ ca, GetConcreteCell
            (ClearCell_uncount (ClearCell_replace (unwire s pos oc.children_) pos) pos) a =
              some ca ∧ x ∈ ca.children_ := by
        intro c hc hm ha
        obtain ⟨ca, hca, hxc⟩ := hl.parent x c a hc hm
        obtain ⟨c2, hc2, hch, -⟩ := hto a ca ha hca (Or.inl (hnonEmpty a ca x hca hxc))
        exact ⟨c2, hc2, hch ▸ hxc⟩
      by_cases hx : x = pos
      · subst hx
        rw [hslot, if_pos rfl] at hcx
        split at hcx
        · cases hcx
          have hmo : a ∈ oc.parents_ := hmem
          have ha : a ≠ x := by
            intro hh
            subst hh
            obtain ⟨ca, hca, hxc⟩ := hl.parent a oc a hoc hmo
            rw [hoc] at hca
            cases hca
            exact hself hxc
          exact hold oc hoc hmo ha
        · cases hcx
      · obtain ⟨c, hc, -, -, hpar⟩ := hfrom x cx hx hcx
        obtain ⟨hm, ha⟩ := hpar a hmem
        exact hold c hc hm ha
    · intro a c1 hc1 he
      by_cases ha : a = pos
      · subst ha
        rw [hslot, if_pos rfl] at hc1
        split at hc1
        · cases hc1; rfl
        · cases hc1
      · obtain ⟨c, hc, hi, hch, -⟩ := hfrom a c1 ha hc1
        rw [hch]
        apply hl.leaf a c hc
        rw [← isEmpty_of_impl hi]
        exact he

theorem Linked_create : Linked CreateSheet := by
  have hnone : ∀ p, GetConcreteCell CreateSheet p = none := by
    intro p
    rw [GetConcreteCell_eq]
    simp [CreateSheet]
  refine ⟨?_, ?_, ?_⟩
  · intro a c p hc; rw [hnone] at hc; cases hc
  · intro x cx a hc; rw [hnone] at hc; cases hc
  · intro a c hc; rw [hnone] at hc; cases hc

theorem Linked.of_upToCaches {s s1 : Sheet} (hl : Linked s) (hu : UpToCaches s s1) :
    Linked s1 := by
  refine ⟨?_, ?_, ?_⟩
  · intro a c1 p hc1 hp
    obtain ⟨c, hc, -, hch, -⟩ := hu.cell hc1
    obtain ⟨cp, hcp, hmem⟩ := hl.child a c p hc (hch ▸ hp)
    obtain ⟨cp1, hcp1, -, -, hpar⟩ := hu.symm.cell hcp
    exact ⟨cp1, hcp1, hpar ▸ hmem⟩
  · intro x cx1 a hcx1 hmem
    obtain ⟨cx, hcx, -, -, hpar⟩ := hu.cell hcx1
    obtain ⟨ca, hca, hxc⟩ := hl.parent x cx a hcx (hpar ▸ hmem)
    obtain ⟨ca1, hca1, -, hch, -⟩ := hu.symm.cell hca
    exact ⟨ca1, hca1, hch ▸ hxc⟩
  · intro a c1 hc1 he
    obtain ⟨c, hc, hi, hch, -⟩ := hu.cell hc1
    rw [hch]
    apply hl.leaf a c hc
    rw [← isEmpty_of_impl hi]
    exact he

theorem Reachable.linked {L : Library} {s : Sheet} (h : Reachable L s) : Linked s := by
  induction h with
  | create => exact Linked_create
  | setCell pos text hprev hstep ih => exact SetCell_linked L _ pos text _ hstep ih hprev.acyclic
  | setCellRaised pos text e _ hstep ih =>
    rw [SetCell_raised_same L _ pos text e _ hstep]; exact ih
  | clearCell pos hprev hstep ih => exact ClearCell_linked _ pos _ hstep ih hprev.acyclic
  | clearCellRaised pos e _ hstep ih =>
    rw [ClearCell_raised_same _ pos e _ hstep]; exact ih
  | getValue fuel pos v _ hstep ih =>
    exact ih.of_upToCaches (GetValue_upToCaches L fuel _ pos _ v hstep)

/-! ## The children of a cell are strictly increasing -/

theorem Position.lt_trans {a b c : Position} (h1 : Position.lt a b = true)
    (h2 : Position.lt b c = true) : Position.lt a c = true := by
  unfold Position.lt at *
  simp only [Bool.or_eq_true, Bool.and_eq_true, decide_eq_true_eq] at *
  omega

theorem Position.lt_irrefl (a : Position) : Position.lt a a = false := by
  unfold Position.lt
  simp

theorem Position.lt_of_not_lt {a b : Position} (h1 : Position.lt a b = false) (h2 : a ≠ b) :
    Position.lt b a = true := by
  have hne : a.row ≠ b.row ∨ a.col ≠ b.col := by
    by_contra hcon
    apply h2
    cases a; cases b
    simp only [Position.mk.injEq]
    simp only [not_or, not_not] at hcon
    exact hcon
  unfold Position.lt at *
  simp only [Bool.or_eq_false_iff, Bool.and_eq_false_iff, decide_eq_false_iff_not,
    Bool.or_eq_true, Bool.and_eq_true, decide_eq_true_eq] at *
  omega

theorem mem_insertSorted (p q : Position) (l : List Position) :
    q ∈ insertSorted p l ↔ q = p ∨ q ∈ l := by
  induction l with
  | nil => simp [insertSorted]
  | cons a rest ih =>
    unfold insertSorted
    by_cases h1 : Position.lt p a = true
    · rw [if_pos h1]; simp
    · rw [if_neg h1]
      by_cases h2 : p = a
      · rw [if_pos h2]
        subst h2
        simp
      · rw [if_neg h2, List.mem_cons, ih, List.mem_cons]
        tauto

theorem insertSorted_sorted (p : Position) (l : List Position)
    (hl : l.Pairwise (fun a b => Position.lt a b = true)) :
    (insertSorted p l).Pairwise (fun a b => Position.lt a b = true) := by
  induction l with
  | nil => simp [insertSorted]
  | cons a rest ih =>
    have hrest := (List.pairwise_cons.1 hl).2
    have ha := (List.pairwise_cons.1 hl).1
    unfold insertSorted
    by_cases h1 : Position.lt p a = true
    · rw [if_pos h1]
      refine List.pairwise_cons.2 ⟨?_, hl⟩
      intro b hb
      rcases List.mem_cons.1 hb with rfl | hb1
      · exact h1
      · exact Position.lt_trans h1 (ha b hb1)
    · rw [if_neg h1]
      by_cases h2 : p = a
      · rw [if_pos h2]; exact hl
      · rw [if_neg h2]
        refine List.pairwise_cons.2 ⟨?_, ih hrest⟩
        intro b hb
        rcases (mem_insertSorted p b rest).1 hb with rfl | hb1
        · exact Position.lt_of_not_lt (by simpa using h1) (fun hh => h2 hh)
        · exact ha b hb1

theorem foldl_insertSorted_sorted (cells acc : List Position)
    (hacc : acc.Pairwise (fun a b => Position.lt a b = true)) :
    (cells.foldl (fun acc p => insertSorted p acc) acc).Pairwise
      (fun a b => Position.lt a b = true) := by
  induction cells generalizing acc with
  | nil => exact hacc
  | cons a rest ih =>
    rw [List.foldl_cons]
    exact ih _ (insertSorted_sorted a acc hacc)

theorem mem_foldl_insertSorted (cells acc : List Position) (q : Position) :
    q ∈ cells.foldl (fun acc p => insertSorted p acc) acc ↔ q ∈ cells ∨ q ∈ acc := by
  induction cells generalizing acc with
  | nil => simp
  | cons a rest ih =>
    rw [List.foldl_cons, ih, mem_insertSorted, List.mem_cons]
    tauto

theorem Formula_GetReferencedCells_sorted (ast : FormulaAST) :
    (Formula_GetReferencedCells ast).Pairwise (fun a b => Position.lt a b = true) :=
  foldl_insertSorted_sorted _ _ List.Pairwise.nil

theorem mem_Formula_GetReferencedCells (ast : FormulaAST) (q : Position) :
    q ∈ Formula_GetReferencedCells ast ↔ q ∈ ast.GetCells := by
  unfold Formula_GetReferencedCells
  rw [mem_foldl_insertSorted]
  simp

theorem nodup_of_sorted {l : List Position}
    (h : l.Pairwise (fun a b => Position.lt a b = true)) : l.Nodup := by
  refine List.Pairwise.imp ?_ h
  intro a b hab heq
  subst heq
  rw [Position.lt_irrefl] at hab
  cases hab

theorem Cell.make_children_sorted {L : Library} {text : String} {c : Cell}
    (h : Cell.make L text = some c) :
    c.children_.Pairwise (fun a b => Position.lt a b = true) := by
  unfold Cell.make at h
  split at h
  · split at h
    · cases h
    · cases h
      exact Formula_GetReferencedCells_sorted _
  · cases h
    exact List.Pairwise.nil

/-! ## The dereferences of the edit loops find their cells -/

theorem SetCell_childrenSorted (L : Library) (s : Sheet) (pos : Position) (text : String)
    (s1 : Sheet) (h : SetCell L s pos text = .ok s1) (hs : ChildrenSorted s) :
    ChildrenSorted s1 := by
  obtain ⟨nc, np, hmake, -, hpos, -, hnpc, -, hfrom, -⟩ := SetCell_slots L s pos text s1 h
  intro a c1 hc1
  by_cases ha : a = pos
  · subst ha
    rw [hpos] at hc1
    cases hc1
    rw [hnpc]
    exact Cell.make_children_sorted hmake
  · obtain ⟨cw, hcw, -, hch, -⟩ := hfrom a ha c1 hc1
    rw [hch]
    rcases (Mild.wired s pos nc).children a cw hcw with h0 | ⟨c, hc, hcc⟩
    · rw [h0]; exact List.Pairwise.nil
    · rw [hcc]; exact hs a c hc

theorem ClearCell_childrenSorted (s : Sheet) (pos : Position) (s1 : Sheet)
    (h : ClearCell s pos = .ok s1) (hs : ChildrenSorted s) : ChildrenSorted s1 := by
  rcases ClearCell_cases s pos with h1 | h1 | ⟨oc, _, hoc, hne, h1⟩
  · rw [h1.2] at h; cases h
  · rw [h1.2.2] at h; cases h; exact hs
  · rw [h1] at h
    have h3 := Outcome.ok.inj h
    subst h3
    intro a c1 hc1
    rw [GetConcreteCell_uncount] at hc1
    unfold ClearCell_replace at hc1
    cases h0 : GetConcreteCell (unwire s pos oc.children_) pos with
    | none =>
      rw [h0] at hc1
      simp only at hc1
      rcases (Mild.unwire s pos oc.children_).children a c1 hc1 with h2 | ⟨c, hc, hcc⟩
      · rw [h2]; exact List.Pairwise.nil
      · rw [hcc]; exact hs a c hc
    | some old1 =>
      rw [h0] at hc1
      simp only at hc1
      have hcases : GetConcreteCell (unwire s pos oc.children_) a = some c1 ∨
          c1.children_ = [] := by
        by_cases ha : a = pos
        · subst ha
          right
          by_cases hp : old1.parents_ ≠ []
          · rw [if_pos hp, GetConcreteCell_setSlot, if_pos rfl, if_pos (CheckSize_of_some h0)]
              at hc1
            cases hc1
            rfl
          · rw [if_neg hp, GetConcreteCell_setSlot, if_pos rfl, if_pos (CheckSize_of_some h0)]
              at hc1
            cases hc1
        · left
          by_cases hp : old1.parents_ ≠ []
          · rw [if_pos hp, GetConcreteCell_setSlot, if_neg ha] at hc1
            exact hc1
          · rw [if_neg hp, GetConcreteCell_setSlot, if_neg ha] at hc1
            exact hc1
      rcases hcases with hc2 | h2
      · rcases (Mild.unwire s pos oc.children_).children a c1 hc2 with h2 | ⟨c, hc, hcc⟩
        · rw [h2]; exact List.Pairwise.nil
        · rw [hcc]; exact hs a c hc
      · rw [h2]; exact List.Pairwise.nil

theorem Reachable.childrenSorted {L : Library} {s : Sheet} (h : Reachable L s) :
    ChildrenSorted s := by
  induction h with
  | create =>
    intro a c hc
    rw [GetConcreteCell_eq] at hc
    simp [CreateSheet] at hc
  | setCell pos text _ hstep ih => exact SetCell_childrenSorted L _ pos text _ hstep ih
  | setCellRaised pos text e _ hstep ih =>
    rw [SetCell_raised_same L _ pos text e _ hstep]; exact ih
  | clearCell pos _ hstep ih => exact ClearCell_childrenSorted _ pos _ hstep ih
  | clearCellRaised pos e _ hstep ih =>
    rw [ClearCell_raised_same _ pos e _ hstep]; exact ih
  | getValue fuel pos v _ hstep ih =>
    intro a c1 hc1
    obtain ⟨c, hc, -, hch, -⟩ := (GetValue_upToCaches L fuel _ pos _ v hstep).cell hc1
    rw [hch]
    exact ih a c hc

theorem unwireMeetsCells_of_occupied (pos : Position) :
    ∀ (l : List Position) (s : Sheet), l.Nodup →
      (∀ c ∈ l, (GetConcreteCell s c).isSome = true) → unwireMeetsCells pos s l := by
  intro l
  induction l with
  | nil => intro s _ _; trivial
  | cons a rest ih =>
    intro s hnd hocc
    refine ⟨hocc a (List.mem_cons_self _ _), ih _ (List.nodup_cons.1 hnd).2 ?_⟩
    intro c hc
    have hca : c ≠ a := fun hh => (List.nodup_cons.1 hnd).1 (hh ▸ hc)
    rw [GetConcreteCell_removeParent_ne _ _ _ _ hca]
    exact hocc c (List.mem_cons_of_mem _ hc)

/-- In a reachable sheet the loop that removes the edges of the cell at `pos` (in `SetCell` after
the grid has grown, in `ClearCell` as it stands) finds a cell at every child it visits. -/
theorem Reachable.unwire_meets_cells {L : Library} {s : Sheet} (h : Reachable L s)
    {pos : Position} {old_cell : Cell} (hc : GetConcreteCell s pos = some old_cell) :
    unwireMeetsCells pos s old_cell.children_ ∧
    unwireMeetsCells pos (MaybeIncreaseSizeToIncludePosition s pos) old_cell.children_ := by
  have hnd := nodup_of_sorted (h.childrenSorted pos old_cell hc)
  have hocc : ∀ c ∈ old_cell.children_, (GetConcreteCell s c).isSome = true := by
    intro c hcm
    obtain ⟨cp, hcp, -⟩ := h.linked.child pos old_cell c hc hcm
    rw [hcp]; rfl
  refine ⟨unwireMeetsCells_of_occupied pos _ s hnd hocc,
    unwireMeetsCells_of_occupied pos _ _ hnd ?_⟩
  intro c hcm
  rw [GetConcreteCell_MaybeIncrease]
  exact hocc c hcm

/-- In a reachable sheet every parent a cell names is occupied, so the invalidation traversal
finds a cell behind every parent pointer it follows. -/
theorem Reachable.parent_occupied {L : Library} {s : Sheet} (h : Reachable L s)
    {x a : Position} (hxa : ParentEdge s x a) : (GetConcreteCell s a).isSome = true := by
  obtain ⟨cx, hcx, hmem⟩ := hxa
  obtain ⟨ca, hca, -⟩ := h.linked.parent x cx a hcx hmem
  rw [hca]; rfl

/-! ## What the cells of a reachable sheet look like -/

theorem GetConcreteCell_create (p : Position) : GetConcreteCell CreateSheet p = none := by
  rw [GetConcreteCell_eq]
  simp [CreateSheet]

theorem Cell.make_children {L : Library} {text : String} {c : Cell}
    (h : Cell.make L text = some c) : c.children_ = c.impl_.GetReferencedCells := by
  unfold Cell.make at h
  split at h
  · split at h
    · cases h
    · cases h; rfl
  · cases h; rfl

theorem SetCell_retained (L : Library) (s : Sheet) (pos : Position) (text : String)
    (s1 : Sheet) (h : SetCell L s pos text = .ok s1) (hs : Retained s) : Retained s1 := by
  obtain ⟨nc, np, hmake, -, hpos, hnpi, -, -, hfrom, -⟩ := SetCell_slots L s pos text s1 h
  intro a c1 hc1
  by_cases ha : a = pos
  · subst ha
    rw [hpos] at hc1
    cases hc1
    left
    rw [isEmpty_of_impl hnpi]
    exact Cell.make_not_empty hmake
  · obtain ⟨cw, hcw, hi, -, hpar⟩ := hfrom a ha c1 hc1
    rw [isEmpty_of_impl hi, hpar]
    rw [GetConcreteCell_wired] at hcw
    simp only at hcw
    by_cases hA : a ∈ nc.children_
    · rw [if_pos hA] at hcw
      unfold addedTo at hcw
      cases hcw
      right
      exact List.ne_nil_of_mem ((mem_AddParent _ pos pos).2 (Or.inr rfl))
    · rw [if_neg hA] at hcw
      cases hold : GetConcreteCell s pos with
      | none =>
        rw [hold] at hcw
        exact hs a cw hcw
      | some oc =>
        rw [hold] at hcw
        simp only at hcw
        by_cases hB : a ∈ oc.children_
        · rw [if_pos hB] at hcw
          unfold removedFrom at hcw
          cases hc : GetConcreteCell s a with
          | none => rw [hc] at hcw; cases hcw
          | some c =>
            rw [hc] at hcw
            simp only at hcw
            split at hcw
            · cases hcw
            · rename_i hnot
              cases hcw
              by_cases he : (c.RemoveParent pos).IsEmpty = true
              · right
                exact fun hp => hnot ⟨he, hp⟩
              · left
                simpa using he
        · rw [if_neg hB] at hcw
          exact hs a cw hcw

theorem ClearCell_retained (s : Sheet) (pos : Position) (s1 : Sheet)
    (h : ClearCell s pos = .ok s1) (hs : Retained s) (hac : Acyclic s) : Retained s1 := by
  rcases ClearCell_cases s pos with h1 | h1 | ⟨oc, _, hoc, hne, h1⟩
  · rw [h1.2] at h; cases h
  · rw [h1.2.2] at h; cases h; exact hs
  · rw [h1] at h
    have h3 := Outcome.ok.inj h
    subst h3
    have hself : pos ∉ oc.children_ :=
      fun hp => hac pos (Relation.TransGen.single ⟨oc, hoc, hp⟩)
    intro a c1 hc1
    rw [ClearCell_slots s pos oc hoc hself] at hc1
    by_cases ha : a = pos
    · rw [if_pos ha] at hc1
      by_cases hp : oc.parents_ ≠ []
      · rw [if_pos hp] at hc1
        cases hc1
        exact Or.inr hp
      · rw [if_neg hp] at hc1
        cases hc1
    · rw [if_neg ha] at hc1
      by_cases hB : a ∈ oc.children_
      · rw [if_pos hB] at hc1
        unfold removedFrom at hc1
        cases hc : GetConcreteCell s a with
        | none => rw [hc] at hc1; cases hc1
        | some c =>
          rw [hc] at hc1
          simp only at hc1
          split at hc1
          · cases hc1
          · rename_i hnot
            cases hc1
            by_cases he : (c.RemoveParent pos).IsEmpty = true
            · right
              exact fun hp => hnot ⟨he, hp⟩
            · left
              simpa using he
      · rw [if_neg hB] at hc1
        exact hs a c1 hc1

/-- Invariant 3 of the data model holds in every reachable sheet. -/
theorem Reachable.retained {L : Library} {s : Sheet} (h : Reachable L s) : Retained s := by
  induction h with
  | create =>
    intro a c hc
    rw [GetConcreteCell_create] at hc
    cases hc
  | setCell pos text _ hstep ih => exact SetCell_retained L _ pos text _ hstep ih
  | setCellRaised pos text e _ hstep ih =>
    rw [SetCell_raised_same L _ pos text e _ hstep]; exact ih
  | clearCell pos hprev hstep ih => exact ClearCell_retained _ pos _ hstep ih hprev.acyclic
  | clearCellRaised pos e _ hstep ih =>
    rw [ClearCell_raised_same _ pos e _ hstep]; exact ih
  | getValue fuel pos v _ hstep ih =>
    intro a c1 hc1
    obtain ⟨c, hc, hi, -, hpar⟩ := (GetValue_upToCaches L fuel _ pos _ v hstep).cell hc1
    rw [isEmpty_of_impl hi, hpar]
    exact ih a c hc

/-- The content and the children of a cell of a reachable sheet are those of a cell the
constructors build. -/
theorem Reachable.content {L : Library} (P : Impl → List Position → Prop) (h0 : P .Empty [])
    (hmk : ∀ text c, Cell.make L text = some c → P c.impl_ c.children_)
    {s : Sheet} (h : Reachable L s) :
    ∀ a c, GetConcreteCell s a = some c → P c.impl_ c.children_ := by
  induction h with
  | create =>
    intro a c hc
    rw [GetConcreteCell_create] at hc
    cases hc
  | setCell pos text hprev hstep ih =>
    obtain ⟨nc, np, hmake, -, hpos, hnpi, hnpc, -, hfrom, -⟩ := SetCell_slots L _ pos text _ hstep
    intro a c1 hc1
    by_cases ha : a = pos
    · subst ha
      rw [hpos] at hc1
      cases hc1
      rw [hnpi, hnpc]
      exact hmk text nc hmake
    · obtain ⟨cw, hcw, hi, hch, -⟩ := hfrom a ha c1 hc1
      rw [hi, hch]
      rcases wired_structure _ pos nc hprev.linked a cw hcw with ⟨-, h1, h2, -⟩ | ⟨c, hc, h1, h2, -⟩
      · rw [h1, h2]; exact h0
      · rw [h1, h2]; exact ih a c hc
  | setCellRaised pos text e _ hstep ih =>
    rw [SetCell_raised_same L _ pos text e _ hstep]; exact ih
  | clearCell pos hprev hstep ih =>
    rename_i s0 s1
    rcases ClearCell_cases s0 pos with h1 | h1 | ⟨oc, _, hoc, hne, h1⟩
    · rw [h1.2] at hstep; cases hstep
    · rw [h1.2.2] at hstep; cases hstep; exact ih
    · rw [h1] at hstep
      have h3 := Outcome.ok.inj hstep
      subst h3
      have hself : pos ∉ oc.children_ :=
        fun hp => hprev.acyclic pos (Relation.TransGen.single ⟨oc, hoc, hp⟩)
      intro a c1 hc1
      rw [ClearCell_slots s0 pos oc hoc hself] at hc1
      by_cases ha : a = pos
      · rw [if_pos ha] at hc1
        split at hc1
        · cases hc1; exact h0
        · cases hc1
      · rw [if_neg ha] at hc1
        by_cases hB : a ∈ oc.children_
        · rw [if_pos hB] at hc1
          obtain ⟨c, hc, rfl⟩ := removedFrom_some hc1
          exact ih a c hc
        · rw [if_neg hB] at hc1
          exact ih a c1 hc1
  | clearCellRaised pos e _ hstep ih =>
    rw [ClearCell_raised_same _ pos e _ hstep]; exact ih
  | getValue fuel pos v _ hstep ih =>
    intro a c1 hc1
    obtain ⟨c, hc, hi, hch, -⟩ := (GetValue_upToCaches L fuel _ pos _ v hstep).cell hc1
    rw [hi, hch]
    exact ih a c hc

theorem Reachable.childrenOfImpl {L : Library} {s : Sheet} (h : Reachable L s) :
    ChildrenOfImpl s :=
  h.content (fun i ch => ch = i.GetReferencedCells) rfl (fun _ _ hm => Cell.make_children hm)

/-! ## Text cells -/

theorem Cell.make_ne_formula (L : Library) (text : String)
    (h : front text ≠ FORMULA_SIGN ∨ text = "=") :
    Cell.make L text = some (Cell.mk (.Text text) none [] []) := by
  apply make_text
  rintro ⟨h1, h2⟩
  rcases h with h | h
  · exact h h1
  · subst h
    revert h2
    decide

theorem FindCyclicDeps_leaf (s : Sheet) (pos : Position) (c : Cell) (h : c.children_ = []) :
    FindCyclicDeps s pos c = some false := by
  unfold FindCyclicDeps
  rw [if_pos h]

/-- A call of `SetCell` with a text that is not a formula returns, and the cell it installs holds
the text and no cached value. -/
theorem SetCell_text_installs (L : Library) (s : Sheet) (pos : Position) (text : String)
    (hv : pos.IsValid = true) (h : front text ≠ FORMULA_SIGN ∨ text = "=") :
    ∃ s1 c, SetCell L s pos text = .ok s1 ∧ GetConcreteCell s1 pos = some c ∧
      c.impl_ = .Text text ∧ c.cache_ = none := by
  have hmake := Cell.make_ne_formula L text h
  rcases SetCell_cases L s pos text with h1 | h1 | ⟨nc, h1⟩ | ⟨nc, st, h1⟩ | ⟨nc, h1⟩
  rotate_left 4
  · rw [hmake] at h1
    have h2 := Option.some.inj h1.2.1
    subst h2
    rw [slotRefLive_of_no_children s pos _ rfl] at h1
    cases h1.2.2.2.2
  · rw [hv] at h1; cases h1.1
  · rw [hmake] at h1; cases h1.2.1
  · rw [hmake] at h1
    have h2 := Option.some.inj h1.2.1
    subst h2
    rw [FindCyclicDeps_leaf s pos _ rfl] at h1
    cases h1.2.2.1
  · have hok := h1.2.2.2.2.1
    obtain ⟨nc1, np, hmake1, -, hpos, hnpi, -, -, -, -⟩ := SetCell_slots L s pos text _ hok
    rw [hmake] at hmake1
    have h2 := Option.some.inj hmake1
    subst h2
    refine ⟨_, np, hok, hpos, hnpi, ?_⟩
    have hcache := SetCell_invalidates L s pos text _ hok pos Relation.ReflTransGen.refl
    unfold cacheAt at hcache
    rw [hpos] at hcache
    exact hcache

theorem GetValue_text (L : Library) (n : Nat) (s : Sheet) (pos : Position) (c : Cell)
    (text : String) (hc : GetConcreteCell s pos = some c) (hi : c.impl_ = .Text text)
    (hcache : c.cache_ = none) :
    GetValue L (n + 1) s pos =
      some (s.setCache pos (some (TextImpl_GetValue text)), TextImpl_GetValue text) := by
  unfold GetValue
  rw [hc]
  simp only [hcache, hi]

theorem TextImpl_GetValue_escape (rest : List Char) :
    TextImpl_GetValue (String.mk (ESCAPE_SIGN :: rest)) = .text (String.mk rest) := by
  unfold TextImpl_GetValue front substr1
  simp

theorem TextImpl_GetValue_plain (text : String) (h : front text ≠ ESCAPE_SIGN) :
    TextImpl_GetValue text = .text text := by
  unfold TextImpl_GetValue
  rw [if_neg h]

/-- The text and the value of the cell `SetCell` installs for a text that is not a formula. -/
theorem SetCell_text_reads (L : Library) (text : String)
    (hnf : front text ≠ FORMULA_SIGN ∨ text = "=") (s : Sheet) (pos : Position)
    (hv : pos.IsValid = true) :
    ∃ s1 c, SetCell L s pos text = .ok s1 ∧ GetCell s1 pos = .ok (some c) ∧
      c.GetText L = text ∧
      ∀ n, ∃ s2, GetValue L (n + 1) s1 pos = some (s2, TextImpl_GetValue text) := by
  obtain ⟨s1, c, hok, hc, hi, hcache⟩ := SetCell_text_installs L s pos text hv hnf
  refine ⟨s1, c, hok, ?_, ?_, fun n => ⟨_, GetValue_text L n s1 pos c text hc hi hcache⟩⟩
  · rw [GetCell_valid hv, hc]
  · unfold Cell.GetText
    rw [hi]

/-! ## Referenced cells -/

theorem ReferencedCellsSpec.of_children {c : Cell}
    (h : c.children_ = c.impl_.GetReferencedCells) : ReferencedCellsSpec c := by
  refine ⟨rfl, fun ast hi => ?_, fun hi => ?_, fun t hi => ?_⟩
  · have hch : c.GetReferencedCells = Formula_GetReferencedCells ast := by
      unfold Cell.GetReferencedCells
      rw [h, hi]
      rfl
    rw [hch]
    exact ⟨Formula_GetReferencedCells_sorted ast,
      nodup_of_sorted (Formula_GetReferencedCells_sorted ast),
      fun q => mem_Formula_GetReferencedCells ast q⟩
  · unfold Cell.GetReferencedCells
    rw [h, hi]
    rfl
  · unfold Cell.GetReferencedCells
    rw [h, hi]
    rfl

/-! ## The position check -/

theorem SetCell_invalid (L : Library) (s : Sheet) (pos : Position) (text : String)
    (h : pos.IsValid = false) : SetCell L s pos text = .raised .InvalidPosition s := by
  unfold SetCell
  rw [CheckPosition_invalid h]

theorem GetCell_invalid (s : Sheet) (pos : Position) (h : pos.IsValid = false) :
    GetCell s pos = .error .InvalidPosition := by
  unfold GetCell
  rw [CheckPosition_invalid h]

theorem ClearCell_invalid (s : Sheet) (pos : Position) (h : pos.IsValid = false) :
    ClearCell s pos = .raised .InvalidPosition s := by
  unfold ClearCell
  rw [CheckPosition_invalid h]

theorem ClearCell_valid (s : Sheet) (pos : Position) (h : pos.IsValid = true) :
    ∃ s1, ClearCell s pos = .ok s1 := by
  rcases ClearCell_cases s pos with h1 | h1 | ⟨oc, _, _, _, h1⟩
  · rw [h] at h1; cases h1.1
  · exact ⟨_, h1.2.2⟩
  · exact ⟨_, h1⟩

theorem GetConcreteCell_eq_none_iff (s : Sheet) (pos : Position) :
    GetConcreteCell s pos = none ↔
      CheckSize s pos = false ∨ (s.rowAt pos.row).getD pos.col none = none := by
  unfold GetConcreteCell
  cases hs : CheckSize s pos with
  | false => simp
  | true => simp

/-! ## The occupancy maps, read as lists of columns and rows -/

theorem valid_col {p : Position} (h : p.IsValid = true) : p.col < MAX_COLS := by
  unfold Position.IsValid at h
  simp only [Bool.and_eq_true, decide_eq_true_eq] at h
  exact h.2

theorem valid_row {p : Position} (h : p.IsValid = true) : p.row < MAX_ROWS := by
  unfold Position.IsValid at h
  simp only [Bool.and_eq_true, decide_eq_true_eq] at h
  exact h.1

/-- The row map of a sheet whose maps agree with the grid, against the list of the columns in
which the row holds a cell with content. -/
theorem Counted.row_list {s : Sheet} (hc : Counted s) (r : Nat) :
    ∃ cols : List Nat, cols.Nodup ∧ (∀ c, c ∈ cols ↔ nonEmptyAt s ⟨r, c⟩ = true) ∧
      CountMap.find s.row_cells_count_ r = if cols = [] then none else some cols.length := by
  refine ⟨(List.range MAX_COLS).filter (fun c => nonEmptyAt s ⟨r, c⟩),
    (List.nodup_range _).filter _, fun c => ?_, ?_⟩
  · rw [List.mem_filter, List.mem_range]
    constructor
    · exact fun h => h.2
    · exact fun h => ⟨valid_col (hc.valid _ h), h⟩
  · have hlen : ((List.range MAX_COLS).filter (fun c => nonEmptyAt s ⟨r, c⟩)).length =
        rowCount s r := by
      unfold rowCount
      rw [List.countP_eq_length_filter]
    rw [hc.rows r, ← hlen]
    by_cases h0 : (List.range MAX_COLS).filter (fun c => nonEmptyAt s ⟨r, c⟩) = []
    · rw [if_pos h0, if_pos (by rw [h0]; rfl)]
    · rw [if_neg h0, if_neg (fun h => h0 (List.length_eq_zero.1 h))]

/-- The column map, against the list of the rows in which the column holds a cell with
content. -/
theorem Counted.col_list {s : Sheet} (hc : Counted s) (c : Nat) :
    ∃ rows : List Nat, rows.Nodup ∧ (∀ r, r ∈ rows ↔ nonEmptyAt s ⟨r, c⟩ = true) ∧
      CountMap.find s.col_cells_count_ c = if rows = [] then none else some rows.length := by
  refine ⟨(List.range MAX_ROWS).filter (fun r => nonEmptyAt s ⟨r, c⟩),
    (List.nodup_range _).filter _, fun r => ?_, ?_⟩
  · rw [List.mem_filter, List.mem_range]
    constructor
    · exact fun h => h.2
    · exact fun h => ⟨valid_row (hc.valid _ h), h⟩
  · have hlen : ((List.range MAX_ROWS).filter (fun r => nonEmptyAt s ⟨r, c⟩)).length =
        colCount s c := by
      unfold colCount
      rw [List.countP_eq_length_filter]
    rw [hc.cols c, ← hlen]
    by_cases h0 : (List.range MAX_ROWS).filter (fun r => nonEmptyAt s ⟨r, c⟩) = []
    · rw [if_pos h0, if_pos (by rw [h0]; rfl)]
    · rw [if_neg h0, if_neg (fun h => h0 (List.length_eq_zero.1 h))]

theorem Counted.row_key_iff {s : Sheet} (hc : Counted s) (r : Nat) :
    (CountMap.find s.row_cells_count_ r).isSome = true ↔ ∃ c, nonEmptyAt s ⟨r, c⟩ = true := by
  obtain ⟨cols, -, hmem, hfind⟩ := hc.row_list r
  rw [hfind]
  by_cases h0 : cols = []
  · rw [if_pos h0]
    constructor
    · intro h; cases h
    · rintro ⟨c, h⟩
      have := (hmem c).2 h
      rw [h0] at this
      cases this
  · rw [if_neg h0]
    obtain ⟨c, hcm⟩ := List.exists_mem_of_ne_nil _ h0
    exact ⟨fun _ => ⟨c, (hmem c).1 hcm⟩, fun _ => rfl⟩

theorem Counted.col_key_iff {s : Sheet} (hc : Counted s) (c : Nat) :
    (CountMap.find s.col_cells_count_ c).isSome = true ↔ ∃ r, nonEmptyAt s ⟨r, c⟩ = true := by
  obtain ⟨rows, -, hmem, hfind⟩ := hc.col_list c
  rw [hfind]
  by_cases h0 : rows = []
  · rw [if_pos h0]
    constructor
    · intro h; cases h
    · rintro ⟨r, h⟩
      have := (hmem r).2 h
      rw [h0] at this
      cases this
  · rw [if_neg h0]
    obtain ⟨r, hrm⟩ := List.exists_mem_of_ne_nil _ h0
    exact ⟨fun _ => ⟨r, (hmem r).1 hrm⟩, fun _ => rfl⟩

theorem Counted.row_ne_zero {s : Sheet} (hc : Counted s) (r v : Nat)
    (h : CountMap.find s.row_cells_count_ r = some v) : v ≠ 0 := by
  rw [hc.rows r] at h
  by_cases h0 : rowCount s r = 0
  · rw [if_pos h0] at h; cases h
  · rw [if_neg h0] at h
    rw [← Option.some.inj h]
    exact h0

theorem Counted.col_ne_zero {s : Sheet} (hc : Counted s) (c v : Nat)
    (h : CountMap.find s.col_cells_count_ c = some v) : v ≠ 0 := by
  rw [hc.cols c] at h
  by_cases h0 : colCount s c = 0
  · rw [if_pos h0] at h; cases h
  · rw [if_neg h0] at h
    rw [← Option.some.inj h]
    exact h0

theorem Counted.rows_nil_iff {s : Sheet} (hc : Counted s) :
    s.row_cells_count_ = [] ↔ ∀ p, nonEmptyAt s p = false := by
  rw [CountMap.eq_nil_iff]
  constructor
  · intro h p
    cases hp : nonEmptyAt s p with
    | false => rfl
    | true =>
      have := (hc.row_key_iff p.row).2 ⟨p.col, hp⟩
      rw [h p.row] at this
      cases this
  · intro h r
    cases hf : CountMap.find s.row_cells_count_ r with
    | none => rfl
    | some v =>
      obtain ⟨c, hcc⟩ := (hc.row_key_iff r).1 (by rw [hf]; rfl)
      rw [h] at hcc
      cases hcc

theorem Counted.cols_nil_iff {s : Sheet} (hc : Counted s) :
    s.col_cells_count_ = [] ↔ ∀ p, nonEmptyAt s p = false := by
  rw [CountMap.eq_nil_iff]
  constructor
  · intro h p
    cases hp : nonEmptyAt s p with
    | false => rfl
    | true =>
      have := (hc.col_key_iff p.col).2 ⟨p.row, hp⟩
      rw [h p.col] at this
      cases this
  · intro h c
    cases hf : CountMap.find s.col_cells_count_ c with
    | none => rfl
    | some v =>
      obtain ⟨r, hrr⟩ := (hc.col_key_iff c).1 (by rw [hf]; rfl)
      rw [h] at hrr
      cases hrr

theorem Counted.at_ne_zero {s : Sheet} (hc : Counted s) (pos : Position)
    (h : nonEmptyAt s pos = true) :
    CountMap.at s.row_cells_count_ pos.row ≠ 0 ∧ CountMap.at s.col_cells_count_ pos.col ≠ 0 := by
  constructor
  · have h1 := (hc.row_key_iff pos.row).2 ⟨pos.col, h⟩
    unfold CountMap.at
    cases hf : CountMap.find s.row_cells_count_ pos.row with
    | none => rw [hf] at h1; cases h1
    | some v => exact hc.row_ne_zero _ v hf
  · have h1 := (hc.col_key_iff pos.col).2 ⟨pos.row, h⟩
    unfold CountMap.at
    cases hf : CountMap.find s.col_cells_count_ pos.col with
    | none => rw [hf] at h1; cases h1
    | some v => exact hc.col_ne_zero _ v hf

/-- Overwriting a cell with content leaves both maps as they are. -/
theorem SetCell_overwrite_counts (L : Library) (s : Sheet) (pos : Position) (text : String)
    (s1 : Sheet) (h : SetCell L s pos text = .ok s1) (hne : nonEmptyAt s pos = true) :
    s1.row_cells_count_ = s.row_cells_count_ ∧ s1.col_cells_count_ = s.col_cells_count_ := by
  obtain ⟨nc, st, hv, hmake, _, hinv, rfl⟩ := SetCell_ok_inv L s pos text s1 h
  obtain ⟨st1, h1, hu, -, -⟩ := InvalidateCache_spec pos (SetCell_wired s pos nc)
  rw [hinv] at h1
  cases h1
  have hmild : Mild s st.1 := (Mild.wired s pos nc).andThen hu.mild
  have hfree : slotIsFree st.1 pos = false := by
    rw [slotIsFree_eq, hmild.nonEmpty, hne]
    rfl
  unfold SetCell_install
  simp only [hfree]
  exact ⟨hmild.rows, hmild.cols⟩

/-- The maps `ClearCell` decrements are those of the sheet before the call. -/
theorem ClearCell_counts_before (s : Sheet) (pos : Position) (l : List Position) :
    (ClearCell_replace (unwire s pos l) pos).row_cells_count_ = s.row_cells_count_ ∧
    (ClearCell_replace (unwire s pos l) pos).col_cells_count_ = s.col_cells_count_ := by
  obtain ⟨h1, h2⟩ := ClearCell_replace_counts (unwire s pos l) pos
  rw [h1, h2]
  exact ⟨(Mild.unwire s pos l).rows, (Mild.unwire s pos l).cols⟩

/-! ## Parents entries name installed cells -/

/-- Once `SetCell(pos, _)` has removed the edges of the old cell, no parents set of the grid names
`pos`: every entry that named the old cell is gone. -/
theorem unwire_removes_entries {s : Sheet} (hl : Linked s) (pos : Position) (oc : Cell)
    (hoc : GetConcreteCell s pos = some oc) (x : Position) (cx : Cell)
    (hcx : GetConcreteCell
      (unwire (MaybeIncreaseSizeToIncludePosition s pos) pos oc.children_) x = some cx) :
    pos ∉ cx.parents_ := by
  rw [GetConcreteCell_unwire, GetConcreteCell_MaybeIncrease] at hcx
  by_cases hx : x ∈ oc.children_
  · rw [if_pos hx] at hcx
    obtain ⟨c, -, rfl⟩ := removedFrom_some hcx
    intro hm
    exact ((mem_RemoveParent c pos pos).1 hm).2 rfl
  · rw [if_neg hx] at hcx
    intro hm
    obtain ⟨ca, hca, hxc⟩ := hl.parent x cx pos hcx hm
    rw [hoc] at hca
    cases hca
    exact hx hxc

/-- The cell `SetCell` installs over a cell has the parents of that cell. -/
theorem SetCell_hands_parents (L : Library) (s : Sheet) (pos : Position) (text : String)
    (s1 : Sheet) (h : SetCell L s pos text = .ok s1) (oc : Cell)
    (hoc : GetConcreteCell s pos = some oc) (hself : pos ∉ oc.children_) :
    ∃ c1, GetConcreteCell s1 pos = some c1 ∧ c1.parents_ = oc.parents_ := by
  obtain ⟨nc, np, -, -, hpos, -, -, hpar, -, -⟩ := SetCell_slots L s pos text s1 h
  refine ⟨np, hpos, ?_⟩
  rw [hpar, wired_parents, hoc]
  simp only [if_neg hself]

/-- After `ClearCell(pos)` has removed a cell, no parents set of the grid names `pos`. -/
theorem ClearCell_removes_entries {s : Sheet} (hl : Linked s) (hac : Acyclic s) (pos : Position)
    (s1 : Sheet) (h : ClearCell s pos = .ok s1) (oc : Cell)
    (hoc : GetConcreteCell s pos = some oc) (hne : oc.IsEmpty = false) (x : Position) (cx : Cell)
    (hcx : GetConcreteCell s1 x = some cx) : pos ∉ cx.parents_ := by
  have hl1 : Linked s1 := ClearCell_linked s pos s1 h hl hac
  rcases ClearCell_cases s pos with h1 | h1 | ⟨oc1, _, hoc1, _, h1⟩
  · rw [h1.2] at h; cases h
  · have h2 := h1.2.1
    unfold nonEmptyAt slotIsFree at h2
    rw [hoc] at h2
    simp only [hne, Bool.not_false] at h2
    cases h2
  · rw [hoc] at hoc1
    cases hoc1
    rw [h1] at h
    have h3 := Outcome.ok.inj h
    subst h3
    have hself : pos ∉ oc.children_ :=
      fun hp => hac pos (Relation.TransGen.single ⟨oc, hoc, hp⟩)
    intro hm
    obtain ⟨ca, hca, hxc⟩ := hl1.parent x cx pos hcx hm
    rw [ClearCell_slots s pos oc hoc hself, if_pos rfl] at hca
    split at hca
    · cases hca
      cases hxc
    · cases hca

/-! ## The lookup of an evaluation -/

theorem Evaluate_lookup_invalid (L : Library)
    (cellGetValue : Sheet → Position → Option (Sheet × Value)) (s : Sheet) (p : Position)
    (h : p.IsValid = false) : Evaluate_lookup L cellGetValue s p = some (s, .error .Ref) := by
  unfold Evaluate_lookup
  simp [h]

theorem Evaluate_lookup_absent (L : Library)
    (cellGetValue : Sheet → Position → Option (Sheet × Value)) (s : Sheet) (p : Position)
    (h : p.IsValid = true) (hc : GetConcreteCell s p = none) :
    Evaluate_lookup L cellGetValue s p = some (s, .ok 0) := by
  unfold Evaluate_lookup
  simp [h, hc]

theorem Evaluate_lookup_cell (L : Library)
    (cellGetValue : Sheet → Position → Option (Sheet × Value)) (s : Sheet) (p : Position)
    (c : Cell) (s2 : Sheet) (val : Value)
    (h : p.IsValid = true) (hc : GetConcreteCell s p = some c)
    (hv : cellGetValue s p = some (s2, val)) :
    Evaluate_lookup L cellGetValue s p = some (s2, ValueToDouble L val) := by
  unfold Evaluate_lookup
  simp [h, hc, hv]

theorem cString_no_NUL (val : String) : ∀ ch ∈ cString val, ch ≠ NUL := by
  intro ch hch
  unfold cString at hch
  have := List.mem_takeWhile_imp hch
  simpa using this

theorem headD_drop_NUL (l : List Char) (hl : ∀ ch ∈ l, ch ≠ NUL) (n : Nat) :
    (l.drop n).headD NUL ≠ NUL ↔ n < l.length := by
  constructor
  · intro h
    by_contra hn
    rw [List.drop_eq_nil_of_le (Nat.le_of_not_lt hn)] at h
    exact h rfl
  · intro h
    cases hd : l.drop n with
    | nil =>
      have := List.drop_eq_nil_iff.1 hd
      omega
    | cons a rest =>
      have ha : a ∈ l := List.mem_of_mem_drop (hd ▸ List.mem_cons_self a rest)
      exact hl a ha

theorem ValueToDouble_text_eq (L : Library) (val : String) :
    ValueToDouble L (.text val) =
      if val.data = [] then .ok 0
      else if ((cString val).drop (L.strtod (cString val)).2).headD NUL ≠ NUL ∨
          (L.strtod (cString val)).2 = 0 then .error .Value
        else .ok (L.strtod (cString val)).1 := rfl

/-- The visitor on a string: 0 for the empty string, otherwise the number `strtod` reads from the
characters before the first terminator when it reads at least one and all of them, and the error
`Value` when it does not. -/
theorem ValueToDouble_text (L : Library) (val : String) :
    (val = "" → ValueToDouble L (.text val) = .ok 0) ∧
    (val ≠ "" → 0 < (L.strtod (cString val)).2 →
      (cString val).length ≤ (L.strtod (cString val)).2 →
      ValueToDouble L (.text val) = .ok (L.strtod (cString val)).1) ∧
    (val ≠ "" →
      ((L.strtod (cString val)).2 = 0 ∨ (L.strtod (cString val)).2 < (cString val).length) →
      ValueToDouble L (.text val) = .error .Value) := by
  have hne : val ≠ "" → val.data ≠ [] := by
    intro h hd
    apply h
    exact String.ext hd
  refine ⟨fun h => ?_, fun h h0 hall => ?_, fun h hbad => ?_⟩
  · subst h
    rfl
  · rw [ValueToDouble_text_eq, if_neg (hne h), if_neg]
    rintro (h1 | h1)
    · have := (headD_drop_NUL (cString val) (cString_no_NUL val) _).1 h1
      omega
    · omega
  · rw [ValueToDouble_text_eq, if_neg (hne h), if_pos]
    rcases hbad with h1 | h1
    · right
      exact h1
    · left
      exact (headD_drop_NUL (cString val) (cString_no_NUL val) _).2 h1

theorem cString_of_no_NUL (val : String) (h : ∀ ch ∈ val.data, ch ≠ NUL) :
    cString val = val.data := by
  unfold cString
  rw [List.takeWhile_eq_self_iff]
  intro ch hch
  simpa using h ch hch

/-- On a string without a terminator inside, the visitor raises `Value` exactly when the string
is not empty and not entirely a numeric literal (as long as `strtod` does not claim to read more
characters than there are). -/
theorem ValueToDouble_text_of_no_NUL (L : Library) (val : String)
    (h : ∀ ch ∈ val.data, ch ≠ NUL) (hne : val ≠ "")
    (hle : (L.strtod val.data).2 ≤ val.data.length) :
    (NumericLiteral L val → ValueToDouble L (.text val) = .ok (L.strtod val.data).1) ∧
    (¬ NumericLiteral L val → ValueToDouble L (.text val) = .error .Value) := by
  have hc := cString_of_no_NUL val h
  obtain ⟨-, h2, h3⟩ := ValueToDouble_text L val
  rw [hc] at h2 h3
  unfold NumericLiteral
  constructor
  · rintro ⟨h0, hall⟩
    exact h2 hne h0 (by omega)
  · intro hnot
    apply h3 hne
    by_cases h0 : (L.strtod val.data).2 = 0
    · exact Or.inl h0
    · right
      by_contra hlt
      exact hnot ⟨by omega, by omega⟩

/-- A `FormulaError` an evaluation raises is the value `GetValue` returns for the formula
cell. -/
theorem GetValue_formula_error (L : Library) (n : Nat) (s : Sheet) (pos : Position) (c : Cell)
    (ast : FormulaAST) (s1 : Sheet) (e : FormulaError)
    (hc : GetConcreteCell s pos = some c) (hi : c.impl_ = .Formula ast) (hcache : c.cache_ = none)
    (he : Formula_Evaluate L (fun s2 p => GetValue L n s2 p) ast s = some (s1, .error e)) :
    GetValue L (n + 1) s pos = some (s1.setCache pos (some (.error e)), .error e) := by
  unfold GetValue
  rw [hc]
  simp only [hcache, hi, he]

theorem GetValue_formula_number (L : Library) (n : Nat) (s : Sheet) (pos : Position) (c : Cell)
    (ast : FormulaAST) (s1 : Sheet) (x : Number)
    (hc : GetConcreteCell s pos = some c) (hi : c.impl_ = .Formula ast) (hcache : c.cache_ = none)
    (he : Formula_Evaluate L (fun s2 p => GetValue L n s2 p) ast s = some (s1, .ok x)) :
    GetValue L (n + 1) s pos = some (s1.setCache pos (some (.number x)), .number x) := by
  unfold GetValue
  rw [hc]
  simp only [hcache, hi, he]

/-! ## The cycle check with a shared visited set

The shared traversal finds the target exactly when the per-path one does: both return true
exactly when a path of child edges outside the visited set leads to the target. -/

theorem PathAvoid.shrink {s : Sheet} {bad : Position} {V V1 : List Position} {x : Position}
    (h : PathAvoid s bad V1 x) (hsub : ∀ v ∈ V, v ∈ V1) : PathAvoid s bad V x := by
  induction h with
  | here => exact .here
  | step hx hc hy _ ih => exact .step (fun hm => hx (hsub _ hm)) hc hy ih

theorem ClosedIn.none (s : Sheet) (bad : Position) (V : List Position) : ClosedIn s bad V V :=
  fun _ hz hnz => absurd hz hnz

theorem ClosedIn.widen {s : Sheet} {bad : Position} {V V1 V2 : List Position}
    (h1 : ClosedIn s bad V V1) (h2 : ClosedIn s bad V1 V2) (hsub : ∀ v ∈ V1, v ∈ V2) :
    ClosedIn s bad V V2 := by
  intro z hz hnz
  by_cases hz1 : z ∈ V1
  · obtain ⟨hb, hch⟩ := h1 z hz1 hnz
    refine ⟨hb, fun c hc y hy => ?_⟩
    obtain ⟨hyb, hy1⟩ := hch c hc y hy
    exact ⟨hyb, hy1.imp id (hsub y)⟩
  · exact h2 z hz hz1

/-- No path outside `V` leads from a finished cell to the target. -/
theorem ClosedIn.no_path {s : Sheet} {bad : Position} {V V1 : List Position}
    (h : ClosedIn s bad V V1) {z : Position} (hp : PathAvoid s bad V z) :
    z ∈ V1 → z ∉ V → False := by
  induction hp with
  | here => exact fun hz hnz => (h _ hz hnz).1 rfl
  | @step u w c hu hc hw hrest ih =>
    intro hz hnz
    obtain ⟨hwb, hw1⟩ := (h u hz hnz).2 c hc w hw
    cases hrest with
    | here => exact hwb rfl
    | @step _ w2 c2 hwV hc2 hw2 hrest2 =>
      rcases hw1 with hw1 | hw1
      · rw [hc2] at hw1; cases hw1
      · exact ih hw1 hwV

theorem SharedSpec.refutes {s : Sheet} {bad : Position} {V V1 : List Position} {x : Position}
    (hx : x ≠ bad) (hx1 : GetConcreteCell s x = none ∨ x ∈ V1) (hcl : ClosedIn s bad V V1) :
    ¬ PathAvoid s bad V x := by
  intro hp
  cases hp with
  | here => exact hx rfl
  | @step _ y c hxV hc hy hrest =>
    rcases hx1 with h | h
    · rw [hc] at h; cases h
    · exact hcl.no_path (.step hxV hc hy hrest) h hxV

/-- The loop over the children with a shared set, given that every call meets its
specification. -/
theorem anyChildShared_spec (s : Sheet) (bad : Position)
    (f : List Position → Position → Option (Bool × List Position)) (V0 : List Position)
    (hf : ∀ V c, (∀ v ∈ V0, v ∈ V) → V.Nodup → (∀ v ∈ V, v ∈ occupied s) →
      SharedSpec s bad V c (f V c)) :
    ∀ (l : List Position) (V : List Position), (∀ v ∈ V0, v ∈ V) → V.Nodup →
      (∀ v ∈ V, v ∈ occupied s) →
      ∃ b V1, anyChildShared f l V = some (b, V1) ∧ (∀ v ∈ V, v ∈ V1) ∧ V1.Nodup ∧
        (∀ v ∈ V1, v ∈ occupied s) ∧
        (b = true → ∃ c ∈ l, PathAvoid s bad V c) ∧
        (b = false → (∀ c ∈ l, c ≠ bad ∧ (GetConcreteCell s c = none ∨ c ∈ V1)) ∧
          ClosedIn s bad V V1) := by
  intro l
  induction l with
  | nil =>
    intro V _ hnd hocc
    exact ⟨false, V, rfl, fun _ h => h, hnd, hocc, (fun h => by cases h),
      fun _ => ⟨(fun c hc => by cases hc), ClosedIn.none s bad V⟩⟩
  | cons a rest ih =>
    intro V h0 hnd hocc
    obtain ⟨b, V1, hr, hsub, hnd1, hocc1, ht, hfl⟩ := hf V a h0 hnd hocc
    unfold anyChildShared
    rw [hr]
    cases b with
    | true =>
      exact ⟨true, V1, rfl, hsub, hnd1, hocc1,
        fun _ => ⟨a, List.mem_cons_self _ _, ht rfl⟩, fun h => by cases h⟩
    | false =>
      simp only
      obtain ⟨hab, ha1, hcl⟩ := hfl rfl
      obtain ⟨b2, V2, hr2, hsub2, hnd2, hocc2, ht2, hfl2⟩ :=
        ih V1 (fun v hv => hsub v (h0 v hv)) hnd1 hocc1
      refine ⟨b2, V2, hr2, fun v hv => hsub2 v (hsub v hv), hnd2, hocc2, ?_, ?_⟩
      · intro hb
        obtain ⟨c, hc, hp⟩ := ht2 hb
        exact ⟨c, List.mem_cons_of_mem _ hc, hp.shrink hsub⟩
      · intro hb
        obtain ⟨hall, hcl2⟩ := hfl2 hb
        refine ⟨?_, hcl.widen hcl2 hsub2⟩
        intro c hc
        rcases List.mem_cons.1 hc with rfl | hc1
        · exact ⟨hab, ha1.imp id (hsub2 c)⟩
        · exact hall c hc1

/-- The shared cycle check returns, and meets its specification, whenever the fuel exceeds the
number of cells not yet visited. -/
theorem FindCyclicDepsShared_spec (s : Sheet) (bad : Position) :
    ∀ (fuel : Nat) (V : List Position) (x : Position),
      V.Nodup → (∀ v ∈ V, v ∈ occupied s) → (occupied s).length < fuel + V.length →
      SharedSpec s bad V x (FindCyclicDepsShared s fuel V x bad) := by
  intro fuel
  induction fuel with
  | zero =>
    intro V x hnd hsub hlt
    exfalso
    have := (List.subperm_of_subset hnd hsub).length_le
    omega
  | succ n ih =>
    intro V x hnd hsub hlt
    unfold FindCyclicDepsShared
    by_cases hx : x = bad
    · rw [if_pos hx]
      subst hx
      exact ⟨true, V, rfl, fun _ h => h, hnd, hsub, fun _ => .here, fun h => by cases h⟩
    · rw [if_neg hx]
      cases hc : GetConcreteCell s x with
      | none =>
        exact ⟨false, V, rfl, fun _ h => h, hnd, hsub, (fun h => by cases h),
          fun _ => ⟨hx, Or.inl hc, ClosedIn.none s bad V⟩⟩
      | some c =>
        simp only
        by_cases hv : x ∈ V
        · rw [if_pos hv]
          exact ⟨false, V, rfl, fun _ h => h, hnd, hsub, (fun h => by cases h),
            fun _ => ⟨hx, Or.inr hv, ClosedIn.none s bad V⟩⟩
        · rw [if_neg hv]
          have hnd1 : (x :: V).Nodup := List.nodup_cons.2 ⟨hv, hnd⟩
          have hsub1 : ∀ v ∈ x :: V, v ∈ occupied s := by
            intro v hv1
            rcases List.mem_cons.1 hv1 with rfl | h1
            · rw [mem_occupied, hc]; rfl
            · exact hsub v h1
          obtain ⟨b, V1, hr, hsubV, hndV, hoccV, ht, hfl⟩ :=
            anyChildShared_spec s bad
              (fun visited1 child_pos => FindCyclicDepsShared s n visited1 child_pos bad)
              (x :: V)
              (fun W c hW hWnd hWocc => ih W c hWnd hWocc (by
                have := (List.subperm_of_subset hnd1 hW).length_le
                simp only [List.length_cons] at this
                omega))
              c.children_ (x :: V) (fun _ h => h) hnd1 hsub1
          refine ⟨b, V1, hr, fun v hv1 => hsubV v (List.mem_cons_of_mem _ hv1), hndV, hoccV,
            ?_, ?_⟩
          · intro hb
            obtain ⟨y, hy, hp⟩ := ht hb
            exact .step hv hc hy (hp.shrink (fun v hv1 => List.mem_cons_of_mem _ hv1))
          · intro hb
            obtain ⟨hall, hcl⟩ := hfl hb
            have hx1 : x ∈ V1 := hsubV x (List.mem_cons_self _ _)
            refine ⟨hx, Or.inr hx1, ?_⟩
            intro z hz hnz
            by_cases hzx : z = x
            · subst hzx
              refine ⟨hx, fun c1 hc1 y hy => ?_⟩
              rw [hc] at hc1
              cases hc1
              exact hall y hy
            · exact hcl z hz (fun hm => by
                rcases List.mem_cons.1 hm with h1 | h1
                · exact hzx h1
                · exact hnz h1)

/-- The per-path cycle check returns true only along a path outside its visited set. -/
theorem FindCyclicDepsImpl_sound_avoid (s : Sheet) (bad : Position) :
    ∀ (fuel : Nat) (V : List Position) (x : Position),
      FindCyclicDepsImpl s fuel V x bad = some true → PathAvoid s bad V x := by
  intro fuel
  induction fuel with
  | zero => intro V x h; simp [FindCyclicDepsImpl] at h
  | succ n ih =>
    intro V x h
    unfold FindCyclicDepsImpl at h
    by_cases hx : x = bad
    · subst hx; exact .here
    · rw [if_neg hx] at h
      cases hc : GetConcreteCell s x with
      | none => rw [hc] at h; cases h
      | some c =>
        rw [hc] at h
        simp only at h
        by_cases hv : x ∈ V
        · rw [if_pos hv] at h; cases h
        · rw [if_neg hv] at h
          obtain ⟨y, hy, hfy⟩ := anyChild_true h
          exact .step hv hc hy ((ih _ _ hfy).shrink (fun v hv1 => List.mem_cons_of_mem _ hv1))

/-- The per-path and the shared cycle check return the same answer. -/
theorem FindCyclicDepsShared_agrees (s : Sheet) (bad : Position) (fuel : Nat)
    (V : List Position) (x : Position) (hnd : V.Nodup) (hsub : ∀ v ∈ V, v ∈ occupied s)
    (hlt : (occupied s).length < fuel + V.length) :
    ∃ b V1, FindCyclicDepsImpl s fuel V x bad = some b ∧
      FindCyclicDepsShared s fuel V x bad = some (b, V1) := by
  obtain ⟨b, hb⟩ := FindCyclicDepsImpl_total s bad fuel V x hnd hsub hlt
  obtain ⟨b1, V1, hr, -, -, -, ht, hfl⟩ := FindCyclicDepsShared_spec s bad fuel V x hnd hsub hlt
  refine ⟨b, V1, hb, ?_⟩
  rw [hr]
  have : b1 = b := by
    cases b1 with
    | true =>
      have := FindCyclicDepsImpl_complete s bad fuel V x hnd hsub hlt (ht rfl)
      rw [hb] at this
      exact (Option.some.inj this).symm
    | false =>
      cases b with
      | false => rfl
      | true =>
        obtain ⟨h1, h2, h3⟩ := hfl rfl
        exact absurd (FindCyclicDepsImpl_sound_avoid s bad fuel V x hb)
          (SharedSpec.refutes h1 h2 h3)
  rw [this]

/-- The check of `SetCell` gives the same answer with one visited set for all the children. -/
theorem FindCyclicDepsSharedAll_eq (s : Sheet) (pos : Position) (cell : Cell) :
    FindCyclicDepsSharedAll s pos cell = FindCyclicDeps s pos cell := by
  unfold FindCyclicDepsSharedAll
  by_cases h0 : cell.children_ = []
  · rw [if_pos h0]
    unfold FindCyclicDeps
    rw [if_pos h0]
  · rw [if_neg h0]
    obtain ⟨b, V1, hr, -, -, -, ht, hfl⟩ :=
      anyChildShared_spec s pos
        (fun visited p => FindCyclicDepsShared s ((occupied s).length + 1) visited p pos) []
        (fun W c _ hWnd hWocc =>
          FindCyclicDepsShared_spec s pos _ W c hWnd hWocc (by omega))
        cell.children_ [] (fun _ h => h) List.nodup_nil (fun _ h => by cases h)
    rw [hr]
    obtain ⟨b1, hb1⟩ := FindCyclicDeps_total s pos cell
    rw [hb1]
    simp only [Option.map_some', Option.some.injEq]
    cases b with
    | true =>
      obtain ⟨c, hc, hp⟩ := ht rfl
      have : FindCyclicDeps s pos cell = some true := by
        unfold FindCyclicDeps
        rw [if_neg h0]
        apply anyChild_complete
        · intro z _
          exact FindCyclicDepsImpl_total s pos _ [] z List.nodup_nil (by simp) (by simp)
        · exact ⟨c, hc, FindCyclicDepsImpl_complete s pos _ [] c List.nodup_nil (by simp)
            (by simp) hp⟩
      rw [hb1] at this
      exact (Option.some.inj this).symm
    | false =>
      cases b1 with
      | false => rfl
      | true =>
        exfalso
        obtain ⟨hall, hcl⟩ := hfl rfl
        unfold FindCyclicDeps at hb1
        rw [if_neg h0] at hb1
        obtain ⟨c, hc, hfc⟩ := anyChild_true hb1
        obtain ⟨h1, h2⟩ := hall c hc
        exact SharedSpec.refutes h1 h2 hcl (FindCyclicDepsImpl_sound_avoid s pos _ [] c hfc)

/-! ## What exactly the invalidation traversal changes -/

theorem list_ext_getD {α : Type} (d : α) (l1 l2 : List α) (hlen : l1.length = l2.length)
    (h : ∀ i, l1.getD i d = l2.getD i d) : l1 = l2 := by
  apply List.ext_getElem hlen
  intro i h1 h2
  have := h i
  rw [List.getD_eq_getElem _ _ h1, List.getD_eq_getElem _ _ h2] at this
  exact this

/-- Two sheets with the same counters, the same shape and the same cell in every slot are the
same sheet. -/
theorem Sheet.ext_slots (s1 s2 : Sheet) (hr : s1.row_cells_count_ = s2.row_cells_count_)
    (hc : s1.col_cells_count_ = s2.col_cells_count_)
    (hh : s1.cells_.length = s2.cells_.length)
    (hw : ∀ r, (s1.rowAt r).length = (s2.rowAt r).length)
    (hs : ∀ q, GetConcreteCell s1 q = GetConcreteCell s2 q) : s1 = s2 := by
  have hcells : s1.cells_ = s2.cells_ := by
    apply list_ext_getD [] _ _ hh
    intro r
    apply list_ext_getD none _ _ (hw r)
    intro c
    have := hs ⟨r, c⟩
    rw [GetConcreteCell_eq, GetConcreteCell_eq] at this
    exact this
  cases s1
  cases s2
  simp only at hr hc hcells
  rw [hr, hc, hcells]

theorem Cell.InvalidateCache_idem (c : Cell) :
    c.InvalidateCache.InvalidateCache = c.InvalidateCache := rfl

theorem map_InvalidateCache_idem (o : Option Cell) :
    (o.map Cell.InvalidateCache).map Cell.InvalidateCache = o.map Cell.InvalidateCache := by
  cases o <;> rfl

theorem deref_self (pos : Position) (st : Sheet × Cell) : deref pos st pos = some st.2 := by
  unfold Spreadsheet.deref
  rw [if_pos rfl]

theorem deref_ne (pos : Position) (st : Sheet × Cell) {q : Position} (h : q ≠ pos) :
    deref pos st q = GetConcreteCell st.1 q := by
  unfold Spreadsheet.deref
  rw [if_neg h]

theorem ClearedExactly.idle (pos : Position) (st : Sheet × Cell) :
    ClearedExactly pos (fun _ => False) st st :=
  ⟨rfl, rfl, rfl, fun _ => rfl, rfl, fun _ h => h.elim, fun _ _ => rfl⟩

/-- The set may be changed at positions that hold no cell. -/
theorem ClearedExactly.congr {pos : Position} {R R1 : Position → Prop} {st st1 : Sheet × Cell}
    (h : ClearedExactly pos R st st1)
    (hR : ∀ q, (deref pos st q).isSome = true → (R q ↔ R1 q)) :
    ClearedExactly pos R1 st st1 := by
  have hnone : ∀ q, deref pos st q = none → deref pos st1 q = none := by
    intro q hq
    by_cases hq1 : R q
    · rw [h.hit q hq1, hq]; rfl
    · rw [h.miss q hq1, hq]
  refine ⟨h.rows, h.cols, h.height, h.width, h.slot, fun q hq => ?_, fun q hq => ?_⟩
  · cases hd : deref pos st q with
    | none => rw [hnone q hd]; rfl
    | some c =>
      rw [← hd]
      exact h.hit q ((hR q (by rw [hd]; rfl)).2 hq)
  · cases hd : deref pos st q with
    | none => rw [hnone q hd]
    | some c =>
      rw [← hd]
      exact h.miss q (fun hq1 => hq ((hR q (by rw [hd]; rfl)).1 hq1))

theorem ClearedExactly.union {pos : Position} {R R1 : Position → Prop}
    {st st1 st2 : Sheet × Cell} (h1 : ClearedExactly pos R st st1)
    (h2 : ClearedExactly pos R1 st1 st2) :
    ClearedExactly pos (fun q => R q ∨ R1 q) st st2 := by
  refine ⟨h2.rows.trans h1.rows, h2.cols.trans h1.cols, h2.height.trans h1.height,
    fun r => (h2.width r).trans (h1.width r), h2.slot.trans h1.slot, fun q hq => ?_,
    fun q hq => ?_⟩
  · by_cases hq1 : R1 q
    · rw [h2.hit q hq1]
      by_cases hq0 : R q
      · rw [h1.hit q hq0, map_InvalidateCache_idem]
      · rw [h1.miss q hq0]
    · rw [h2.miss q hq1]
      exact h1.hit q (hq.resolve_right hq1)
  · rw [h2.miss q (fun h => hq (Or.inr h)), h1.miss q (fun h => hq (Or.inl h))]

theorem ClearedExactly.graph {pos : Position} {R : Position → Prop} {st st1 : Sheet × Cell}
    (h : ClearedExactly pos R st st1) : SameGraph pos st st1 := by
  intro q
  by_cases hq : R q
  · rw [h.hit q hq, map_InvalidateCache_idem]
  · rw [h.miss q hq]

/-- Two states that arise from one by emptying the caches of the same cells are equal. -/
theorem ClearedExactly.unique {pos : Position} {R : Position → Prop} {st st1 st2 : Sheet × Cell}
    (h1 : ClearedExactly pos R st st1) (h2 : ClearedExactly pos R st st2) : st1 = st2 := by
  have hd : ∀ q, deref pos st1 q = deref pos st2 q := by
    intro q
    by_cases hq : R q
    · rw [h1.hit q hq, h2.hit q hq]
    · rw [h1.miss q hq, h2.miss q hq]
  have hcell : st1.2 = st2.2 := by
    have := hd pos
    rw [deref_self, deref_self] at this
    exact Option.some.inj this
  have hsheet : st1.1 = st2.1 := by
    apply Sheet.ext_slots _ _ (h1.rows.trans h2.rows.symm) (h1.cols.trans h2.cols.symm)
      (h1.height.trans h2.height.symm) (fun r => (h1.width r).trans (h2.width r).symm)
    intro q
    by_cases hq : q = pos
    · rw [hq, h1.slot, h2.slot]
    · have := hd q
      rw [deref_ne pos st1 hq, deref_ne pos st2 hq] at this
      exact this
  exact Prod.ext hsheet hcell

theorem SameGraph.itself (pos : Position) (st : Sheet × Cell) : SameGraph pos st st := fun _ => rfl

theorem SameGraph.chain {pos : Position} {st0 st st1 : Sheet × Cell}
    (h1 : SameGraph pos st0 st) (h2 : SameGraph pos st st1) : SameGraph pos st0 st1 :=
  fun q => (h2 q).trans (h1 q)

theorem SameGraph.occupied_eq {pos : Position} {st0 st : Sheet × Cell} (h : SameGraph pos st0 st)
    (q : Position) : (deref pos st q).isSome = (deref pos st0 q).isSome := by
  have := congrArg Option.isSome (h q)
  simp only [Option.isSome_map'] at this
  exact this

theorem SameGraph.none_iff {pos : Position} {st0 st : Sheet × Cell} (h : SameGraph pos st0 st)
    (q : Position) : deref pos st q = none ↔ deref pos st0 q = none := by
  have := h.occupied_eq q
  cases h1 : deref pos st q <;> cases h0 : deref pos st0 q <;> simp_all

theorem SameGraph.parents {pos : Position} {st0 st : Sheet × Cell} (h : SameGraph pos st0 st)
    {q : Position} {c : Cell} (hc : deref pos st q = some c) :
    ∃ c0, deref pos st0 q = some c0 ∧ c0.parents_ = c.parents_ := by
  have := h q
  rw [hc] at this
  cases h0 : deref pos st0 q with
  | none => rw [h0] at this; cases this
  | some c0 =>
    rw [h0] at this
    simp only [Option.map_some', Option.some.injEq] at this
    exact ⟨c0, rfl, (congrArg Cell.parents_ this).symm⟩

theorem SameGraph.edge_iff {pos : Position} {st0 st : Sheet × Cell} (h : SameGraph pos st0 st)
    (a b : Position) : OverlayParent pos st a b ↔ OverlayParent pos st0 a b := by
  constructor
  · rintro ⟨c, hc, hb⟩
    obtain ⟨c0, hc0, hp⟩ := h.parents hc
    exact ⟨c0, hc0, hp ▸ hb⟩
  · rintro ⟨c0, hc0, hb⟩
    have h' : SameGraph pos st st0 := fun q => (h q).symm
    obtain ⟨c, hc, hp⟩ := h'.parents hc0
    exact ⟨c, hc, hp ▸ hb⟩

theorem ClearedExactly.at_one (pos : Position) (st : Sheet × Cell) (x : Position) :
    ClearedExactly pos (fun q => q = x) st (invalidateAt pos st x) := by
  unfold Spreadsheet.invalidateAt
  by_cases hx : x = pos
  · rw [if_pos hx]
    refine ⟨rfl, rfl, rfl, fun _ => rfl, rfl, fun q hq => ?_, fun q hq => ?_⟩
    · rw [hq, hx, deref_self, deref_self]
      rfl
    · have hqp : q ≠ pos := fun h => hq (h.trans hx.symm)
      rw [deref_ne pos _ hqp, deref_ne pos _ hqp]
  · rw [if_neg hx]
    cases hc : GetConcreteCell st.1 x with
    | none =>
      simp only
      refine ⟨rfl, rfl, rfl, fun _ => rfl, rfl, fun q hq => ?_, fun q hq => rfl⟩
      rw [hq, deref_ne pos _ hx, hc]
      rfl
    | some c =>
      simp only
      refine ⟨rfl, rfl, ?_, fun r => rowAt_setSlot_length _ _ _ r, ?_, fun q hq => ?_,
        fun q hq => ?_⟩
      · unfold Sheet.setSlot
        simp only [List.length_set]
      · rw [GetConcreteCell_setSlot, if_neg (fun h => hx h.symm)]
      · rw [hq, deref_ne pos _ hx, deref_ne pos _ hx]
        simp only
        rw [GetConcreteCell_setSlot, if_pos rfl, if_pos (CheckSize_of_some hc), hc]
        rfl
      · by_cases hqp : q = pos
        · rw [hqp, deref_self, deref_self]
        · rw [deref_ne pos _ hqp, deref_ne pos _ hqp]
          simp only
          rw [GetConcreteCell_setSlot, if_neg hq]

/-! ## The per-path invalidation empties exactly the caches of the ancestors -/

theorem AncPath.subset {E : Position → Position → Prop} {V V1 : List Position} {x y : Position}
    (h : AncPath E V1 x y) (hsub : ∀ v ∈ V, v ∈ V1) : AncPath E V x y := by
  induction h with
  | here hx => exact .here (fun hm => hx (hsub _ hm))
  | step hx he _ ih => exact .step (fun hm => hx (hsub _ hm)) he ih

theorem AncPath.transfer {pos : Position} {st0 st : Sheet × Cell} (h : SameGraph pos st0 st)
    (V : List Position) (x y : Position) :
    AncPath (OverlayParent pos st) V x y ↔ AncPath (OverlayParent pos st0) V x y :=
  ⟨fun hp => hp.mono (fun a b => (h.edge_iff a b).1),
    fun hp => hp.mono (fun a b => (h.edge_iff a b).2)⟩

/-- The ancestors of `x` outside `V` are `x` and the ancestors of its parents outside
`x :: V`. -/
theorem AncPath.unfold_iff {pos : Position} {st : Sheet × Cell} {V : List Position}
    {x : Position} {c : Cell} (hv : x ∉ V) (hc : deref pos st x = some c) (q : Position) :
    (q = x ∨ ∃ p ∈ c.parents_, AncPath (OverlayParent pos st) (x :: V) p q) ↔
      AncPath (OverlayParent pos st) V x q := by
  constructor
  · rintro (rfl | ⟨p, hp, hpath⟩)
    · exact .here hv
    · exact .step hv ⟨c, hc, hp⟩ (hpath.subset (fun v hv1 => List.mem_cons_of_mem _ hv1))
  · intro hy
    cases hy with
    | here _ => exact Or.inl rfl
    | @step _ p _ _ he hrest =>
      have hmem : ∀ r, OverlayParent pos st x r → r ∈ c.parents_ := by
        rintro r ⟨c2, hc2, hr⟩
        rw [hc] at hc2
        cases hc2
        exact hr
      rcases hrest.split_parent x with h2 | h2 | ⟨r, hr, h2⟩
      · exact Or.inr ⟨p, hmem p he, h2⟩
      · exact Or.inl h2
      · exact Or.inr ⟨r, hmem r hr, h2⟩

/-- The loop over the parents when every call empties exactly the caches of a set given in terms
of a state `st0` with the same graph. -/
theorem forEachParent_exact (pos : Position)
    (f : Sheet × Cell → Position → Option (Sheet × Cell)) (st0 : Sheet × Cell)
    (Rf : Position → Position → Prop)
    (hf : ∀ st p st1, SameGraph pos st0 st → f st p = some st1 →
      ClearedExactly pos (Rf p) st st1) :
    ∀ (l : List Position) (st st1 : Sheet × Cell), SameGraph pos st0 st →
      forEachParent f l st = some st1 →
      ClearedExactly pos (fun q => ∃ p ∈ l, Rf p q) st st1 := by
  intro l
  induction l with
  | nil =>
    intro st st1 _ h
    unfold forEachParent at h
    cases h
    exact (ClearedExactly.idle pos st).congr (fun q _ => by simp)
  | cons a rest ih =>
    intro st st1 hst h
    unfold forEachParent at h
    cases ha : f st a with
    | none => rw [ha] at h; cases h
    | some st2 =>
      rw [ha] at h
      simp only at h
      have h1 := hf st a st2 hst ha
      have h2 := ih st2 st1 (hst.chain h1.graph) h
      exact (h1.union h2).congr (fun q _ => by simp)

theorem InvalidateCacheImpl_exact (pos : Position) :
    ∀ (fuel : Nat) (st : Sheet × Cell) (x : Position) (V : List Position) (st1 : Sheet × Cell),
      InvalidateCacheImpl pos fuel st x V = some st1 →
      ClearedExactly pos (fun q => AncPath (OverlayParent pos st) V x q) st st1 := by
  intro fuel
  induction fuel with
  | zero => intro st x V st1 h; simp [InvalidateCacheImpl] at h
  | succ n ih =>
    intro st x V st1 h
    unfold InvalidateCacheImpl at h
    by_cases hv : x ∈ V
    · rw [if_pos hv] at h
      cases h
      apply (ClearedExactly.idle pos st).congr
      intro q _
      constructor
      · exact fun hf => hf.elim
      · intro hp
        cases hp with
        | here hx => exact hx hv
        | step hx _ _ => exact hx hv
    · rw [if_neg hv] at h
      cases hc : deref pos st x with
      | none =>
        rw [hc] at h
        cases h
        apply (ClearedExactly.idle pos st).congr
        intro q hq
        constructor
        · exact fun hf => hf.elim
        · intro hp
          cases hp with
          | here _ => rw [hc] at hq; cases hq
          | step _ he _ =>
            obtain ⟨c, hc1, -⟩ := he
            rw [hc] at hc1
            cases hc1
      | some c =>
        rw [hc] at h
        simp only at h
        have h0 := ClearedExactly.at_one pos st x
        have h1 := forEachParent_exact pos
          (fun st1 parent_cell => InvalidateCacheImpl pos n st1 parent_cell (x :: V)) st
          (fun p q => AncPath (OverlayParent pos st) (x :: V) p q)
          (fun st2 p st3 hst2 hcall =>
            (ih st2 p (x :: V) st3 hcall).congr
              (fun q _ => AncPath.transfer hst2 (x :: V) p q))
          c.parents_ (invalidateAt pos st x) st1 h0.graph h
        exact (h0.union h1).congr (fun q _ => AncPath.unfold_iff hv hc q)

/-- The per-path traversal of `InvalidateCache` empties the cache of the new cell and of exactly
the cells reached from its parents through parent edges. -/
theorem InvalidateCache_exact (pos : Position) (st st1 : Sheet × Cell)
    (h : InvalidateCache pos st = some st1) :
    ClearedExactly pos
      (fun q => q = pos ∨ ∃ p ∈ st.2.parents_, AncPath (OverlayParent pos st) [] p q) st st1 := by
  unfold InvalidateCache at h
  simp only at h
  have h0 : ClearedExactly pos (fun q => q = pos) st (st.1, st.2.InvalidateCache) := by
    have := ClearedExactly.at_one pos st pos
    unfold Spreadsheet.invalidateAt at this
    rw [if_pos rfl] at this
    exact this
  have h1 := forEachParent_exact pos
    (fun st2 parent_cell =>
      InvalidateCacheImpl pos ((occupied st.1).length + 2) st2 parent_cell []) st
    (fun p q => AncPath (OverlayParent pos st) [] p q)
    (fun st2 p st3 hst2 hcall =>
      (InvalidateCacheImpl_exact pos _ st2 p [] st3 hcall).congr
        (fun q _ => AncPath.transfer hst2 [] p q))
    st.2.InvalidateCache.parents_ (st.1, st.2.InvalidateCache) st1 h0.graph h
  exact h0.union h1

/-! ## The invalidation with a shared visited set -/

theorem SharedClears.start (pos : Position) (st0 : Sheet × Cell) (nodes V : List Position)
    (st : Sheet × Cell) (hnd : V.Nodup) (hk : ∀ v ∈ V, v ∈ nodes) :
    SharedClears pos st0 nodes V st st V :=
  ⟨fun _ h => h, hnd, hk,
    (ClearedExactly.idle pos st).congr (fun _ _ => ⟨fun h => h.elim, fun h => h.2 h.1⟩),
    fun _ hz hnz => absurd hz hnz, fun _ hz hnz => absurd hz hnz⟩

theorem SharedClears.extend {pos : Position} {st0 : Sheet × Cell} {nodes V V1 V2 : List Position}
    {st st1 st2 : Sheet × Cell} (h1 : SharedClears pos st0 nodes V st st1 V1)
    (h2 : SharedClears pos st0 nodes V1 st1 st2 V2) :
    SharedClears pos st0 nodes V st st2 V2 := by
  refine ⟨fun v hv => h2.grows v (h1.grows v hv), h2.nodup, h2.known, ?_, ?_, ?_⟩
  · apply (h1.clears.union h2.clears).congr
    intro q _
    constructor
    · rintro (⟨hq1, hq0⟩ | ⟨hq2, hq1⟩)
      · exact ⟨h2.grows q hq1, hq0⟩
      · exact ⟨hq2, fun hq0 => hq1 (h1.grows q hq0)⟩
    · rintro ⟨hq2, hq0⟩
      by_cases hq1 : q ∈ V1
      · exact Or.inl ⟨hq1, hq0⟩
      · exact Or.inr ⟨hq2, hq1⟩
  · intro z hz hnz p hp
    by_cases hz1 : z ∈ V1
    · exact (h1.closed z hz1 hnz p hp).imp (h2.grows p) id
    · exact h2.closed z hz hz1 p hp
  · intro z hz hnz
    by_cases hz1 : z ∈ V1
    · exact h1.occupied z hz1 hnz
    · exact h2.occupied z hz hz1

/-- Every cell reached from a visited or absent position through parent edges outside `V` is a new
member of the set. -/
theorem SharedClears.reaches {pos : Position} {st0 : Sheet × Cell} {nodes V V1 : List Position}
    {st st1 : Sheet × Cell} (h : SharedClears pos st0 nodes V st st1 V1) {z y : Position}
    (hp : AncPath (OverlayParent pos st0) V z y) :
    (z ∈ V1 ∨ deref pos st0 z = none) → (deref pos st0 y).isSome = true → y ∈ V1 ∧ y ∉ V := by
  induction hp with
  | @here u hu =>
    intro hz hy
    rcases hz with hz | hz
    · exact ⟨hz, hu⟩
    · rw [hz] at hy; cases hy
  | @step u p w hu he _ ih =>
    intro hz hy
    have hu1 : u ∈ V1 := by
      rcases hz with hz | hz
      · exact hz
      · obtain ⟨c, hc, -⟩ := he
        rw [hz] at hc
        cases hc
    exact ih (h.closed u hu1 hu p he) hy

/-- The loop over the parents with a shared set, given that every call meets its
specification. -/
theorem forEachParent_shared (pos : Position) (st0 : Sheet × Cell) (nodes Vb : List Position)
    (f : (Sheet × Cell) × List Position → Position → Option ((Sheet × Cell) × List Position))
    (hf : ∀ st V p, SameGraph pos st0 st → (∀ v ∈ Vb, v ∈ V) → V.Nodup → (∀ v ∈ V, v ∈ nodes) →
      ∃ st1 V1, f (st, V) p = some (st1, V1) ∧ SharedClears pos st0 nodes V st st1 V1 ∧
        (p ∈ V1 ∨ deref pos st0 p = none) ∧
        ∀ z ∈ V1, z ∉ V → AncPath (OverlayParent pos st0) V p z) :
    ∀ (l : List Position) (st : Sheet × Cell) (V : List Position), SameGraph pos st0 st →
      (∀ v ∈ Vb, v ∈ V) → V.Nodup → (∀ v ∈ V, v ∈ nodes) →
      ∃ st1 V1, forEachParent f l (st, V) = some (st1, V1) ∧
        SharedClears pos st0 nodes V st st1 V1 ∧
        (∀ p ∈ l, p ∈ V1 ∨ deref pos st0 p = none) ∧
        ∀ z ∈ V1, z ∉ V → ∃ p ∈ l, AncPath (OverlayParent pos st0) V p z := by
  intro l
  induction l with
  | nil =>
    intro st V _ _ hnd hk
    exact ⟨st, V, rfl, SharedClears.start pos st0 nodes V st hnd hk,
      (fun p hp => by cases hp), fun z hz hnz => absurd hz hnz⟩
  | cons a rest ih =>
    intro st V hst hb hnd hk
    obtain ⟨st1, V1, hr, hs1, ha, hsound⟩ := hf st V a hst hb hnd hk
    obtain ⟨st2, V2, hr2, hs2, hall, hsound2⟩ :=
      ih st1 V1 (hst.chain hs1.clears.graph) (fun v hv => hs1.grows v (hb v hv))
        hs1.nodup hs1.known
    refine ⟨st2, V2, ?_, hs1.extend hs2, ?_, ?_⟩
    · unfold forEachParent
      rw [hr]
      exact hr2
    · intro p hp
      rcases List.mem_cons.1 hp with rfl | hp1
      · exact ha.imp (hs2.grows p) id
      · exact hall p hp1
    · intro z hz hnz
      by_cases hz1 : z ∈ V1
      · exact ⟨a, List.mem_cons_self _ _, hsound z hz1 hnz⟩
      · obtain ⟨p, hp, hpath⟩ := hsound2 z hz hz1
        exact ⟨p, List.mem_cons_of_mem _ hp, hpath.subset hs1.grows⟩

/-- The shared invalidation returns, and meets its specification, whenever the fuel exceeds the
number of cells not yet visited. -/
theorem InvalidateCacheShared_spec (pos : Position) (st0 : Sheet × Cell) (nodes : List Position)
    (hnodes : ∀ q, (deref pos st0 q).isSome = true → q ∈ nodes) :
    ∀ (fuel : Nat) (st : Sheet × Cell) (V : List Position) (x : Position),
      SameGraph pos st0 st → V.Nodup → (∀ v ∈ V, v ∈ nodes) → nodes.length < fuel + V.length →
      ∃ st1 V1, InvalidateCacheShared pos fuel (st, V) x = some (st1, V1) ∧
        SharedClears pos st0 nodes V st st1 V1 ∧
        (x ∈ V1 ∨ deref pos st0 x = none) ∧
        ∀ z ∈ V1, z ∉ V → AncPath (OverlayParent pos st0) V x z := by
  intro fuel
  induction fuel with
  | zero =>
    intro st V x _ hnd hsub hlt
    exfalso
    have := (List.subperm_of_subset hnd hsub).length_le
    omega
  | succ n ih =>
    intro st V x hst hnd hsub hlt
    unfold InvalidateCacheShared
    simp only
    by_cases hv : x ∈ V
    · rw [if_pos hv]
      exact ⟨st, V, rfl, SharedClears.start pos st0 nodes V st hnd hsub, Or.inl hv,
        fun z hz hnz => absurd hz hnz⟩
    · rw [if_neg hv]
      cases hc : deref pos st x with
      | none =>
        exact ⟨st, V, rfl, SharedClears.start pos st0 nodes V st hnd hsub,
          Or.inr ((hst.none_iff x).1 hc), fun z hz hnz => absurd hz hnz⟩
      | some c =>
        simp only
        have h0 := ClearedExactly.at_one pos st x
        have hx0 : (deref pos st0 x).isSome = true := by
          rw [← hst.occupied_eq x, hc]; rfl
        have hnd1 : (x :: V).Nodup := List.nodup_cons.2 ⟨hv, hnd⟩
        have hsub1 : ∀ v ∈ x :: V, v ∈ nodes := by
          intro v hv1
          rcases List.mem_cons.1 hv1 with rfl | h1
          · exact hnodes _ hx0
          · exact hsub v h1
        obtain ⟨st1, V1, hr, hs, hall, hsound⟩ :=
          forEachParent_shared pos st0 nodes (x :: V)
            (fun acc1 parent_cell => InvalidateCacheShared pos n acc1 parent_cell)
            (fun st2 W p hst2 hW hWnd hWk => ih st2 W p hst2 hWnd hWk (by
              have := (List.subperm_of_subset hnd1 hW).length_le
              simp only [List.length_cons] at this
              omega))
            c.parents_ (invalidateAt pos st x) (x :: V) (hst.chain h0.graph)
            (fun _ h => h) hnd1 hsub1
        have hx1 : x ∈ V1 := hs.grows x (List.mem_cons_self _ _)
        have hne : ∀ z, z ∉ V → z ≠ x → z ∉ x :: V := by
          intro z hnz hzx hm
          rcases List.mem_cons.1 hm with h1 | h1
          · exact hzx h1
          · exact hnz h1
        obtain ⟨c0, hc0, hpar⟩ := hst.parents hc
        refine ⟨st1, V1, hr, ⟨fun v hv1 => hs.grows v (List.mem_cons_of_mem _ hv1), hs.nodup,
          hs.known, ?_, ?_, ?_⟩, Or.inl hx1, ?_⟩
        · apply (h0.union hs.clears).congr
          intro q _
          constructor
          · rintro (rfl | ⟨hq1, hq0⟩)
            · exact ⟨hx1, hv⟩
            · exact ⟨hq1, fun hm => hq0 (List.mem_cons_of_mem _ hm)⟩
          · rintro ⟨hq1, hq0⟩
            by_cases hqx : q = x
            · exact Or.inl hqx
            · exact Or.inr ⟨hq1, hne q hq0 hqx⟩
        · intro z hz hnz p hp
          by_cases hzx : z = x
          · subst hzx
            obtain ⟨c1, hc1, hp1⟩ := hp
            rw [hc0] at hc1
            cases hc1
            exact hall p (hpar ▸ hp1)
          · exact hs.closed z hz (hne z hnz hzx) p hp
        · intro z hz hnz
          by_cases hzx : z = x
          · rw [hzx]; exact hx0
          · exact hs.occupied z hz (hne z hnz hzx)
        · intro z hz hnz
          by_cases hzx : z = x
          · rw [hzx]; exact .here hv
          · obtain ⟨p, hp, hpath⟩ := hsound z hz (hne z hnz hzx)
            exact .step hv ⟨c0, hc0, hpar ▸ hp⟩
              (hpath.subset (fun v hv1 => List.mem_cons_of_mem _ hv1))

/-! ## The per-path and the shared invalidation leave the same state -/

theorem deref_nodes (pos : Position) (st : Sheet × Cell) (q : Position)
    (h : (deref pos st q).isSome = true) : q ∈ pos :: occupied st.1 := by
  by_cases hqp : q = pos
  · rw [hqp]; exact List.mem_cons_self _ _
  · rw [deref_ne pos st hqp] at h
    exact List.mem_cons_of_mem _ ((mem_occupied _ _).2 h)

/-- A call of `InvalidateCacheImpl` and the call with a shared visited set return, and leave the
same sheet and the same new cell. -/
theorem InvalidateCacheShared_agrees (pos : Position) (nodes : List Position) (fuel : Nat)
    (st : Sheet × Cell) (V : List Position) (x : Position) (hnd : V.Nodup)
    (hsub : ∀ v ∈ V, v ∈ nodes) (hnodes : ∀ q, (deref pos st q).isSome = true → q ∈ nodes)
    (hlt : nodes.length < fuel + V.length) :
    ∃ st1 V1, InvalidateCacheImpl pos fuel st x V = some st1 ∧
      InvalidateCacheShared pos fuel (st, V) x = some (st1, V1) := by
  obtain ⟨stp, hp, -, -⟩ := InvalidateCacheImpl_spec pos nodes fuel st x V hnd hsub hnodes hlt
  obtain ⟨sts, V1, hs, hcl, hx, hsound⟩ :=
    InvalidateCacheShared_spec pos st nodes hnodes fuel st V x (SameGraph.itself pos st) hnd hsub hlt
  have h1 := InvalidateCacheImpl_exact pos fuel st x V stp hp
  have h2 : ClearedExactly pos (fun q => AncPath (OverlayParent pos st) V x q) st sts := by
    apply hcl.clears.congr
    intro q hq
    constructor
    · rintro ⟨hq1, hq0⟩
      exact hsound q hq1 hq0
    · intro hpath
      exact hcl.reaches hpath hx hq
  have := h1.unique h2
  subst this
  exact ⟨stp, V1, hp, hs⟩

/-- The traversal of `SetCell` leaves the same state with one visited set for all the parents of
the new cell. -/
theorem InvalidateCacheSharedAll_eq (pos : Position) (st : Sheet × Cell) :
    InvalidateCacheSharedAll pos st = InvalidateCache pos st := by
  obtain ⟨stp, hp, -⟩ := InvalidateCache_spec pos st
  have h1 := InvalidateCache_exact pos st stp hp
  have h0 : ClearedExactly pos (fun q => q = pos) st (st.1, st.2.InvalidateCache) := by
    have := ClearedExactly.at_one pos st pos
    unfold Spreadsheet.invalidateAt at this
    rw [if_pos rfl] at this
    exact this
  have hnodes : ∀ q, (deref pos (st.1, st.2.InvalidateCache) q).isSome = true →
      q ∈ pos :: occupied st.1 := fun q hq => deref_nodes pos (st.1, st.2.InvalidateCache) q hq
  obtain ⟨sts, V1, hs, hcl, hall, hsound⟩ :=
    forEachParent_shared pos (st.1, st.2.InvalidateCache) (pos :: occupied st.1) []
      (fun acc parent_cell =>
        InvalidateCacheShared pos ((occupied st.1).length + 2) acc parent_cell)
      (fun st2 W p hst2 _ hWnd hWk =>
        InvalidateCacheShared_spec pos (st.1, st.2.InvalidateCache) (pos :: occupied st.1) hnodes
          _ st2 W p hst2 hWnd hWk (by simp only [List.length_cons]; omega))
      st.2.InvalidateCache.parents_ (st.1, st.2.InvalidateCache) []
      (SameGraph.itself pos _) (fun _ h => h) List.nodup_nil (fun _ h => by cases h)
  have h2 : ClearedExactly pos
      (fun q => q = pos ∨ ∃ p ∈ st.2.parents_, AncPath (OverlayParent pos st) [] p q)
      st sts := by
    apply (h0.union hcl.clears).congr
    intro q hq
    have hq' : (deref pos (st.1, st.2.InvalidateCache) q).isSome = true := by
      rw [h0.graph.occupied_eq q]; exact hq
    constructor
    · rintro (h | ⟨hq1, hq0⟩)
      · exact Or.inl h
      · obtain ⟨p, hpm, hpath⟩ := hsound q hq1 hq0
        exact Or.inr ⟨p, hpm, (AncPath.transfer h0.graph [] p q).1 hpath⟩
    · rintro (h | ⟨p, hpm, hpath⟩)
      · exact Or.inl h
      · exact Or.inr (hcl.reaches ((AncPath.transfer h0.graph [] p q).2 hpath)
          (hall p hpm) hq')
  have := h1.unique h2
  subst this
  unfold InvalidateCacheSharedAll
  simp only
  rw [hs, hp]
  rfl

/-! ## The loops of `PrintCells` -/

/-- The slots after the course `SetCell_stale` describes: the slot of `pos` keeps the old cell,
without its parents, and every other slot is as the wiring and the invalidation left it. -/
theorem GetConcreteCell_stale (pos : Position) (test : Bool) (st : Sheet × Cell) (x : Position) :
    GetConcreteCell (SetCell_stale pos test st) x =
      if x = pos then (GetConcreteCell st.1 pos).map (fun c => c.SetParents [])
      else GetConcreteCell st.1 x := by
  have h1 : ∀ t : Sheet, GetConcreteCell
      (if test = true then
        { t with row_cells_count_ := CountMap.increment t.row_cells_count_ pos.row,
                 col_cells_count_ := CountMap.increment t.col_cells_count_ pos.col }
       else t) x = GetConcreteCell t x := by
    intro t
    split <;> rfl
  unfold SetCell_stale
  simp only
  rw [h1]
  cases hc : GetConcreteCell st.1 pos with
  | none =>
    simp only [Option.map_none']
    by_cases hx : x = pos
    · rw [if_pos hx, hx, hc]
    · rw [if_neg hx]
  | some oc =>
    simp only [Option.map_some']
    rw [GetConcreteCell_setSlot]
    by_cases hx : x = pos
    · rw [if_pos hx, if_pos hx, if_pos (CheckSize_of_some hc)]
    · rw [if_neg hx, if_neg hx]

/-- The ways into `SetCell_goesOn`. -/
theorem SetCell_goesOn_inv (L : Library) (s : Sheet) (pos : Position) (text : String)
    (test : Bool) (s1 : Sheet) (h : SetCell_goesOn L s pos text test = some s1) :
    ∃ new_cell st, pos.IsValid = true ∧ Cell.make L text = some new_cell ∧
      FindCyclicDeps s pos new_cell = some false ∧ slotRefLive s pos new_cell = false ∧
      InvalidateCache pos (SetCell_wired s pos new_cell) = some st ∧
      s1 = SetCell_stale pos test st ∧ SetCell L s pos text = .undefined := by
  unfold SetCell_goesOn at h
  cases hv : pos.IsValid with
  | false =>
    rw [CheckPosition_invalid hv] at h
    cases h
  | true =>
    rw [CheckPosition_valid hv] at h
    cases hm : Cell.make L text with
    | none => rw [hm] at h; cases h
    | some nc =>
      rw [hm] at h
      simp only at h
      cases hf : FindCyclicDeps s pos nc with
      | none => rw [hf] at h; cases h
      | some b =>
        cases b with
        | true => rw [hf] at h; cases h
        | false =>
          rw [hf] at h
          simp only at h
          cases hl : slotRefLive s pos nc with
          | true => rw [hl] at h; simp at h
          | false =>
            rw [hl] at h
            simp only [Bool.false_eq_true, if_false] at h
            cases hi : InvalidateCache pos (SetCell_wired s pos nc) with
            | none => rw [hi] at h; cases h
            | some st =>
              rw [hi] at h
              simp only [Option.map_some', Option.some.injEq] at h
              refine ⟨nc, st, rfl, rfl, hf, hl, hi, h.symm, ?_⟩
              unfold SetCell SetCell_checked
              rw [CheckPosition_valid hv, hm]
              simp only
              rw [hf]
              simp only
              rw [hi]
              simp only
              rw [hl]
              rfl

/-- A call that resizes the row of its slot in place installs the new cell. -/
theorem SetCell_inPlace_installs (L : Library) (s : Sheet) (pos : Position) (text : String)
    (s1 : Sheet) (h : SetCell_inPlace L s pos text = some s1) : Installs L s pos text s1 := by
  unfold SetCell_inPlace at h
  cases hv : pos.IsValid with
  | false =>
    rw [CheckPosition_invalid hv] at h
    cases h
  | true =>
    rw [CheckPosition_valid hv] at h
    cases hm : Cell.make L text with
    | none => rw [hm] at h; cases h
    | some nc =>
      rw [hm] at h
      simp only at h
      cases hf : FindCyclicDeps s pos nc with
      | none => rw [hf] at h; cases h
      | some b =>
        cases b with
        | true => rw [hf] at h; cases h
        | false =>
          rw [hf] at h
          simp only at h
          cases hl : slotRefLive s pos nc with
          | true => rw [hl] at h; simp at h
          | false =>
            rw [hl] at h
            simp only [Bool.false_eq_true, if_false] at h
            cases hi : InvalidateCache pos (SetCell_wired s pos nc) with
            | none => rw [hi] at h; cases h
            | some st =>
              rw [hi] at h
              simp only [Option.map_some', Option.some.injEq] at h
              exact ⟨nc, st, hv, hm, hf, hi, h.symm⟩

/-- A call of `SetCell` whose behaviour is undefined has reached line 40, and a run can go on
from there. -/
theorem SetCell_undefined_goesOn (L : Library) (s : Sheet) (pos : Position) (text : String)
    (h : SetCell L s pos text = .undefined) (test : Bool) :
    ∃ s1, SetCell_goesOn L s pos text test = some s1 := by
  rcases SetCell_cases L s pos text with h1 | h1 | ⟨_, h1⟩ | ⟨_, _, h1⟩ | ⟨nc, h1⟩
  · rw [h1.2] at h; cases h
  · rw [h1.2.2] at h; cases h
  · rw [h1.2.2.2] at h; cases h
  · rw [h1.2.2.2.2.1] at h; cases h
  · obtain ⟨st, hst, -⟩ := InvalidateCache_spec pos (SetCell_wired s pos nc)
    refine ⟨SetCell_stale pos test st, ?_⟩
    unfold SetCell_goesOn
    rw [CheckPosition_valid h1.1, h1.2.1]
    simp only
    rw [h1.2.2.1]
    simp only
    rw [h1.2.2.2.2, hst]
    rfl

/-- Going on from the invalidated reference adds no child edge: the new cell is not installed. -/
theorem SetCell_goesOn_edge (L : Library) (s : Sheet) (pos : Position) (text : String)
    (test : Bool) (s1 : Sheet) (h : SetCell_goesOn L s pos text test = some s1)
    {a b : Position} (hab : Edge s1 a b) : Edge s a b := by
  obtain ⟨nc, st, -, -, -, -, hinv, rfl, -⟩ := SetCell_goesOn_inv L s pos text test s1 h
  obtain ⟨st1, h1, hu, -, -⟩ := InvalidateCache_spec pos (SetCell_wired s pos nc)
  rw [hinv] at h1
  cases h1
  have hmild : Mild s st.1 := (Mild.wired s pos nc).andThen hu.mild
  apply hmild.edge
  obtain ⟨c, hc, hb⟩ := hab
  rw [GetConcreteCell_stale] at hc
  by_cases ha : a = pos
  · rw [if_pos ha] at hc
    cases hold : GetConcreteCell st.1 pos with
    | none => rw [hold] at hc; cases hc
    | some oc =>
      rw [hold] at hc
      simp only [Option.map_some', Option.some.injEq] at hc
      subst hc
      exact ⟨oc, by rw [ha]; exact hold, hb⟩
  · rw [if_neg ha] at hc
    exact ⟨c, hc, hb⟩

/-- Going on from the invalidated reference creates no cycle. -/
theorem SetCell_goesOn_acyclic (L : Library) (s : Sheet) (pos : Position) (text : String)
    (test : Bool) (s1 : Sheet) (h : SetCell_goesOn L s pos text test = some s1)
    (hs : Acyclic s) : Acyclic s1 := by
  intro p hp
  apply hs p
  exact Relation.TransGen.mono (fun a b hab => SetCell_goesOn_edge L s pos text test s1 h hab) hp

/-! ## What holds in the sheets of runs that go on -/

theorem Reachable.attainable {L : Library} {s : Sheet} (h : Reachable L s) : Attainable L s := by
  induction h with
  | create => exact .create
  | setCell pos text _ hstep ih => exact .setCell pos text ih hstep
  | setCellRaised pos text e _ hstep ih => exact .setCellRaised pos text e ih hstep
  | clearCell pos _ hstep ih => exact .clearCell pos ih hstep
  | clearCellRaised pos e _ hstep ih => exact .clearCellRaised pos e ih hstep
  | getValue fuel pos v _ hstep ih => exact .getValue fuel pos v ih hstep

/-- No sheet a run can hold has a cycle of child edges. -/
theorem Attainable.no_cycle {L : Library} {s : Sheet} (h : Attainable L s) : Acyclic s := by
  induction h with
  | create => exact Acyclic_create
  | setCell pos text _ hstep ih => exact SetCell_acyclic L _ pos text _ hstep ih
  | setCellRaised pos text e _ hstep ih =>
    rw [SetCell_raised_same L _ pos text e _ hstep]; exact ih
  | inPlace pos text _ hstep ih => exact (SetCell_inPlace_installs L _ pos text _ hstep).keeps_acyclic ih
  | goesOn pos text test _ hstep ih => exact SetCell_goesOn_acyclic L _ pos text test _ hstep ih
  | clearCell pos _ hstep ih => exact ClearCell_acyclic _ pos _ hstep ih
  | clearCellRaised pos e _ hstep ih =>
    rw [ClearCell_raised_same _ pos e _ hstep]; exact ih
  | getValue fuel pos v _ hstep ih =>
    intro p hp
    apply ih p
    refine Relation.TransGen.mono ?_ hp
    intro a b hab
    exact (GetValue_upToCaches L fuel _ pos _ v hstep).mild.edge hab

theorem addedTo_content (pos : Position) (o : Option Cell) (cw : Cell)
    (h : addedTo pos o = some cw) :
    (cw.impl_ = .Empty ∧ cw.children_ = []) ∨
      ∃ c1, o = some c1 ∧ cw.impl_ = c1.impl_ ∧ cw.children_ = c1.children_ := by
  unfold addedTo at h
  cases o with
  | none =>
    cases h
    exact Or.inl ⟨rfl, rfl⟩
  | some c1 =>
    cases h
    exact Or.inr ⟨c1, rfl, rfl, rfl⟩

/-- A cell of the sheet `SetCell` has wired is a fresh Empty cell without children or has the
content and the children of the cell that was in its slot. -/
theorem wired_content (s : Sheet) (pos : Position) (nc : Cell) (x : Position) (cw : Cell)
    (h : GetConcreteCell (SetCell_wired s pos nc).1 x = some cw) :
    (cw.impl_ = .Empty ∧ cw.children_ = []) ∨
      ∃ c, GetConcreteCell s x = some c ∧ cw.impl_ = c.impl_ ∧ cw.children_ = c.children_ := by
  rw [GetConcreteCell_wired] at h
  simp only at h
  have key : ∀ o1 : Option Cell,
      (∀ c1, o1 = some c1 →
        ∃ c, GetConcreteCell s x = some c ∧ c1.impl_ = c.impl_ ∧ c1.children_ = c.children_) →
      (if x ∈ nc.children_ then addedTo pos o1 else o1) = some cw →
      (cw.impl_ = .Empty ∧ cw.children_ = []) ∨
        ∃ c, GetConcreteCell s x = some c ∧ cw.impl_ = c.impl_ ∧ cw.children_ = c.children_ := by
    intro o1 ho hw
    by_cases hA : x ∈ nc.children_
    · rw [if_pos hA] at hw
      rcases addedTo_content pos o1 cw hw with h1 | ⟨c1, hc1, hi, hca⟩
      · exact Or.inl h1
      · obtain ⟨c, hc, hi2, hca2⟩ := ho c1 hc1
        exact Or.inr ⟨c, hc, hi.trans hi2, hca.trans hca2⟩
    · rw [if_neg hA] at hw
      exact Or.inr (ho cw hw)
  cases hp : GetConcreteCell s pos with
  | none =>
    rw [hp] at h
    exact key _ (fun c1 hc1 => ⟨c1, hc1, rfl, rfl⟩) h
  | some oc =>
    rw [hp] at h
    simp only at h
    by_cases hx : x ∈ oc.children_
    · simp only [if_pos hx] at h
      refine key _ (fun c1 hc1 => ?_) h
      obtain ⟨c, hc, rfl⟩ := removedFrom_some hc1
      exact ⟨c, hc, rfl, rfl⟩
    · simp only [if_neg hx] at h
      exact key _ (fun c1 hc1 => ⟨c1, hc1, rfl, rfl⟩) h

/-- A cell of the sheet a run leaves that goes on: it has the content and the children of the
cell the wiring left in its slot, and the cache of that cell or none. -/
theorem SetCell_goesOn_cell (L : Library) (s : Sheet) (pos : Position) (text : String)
    (test : Bool) (s1 : Sheet) (h : SetCell_goesOn L s pos text test = some s1) :
    ∃ nc, Cell.make L text = some nc ∧
      ∀ x c1, GetConcreteCell s1 x = some c1 →
        ∃ cw, GetConcreteCell (SetCell_wired s pos nc).1 x = some cw ∧ c1.impl_ = cw.impl_ ∧
          c1.children_ = cw.children_ ∧ (c1.cache_ = cw.cache_ ∨ c1.cache_ = none) := by
  obtain ⟨nc, st, -, hmake, -, -, hinv, rfl, -⟩ := SetCell_goesOn_inv L s pos text test s1 h
  have hex := InvalidateCache_exact pos _ st hinv
  refine ⟨nc, hmake, fun x c1 hc1 => ?_⟩
  rw [GetConcreteCell_stale] at hc1
  by_cases hx : x = pos
  · rw [if_pos hx, hex.slot] at hc1
    cases hw : GetConcreteCell (SetCell_wired s pos nc).1 pos with
    | none => rw [hw] at hc1; cases hc1
    | some cw =>
      rw [hw] at hc1
      simp only [Option.map_some', Option.some.injEq] at hc1
      subst hc1
      exact ⟨cw, by rw [hx]; exact hw, rfl, rfl, Or.inl rfl⟩
  · rw [if_neg hx] at hc1
    by_cases hR : x = pos ∨ ∃ p ∈ (SetCell_wired s pos nc).2.parents_,
        AncPath (OverlayParent pos (SetCell_wired s pos nc)) [] p x
    · have h1 := hex.hit x hR
      rw [deref_ne pos st hx, deref_ne pos (SetCell_wired s pos nc) hx, hc1] at h1
      cases hw : GetConcreteCell (SetCell_wired s pos nc).1 x with
      | none => rw [hw] at h1; cases h1
      | some cw =>
        rw [hw] at h1
        simp only [Option.map_some', Option.some.injEq] at h1
        subst h1
        exact ⟨cw, rfl, rfl, rfl, Or.inr rfl⟩
    · have h1 := hex.miss x hR
      rw [deref_ne pos st hx, deref_ne pos (SetCell_wired s pos nc) hx, hc1] at h1
      exact ⟨c1, h1.symm, rfl, rfl, Or.inl rfl⟩

theorem Installs.keeps_content {L : Library} (P : Impl → List Position → Prop) (h0 : P .Empty [])
    (hmk : ∀ text c, Cell.make L text = some c → P c.impl_ c.children_)
    {s : Sheet} {pos : Position} {text : String} {s1 : Sheet} (h : Installs L s pos text s1)
    (ih : ∀ a c, GetConcreteCell s a = some c → P c.impl_ c.children_) :
    ∀ a c, GetConcreteCell s1 a = some c → P c.impl_ c.children_ := by
  obtain ⟨nc, np, hmake, -, hpos, hnpi, hnpc, -, hfrom, -⟩ := h.slots
  intro a c1 hc1
  by_cases ha : a = pos
  · subst ha
    rw [hpos] at hc1
    cases hc1
    rw [hnpi, hnpc]
    exact hmk text nc hmake
  · obtain ⟨cw, hcw, hi, hch, -⟩ := hfrom a ha c1 hc1
    rw [hi, hch]
    rcases wired_content _ pos nc a cw hcw with ⟨h1, h2⟩ | ⟨c, hc, h1, h2⟩
    · rw [h1, h2]; exact h0
    · rw [h1, h2]; exact ih a c hc

/-- A property of the content and the children list that holds of an Empty cell without
children and of every cell the constructor builds holds of every cell of a sheet a run can
hold. -/
theorem Attainable.cell_content {L : Library} (P : Impl → List Position → Prop) (h0 : P .Empty [])
    (hmk : ∀ text c, Cell.make L text = some c → P c.impl_ c.children_)
    {s : Sheet} (h : Attainable L s) :
    ∀ a c, GetConcreteCell s a = some c → P c.impl_ c.children_ := by
  induction h with
  | create =>
    intro a c hc
    rw [GetConcreteCell_create] at hc
    cases hc
  | setCell pos text hprev hstep ih =>
    exact Installs.keeps_content P h0 hmk (SetCell_installs L _ pos text _ hstep) ih
  | setCellRaised pos text e _ hstep ih =>
    rw [SetCell_raised_same L _ pos text e _ hstep]; exact ih
  | inPlace pos text hprev hstep ih =>
    exact Installs.keeps_content P h0 hmk (SetCell_inPlace_installs L _ pos text _ hstep) ih
  | goesOn pos text test hprev hstep ih =>
    obtain ⟨nc, -, hcell⟩ := SetCell_goesOn_cell L _ pos text test _ hstep
    intro a c1 hc1
    obtain ⟨cw, hcw, hi, hch, -⟩ := hcell a c1 hc1
    rw [hi, hch]
    rcases wired_content _ pos nc a cw hcw with ⟨h1, h2⟩ | ⟨c, hc, h1, h2⟩
    · rw [h1, h2]; exact h0
    · rw [h1, h2]; exact ih a c hc
  | clearCell pos hprev hstep ih =>
    rename_i s0 s1
    rcases ClearCell_cases s0 pos with h1 | h1 | ⟨oc, _, hoc, hne, h1⟩
    · rw [h1.2] at hstep; cases hstep
    · rw [h1.2.2] at hstep; cases hstep; exact ih
    · rw [h1] at hstep
      have h3 := Outcome.ok.inj hstep
      subst h3
      have hself : pos ∉ oc.children_ :=
        fun hp => hprev.no_cycle pos (Relation.TransGen.single ⟨oc, hoc, hp⟩)
      intro a c1 hc1
      rw [ClearCell_slots s0 pos oc hoc hself] at hc1
      by_cases ha : a = pos
      · rw [if_pos ha] at hc1
        split at hc1
        · cases hc1; exact h0
        · cases hc1
      · rw [if_neg ha] at hc1
        by_cases hB : a ∈ oc.children_
        · rw [if_pos hB] at hc1
          obtain ⟨c, hc, rfl⟩ := removedFrom_some hc1
          exact ih a c hc
        · rw [if_neg hB] at hc1
          exact ih a c1 hc1
  | clearCellRaised pos e _ hstep ih =>
    rw [ClearCell_raised_same _ pos e _ hstep]; exact ih
  | getValue fuel pos v _ hstep ih =>
    intro a c1 hc1
    obtain ⟨c, hc, hi, hch, -⟩ := (GetValue_upToCaches L fuel _ pos _ v hstep).cell hc1
    rw [hi, hch]
    exact ih a c hc

theorem Attainable.children_of_impl {L : Library} {s : Sheet} (h : Attainable L s) :
    ChildrenOfImpl s :=
  h.cell_content (fun i ch => ch = i.GetReferencedCells) rfl (fun _ _ hm => Cell.make_children hm)

/-- The children list of every cell of a sheet a run can hold is strictly increasing. -/
theorem Attainable.children_sorted {L : Library} {s : Sheet} (h : Attainable L s) :
    ChildrenSorted s := by
  intro a c hc
  have h1 := h.children_of_impl a c hc
  rw [h1]
  cases c.impl_ with
  | Empty => exact List.Pairwise.nil
  | Text t => exact List.Pairwise.nil
  | Formula ast => exact Formula_GetReferencedCells_sorted ast

/-- A call of `SetCell(q, text)` returns, raises or is undefined on every sheet, and after a call
that returns the cell at `q` has no cached value and neither has any cell reachable from it by
following parents, shared ancestors included. -/
theorem SetCell_clears_ancestor_caches (L : Library) (s : Sheet) (q : Position) (text : String) :
    SetCell L s q text ≠ .exhausted ∧
    ∀ s1, SetCell L s q text = .ok s1 →
      ∀ y, Relation.ReflTransGen (ParentEdge s1) q y → cacheAt s1 y = none :=
  ⟨SetCell_ne_exhausted L s q text, fun s1 h y hy => SetCell_invalidates L s q text s1 h y hy⟩

/-- In every sheet of `Reachable`, `GetPrintableSize` returns `(0,0)` when no cell has content,
and otherwise one more than the largest row and the largest column over the cells with content
(Empty cells kept for their parents do not count); on a fresh sheet `SetCell(B2, "x")` gives
`(2,2)` and a following `ClearCell(B2)` gives `(0,0)`. -/
theorem GetPrintableSize_of_reachable (L : Library) :
    (∀ s, Reachable L s →
      ∃ sz, GetPrintableSize s = some sz ∧
        ((∀ p, nonEmptyAt s p = false) → sz = ⟨0, 0⟩) ∧
        ((∃ p, nonEmptyAt s p = true) →
          (∃ p, nonEmptyAt s p = true ∧ sz.rows = p.row + 1) ∧
          (∃ p, nonEmptyAt s p = true ∧ sz.cols = p.col + 1) ∧
          ∀ p, nonEmptyAt s p = true → p.row + 1 ≤ sz.rows ∧ p.col + 1 ≤ sz.cols)) ∧
    (GetPrintableSize CreateSheet = some ⟨0, 0⟩ ∧
      SetCell L CreateSheet B2 "x" = .ok cornerSheet ∧
      GetPrintableSize cornerSheet = some ⟨2, 2⟩ ∧
      ClearCell cornerSheet B2 = .ok cornerSheetCleared ∧
      GetPrintableSize cornerSheetCleared = some ⟨0, 0⟩) :=
  ⟨fun _ h => h.counted.printableSize,
    by decide, corner_built L, by decide, corner_cleared, by decide⟩

/-- In a sheet of `Reachable`, for a valid position `p` holding a cell with content,
`ClearCell(p)` leaves no cell at `p` when that cell had no parents and leaves an Empty cell with
the same parents set when it had some; when `p` is out of the storage, unoccupied or holds an
Empty cell, `ClearCell(p)` returns the sheet as it was. -/
theorem ClearCell_of_reachable (L : Library) (s : Sheet) (hr : Reachable L s) (p : Position)
    (hv : p.IsValid = true) :
    (∀ c, GetConcreteCell s p = some c → c.IsEmpty = false →
      ∃ s1, ClearCell s p = .ok s1 ∧
        (c.parents_ = [] → GetCell s1 p = .ok none) ∧
        (c.parents_ ≠ [] → ∃ c1, GetCell s1 p = .ok (some c1) ∧ c1.IsEmpty = true ∧
          c1.parents_ = c.parents_)) ∧
    ((CheckSize s p = false ∨ GetConcreteCell s p = none ∨
        ∃ c, GetConcreteCell s p = some c ∧ c.IsEmpty = true) → ClearCell s p = .ok s) :=
  ClearCell_reachable_spec L s hr p hv

/-- In every sheet of `Reachable` a valid position `p` holds a cell if and only if the content at
`p` is not Empty or the parents set at `p` is not empty; no cell of the grid is Empty with an
empty parents set, also after a `SetCell` or a `ClearCell` that returns. -/
theorem grid_cell_has_content_or_parents (L : Library) (s : Sheet) (hr : Reachable L s) :
    (∀ p, p.IsValid = true →
      ((∃ c, GetCell s p = .ok (some c)) ↔ (nonEmptyAt s p = true ∨ ∃ a, ParentEdge s p a))) ∧
    (∀ p c, GetConcreteCell s p = some c → ¬ (c.IsEmpty = true ∧ c.parents_ = [])) ∧
    (∀ pos text s1, SetCell L s pos text = .ok s1 →
      ∀ p c, GetConcreteCell s1 p = some c → ¬ (c.IsEmpty = true ∧ c.parents_ = [])) ∧
    (∀ pos s1, ClearCell s pos = .ok s1 →
      ∀ p c, GetConcreteCell s1 p = some c → ¬ (c.IsEmpty = true ∧ c.parents_ = [])) := by
  have key : ∀ t, Reachable L t →
      ∀ p c, GetConcreteCell t p = some c → ¬ (c.IsEmpty = true ∧ c.parents_ = []) := by
    intro t ht p c hc ⟨he, hp⟩
    rcases ht.retained p c hc with h | h
    · rw [he] at h; cases h
    · exact h hp
  refine ⟨fun p hv => ?_, key s hr, fun pos text s1 h => key s1 (.setCell pos text hr h),
    fun pos s1 h => key s1 (.clearCell pos hr h)⟩
  rw [GetCell_valid hv]
  constructor
  · rintro ⟨c, hc⟩
    have hc1 : GetConcreteCell s p = some c := Except.ok.inj hc
    rcases hr.retained p c hc1 with h | h
    · left
      unfold nonEmptyAt slotIsFree
      rw [hc1]
      simp only [h, Bool.not_false]
    · right
      obtain ⟨a, ha⟩ := List.exists_mem_of_ne_nil _ h
      exact ⟨a, c, hc1, ha⟩
  · rintro (h | ⟨a, c, hc, -⟩)
    · unfold nonEmptyAt slotIsFree at h
      cases hc : GetConcreteCell s p with
      | none => rw [hc] at h; cases h
      | some c => exact ⟨c, rfl⟩
    · exact ⟨c, by rw [hc]⟩

/-- In every sheet of `Reachable`, for every cell of the grid (at position `a`) and every
position `p` among its children, the slot at `p` is inside the storage and holds a cell whose
parents set names `a`; conversely a parents entry `a` of the cell at `x` names a cell installed
at `a` whose children include `x`.  When `SetCell` replaces a cell and returns, every parents
entry that named the old cell is removed before the new edges are added, and the new cell has the
parents set of the old one; after `ClearCell` has removed a cell no parents set names its
position. -/
theorem children_and_parents_mirror (L : Library) (s : Sheet) (hr : Reachable L s) :
    (∀ a c p, GetConcreteCell s a = some c → p ∈ c.children_ →
      CheckSize s p = true ∧ ∃ cp, GetConcreteCell s p = some cp ∧ a ∈ cp.parents_) ∧
    (∀ x cx a, GetConcreteCell s x = some cx → a ∈ cx.parents_ →
      ∃ ca, GetConcreteCell s a = some ca ∧ x ∈ ca.children_) ∧
    (∀ pos text s1 oc, SetCell L s pos text = .ok s1 → GetConcreteCell s pos = some oc →
      (∀ x cx, GetConcreteCell
          (unwire (MaybeIncreaseSizeToIncludePosition s pos) pos oc.children_) x = some cx →
        pos ∉ cx.parents_) ∧
      ∃ c1, GetConcreteCell s1 pos = some c1 ∧ c1.parents_ = oc.parents_) ∧
    (∀ pos s1 oc, ClearCell s pos = .ok s1 → GetConcreteCell s pos = some oc →
      oc.IsEmpty = false → ∀ x cx, GetConcreteCell s1 x = some cx → pos ∉ cx.parents_) := by
  refine ⟨fun a c p hc hp => ?_, hr.linked.parent, fun pos text s1 oc h hoc => ?_,
    fun pos s1 oc h hoc hne => ClearCell_removes_entries hr.linked hr.acyclic pos s1 h oc hoc hne⟩
  · obtain ⟨cp, hcp, hm⟩ := hr.linked.child a c p hc hp
    exact ⟨CheckSize_of_some hcp, cp, hcp, hm⟩
  · exact ⟨unwire_removes_entries hr.linked pos oc hoc,
      SetCell_hands_parents L s pos text s1 h oc hoc (hr.no_self_child hoc)⟩

/-- In every sheet of `Reachable` the row map has a key `r` exactly when row `r` holds a cell
with content, and its value is the number of the columns in which it does; the same for the
column map.  No stored count is 0, overwriting a cell with content by a call that returns changes
neither map, the row map is empty exactly when the column map is, `GetPrintableSize` never reads
the last key of an empty map, and the counts `ClearCell` decrements are not 0. -/
theorem occupancy_maps_count_cells (L : Library) (s : Sheet) (hr : Reachable L s) :
    (∀ r, ((CountMap.find s.row_cells_count_ r).isSome = true ↔
        ∃ c, nonEmptyAt s ⟨r, c⟩ = true) ∧
      ∃ cols : List Nat, cols.Nodup ∧ (∀ c, c ∈ cols ↔ nonEmptyAt s ⟨r, c⟩ = true) ∧
        CountMap.find s.row_cells_count_ r = if cols = [] then none else some cols.length) ∧
    (∀ c, ((CountMap.find s.col_cells_count_ c).isSome = true ↔
        ∃ r, nonEmptyAt s ⟨r, c⟩ = true) ∧
      ∃ rows : List Nat, rows.Nodup ∧ (∀ r, r ∈ rows ↔ nonEmptyAt s ⟨r, c⟩ = true) ∧
        CountMap.find s.col_cells_count_ c = if rows = [] then none else some rows.length) ∧
    (∀ r v, CountMap.find s.row_cells_count_ r = some v → v ≠ 0) ∧
    (∀ c v, CountMap.find s.col_cells_count_ c = some v → v ≠ 0) ∧
    (∀ pos text s1, nonEmptyAt s pos = true → SetCell L s pos text = .ok s1 →
      s1.row_cells_count_ = s.row_cells_count_ ∧ s1.col_cells_count_ = s.col_cells_count_) ∧
    (s.row_cells_count_ = [] ↔ s.col_cells_count_ = []) ∧
    (∃ sz, GetPrintableSize s = some sz) ∧
    (∀ pos oc, GetConcreteCell s pos = some oc → oc.IsEmpty = false →
      CountMap.at (ClearCell_replace (unwire s pos oc.children_) pos).row_cells_count_ pos.row ≠ 0 ∧
      CountMap.at (ClearCell_replace (unwire s pos oc.children_) pos).col_cells_count_ pos.col
        ≠ 0) := by
  have hc := hr.counted
  refine ⟨fun r => ⟨hc.row_key_iff r, hc.row_list r⟩, fun c => ⟨hc.col_key_iff c, hc.col_list c⟩,
    hc.row_ne_zero, hc.col_ne_zero,
    fun pos text s1 hne h => SetCell_overwrite_counts L s pos text s1 h hne,
    by rw [hc.rows_nil_iff, hc.cols_nil_iff], ?_, fun pos oc hoc hne => ?_⟩
  · obtain ⟨sz, h, -⟩ := hc.printableSize
    exact ⟨sz, h⟩
  · obtain ⟨h1, h2⟩ := ClearCell_counts_before s pos oc.children_
    rw [h1, h2]
    apply hc.at_ne_zero
    unfold nonEmptyAt slotIsFree
    rw [hoc]
    simp only [hne, Bool.not_false]

/-! ## The sheets of the scenarios around an invalidated reference -/

theorem lostSheet_no_content (p : Position) : nonEmptyAt lostSheet p = false := by
  rw [nonEmptyAt_eq]
  rcases p with ⟨r, c⟩
  rcases r with _ | r
  · rcases c with _ | _ | _ | c
    · rfl
    · rfl
    · rfl
    · rfl
  · rfl

theorem held_built : SetCell sampleLibrary CreateSheet A2 "=B1" = .ok heldSheet := by
  decide

theorem held_reachable : Reachable sampleLibrary heldSheet :=
  .setCell A2 "=B1" .create held_built

theorem five_built :
    ∃ s1, SetCell sampleLibrary CreateSheet B1 "5" = .ok s1 ∧
      GetValue sampleLibrary 1 s1 B1 = some (fiveSheet, .text "5") :=
  ⟨(SetCell sampleLibrary CreateSheet B1 "5").sheet CreateSheet, by decide, by decide⟩

theorem five_reachable : Reachable sampleLibrary fiveSheet := by
  obtain ⟨s1, h1, h2⟩ := five_built
  exact .getValue 1 B1 _ (.setCell B1 "5" .create h1) h2

theorem triple_built : SetCell sampleLibrary CreateSheet A3 "=B2+A1+B2" = .ok tripleSheet := by
  decide

theorem triple_reachable : Reachable sampleLibrary tripleSheet :=
  .setCell A3 "=B2+A1+B2" .create triple_built

theorem lost_attainable : Attainable sampleLibrary lostSheet :=
  .goesOn B1 "=C1" true .create (by decide)

/-! ## The claims -/

/-- C1: for every sheet, valid position and text that parses, `SetCell(pos, text)` raises
`CircularDependency` if and only if `pos` is a child of the new cell or is reachable from one by
the child edges of the cells in the grid (absent cells being leaves); a formula that references
its own position is always rejected; and when there is no such path the call raises nothing: it
returns if its slot reference stays live, and its behaviour is undefined otherwise. -/
theorem SetCell_raises_CircularDependency_iff (L : Library) (s : Sheet) (pos : Position)
    (text : String) (new_cell : Cell) (hv : pos.IsValid = true)
    (hm : Cell.make L text = some new_cell) :
    ((∃ s1, SetCell L s pos text = .raised .CircularDependency s1) ↔
      ∃ c ∈ new_cell.children_, Relation.ReflTransGen (Edge s) c pos) ∧
    (pos ∈ new_cell.children_ → SetCell L s pos text = .raised .CircularDependency s) ∧
    ((¬ ∃ c ∈ new_cell.children_, Relation.ReflTransGen (Edge s) c pos) →
      (slotRefLive s pos new_cell = true → ∃ s1, SetCell L s pos text = .ok s1) ∧
      (slotRefLive s pos new_cell = false → SetCell L s pos text = .undefined)) := by
  have hiff := SetCell_circular_iff L s pos text new_cell hv hm
  refine ⟨hiff, fun hp => ?_, fun hno => ?_⟩
  · obtain ⟨s1, h1⟩ := hiff.2 ⟨pos, hp, Relation.ReflTransGen.refl⟩
    rw [h1, SetCell_raised_same L s pos text _ s1 h1]
  · rcases SetCell_cases L s pos text with h1 | h1 | ⟨nc, h1⟩ | ⟨nc, st, h1⟩ | ⟨nc, h1⟩
    · rw [hv] at h1; cases h1.1
    · rw [hm] at h1; cases h1.2.1
    · exact absurd (hiff.1 ⟨s, h1.2.2.2⟩) hno
    · rw [hm] at h1
      have h2 := Option.some.inj h1.2.1
      subst h2
      refine ⟨fun _ => ⟨_, h1.2.2.2.2.1⟩, fun hl => ?_⟩
      rw [h1.2.2.2.2.2] at hl
      cases hl
    · rw [hm] at h1
      have h2 := Option.some.inj h1.2.1
      subst h2
      refine ⟨fun hl => ?_, fun _ => h1.2.2.2.1⟩
      rw [h1.2.2.2.2] at hl
      cases hl

/-- The rejected edit of the cycle scenario as an instance: `SetCell(A3, "=A1")` on
`chainSheet` raises, A3 being reachable from the child A1.  On a fresh sheet nothing is reachable
from the child B1, and `SetCell(A1, "=B1")` raises nothing: its wiring loop resizes row 0, and
the call is undefined. -/
theorem SetCell_raises_CircularDependency_iff_witness :
    A3.IsValid = true ∧
    Cell.make sampleLibrary "=A1" = some (Cell.mk (.Formula (.cell A1)) none [A1] []) ∧
    ((∃ s1, SetCell sampleLibrary chainSheet A3 "=A1" = .raised .CircularDependency s1) ↔
      ∃ c ∈ (Cell.mk (.Formula (.cell A1)) none [A1] []).children_,
        Relation.ReflTransGen (Edge chainSheet) c A3) ∧
    SetCell sampleLibrary chainSheet A3 "=A1" = .raised .CircularDependency chainSheet ∧
    A1.IsValid = true ∧
    Cell.make sampleLibrary "=B1" = some (Cell.mk (.Formula (.cell B1)) none [B1] []) ∧
    (¬ ∃ c ∈ (Cell.mk (.Formula (.cell B1)) none [B1] []).children_,
      Relation.ReflTransGen (Edge CreateSheet) c A1) ∧
    slotRefLive CreateSheet A1 (Cell.mk (.Formula (.cell B1)) none [B1] []) = false ∧
    SetCell sampleLibrary CreateSheet A1 "=B1" = .undefined :=
  have h1 := SetCell_raises_CircularDependency_iff sampleLibrary chainSheet A3 "=A1" _
    (by decide : A3.IsValid = true)
    (by decide : Cell.make sampleLibrary "=A1" = some (Cell.mk (.Formula (.cell A1)) none [A1] []))
  have h2 := SetCell_raises_CircularDependency_iff sampleLibrary CreateSheet A1 "=B1" _
    (by decide : A1.IsValid = true)
    (by decide : Cell.make sampleLibrary "=B1" = some (Cell.mk (.Formula (.cell B1)) none [B1] []))
  have hno : ¬ ∃ c ∈ (Cell.mk (.Formula (.cell B1)) none [B1] []).children_,
      Relation.ReflTransGen (Edge CreateSheet) c A1 := by
    intro h
    have := h2.1.2 h
    rw [show SetCell sampleLibrary CreateSheet A1 "=B1" = .undefined from by decide] at this
    obtain ⟨s1, hs1⟩ := this
    cases hs1
  ⟨by decide, by decide, h1.1, by decide, by decide, by decide, hno, by decide,
    (h2.2.2 hno).2 (by decide)⟩

/-- C2: when `SetCell(pos, text)` raises, whatever the exception, the sheet at the throw is the
sheet before the call: grid, parents, caches and occupancy counters are the same. -/
theorem SetCell_raise_keeps_sheet (L : Library) (s : Sheet) (pos : Position) (text : String)
    (e : Exception) (s1 : Sheet) (h : SetCell L s pos text = .raised e s1) : s1 = s :=
  SetCell_raised_same L s pos text e s1 h

/-- The rejected edit of the cycle scenario leaves `chainSheet` as it is. -/
theorem SetCell_raise_keeps_sheet_witness :
    SetCell sampleLibrary chainSheet A3 "=A1" = .raised .CircularDependency chainSheet ∧
    chainSheet = chainSheet :=
  ⟨by decide, SetCell_raise_keeps_sheet sampleLibrary chainSheet A3 "=A1" .CircularDependency
    chainSheet (by decide)⟩

/-- C3: in every sheet reachable from the empty one by calls of `SetCell`, `ClearCell` (and
`GetValue`), raising or not, the graph of child edges has no cycle.  The same holds in every sheet
a run can hold: also a call of `SetCell` that has invalidated its slot reference and goes on
leaves no cycle, nor does any call after it. -/
theorem reachable_sheet_has_no_cycle (L : Library) :
    (∀ s, Reachable L s → Acyclic s) ∧ (∀ s, Attainable L s → Acyclic s) :=
  ⟨fun _ h => h.acyclic, fun _ h => h.no_cycle⟩

/-- A reachable sheet, the one of the stale cache scenario, and a sheet left by a call that went
on, `lostSheet`; neither has a cycle. -/
theorem reachable_sheet_has_no_cycle_witness :
    Reachable sampleLibrary sumSheetCleared ∧ Acyclic sumSheetCleared ∧
    Attainable sampleLibrary lostSheet ∧ Acyclic lostSheet :=
  ⟨sum_reachable, (reachable_sheet_has_no_cycle sampleLibrary).1 sumSheetCleared sum_reachable,
    lost_attainable, (reachable_sheet_has_no_cycle sampleLibrary).2 lostSheet lost_attainable⟩

/-- C4 (what the code does): after `SetCell(A2, "=A1+1")`, `SetCell(A1, "10")` and `GetValue(A2)`
(which returns 11), the cell A2 is a parent of A1, `ClearCell(A1)` leaves the cache of A2 in
place, and `GetValue(A2)` still returns 11. -/
theorem ClearCell_keeps_cache_of_parent :
    (∃ s1, SetCell sampleLibrary CreateSheet A2 "=A1+1" = .ok s1 ∧
      SetCell sampleLibrary s1 A1 "10" = .ok sumSheet) ∧
    GetValue sampleLibrary 3 sumSheet A2 = some (sumSheetCached, .number 11) ∧
    ParentEdge sumSheetCached A1 A2 ∧
    ClearCell sumSheetCached A1 = .ok sumSheetCleared ∧
    cacheAt sumSheetCleared A2 = some (.number 11) ∧
    ∀ n, GetValue sampleLibrary (n + 1) sumSheetCleared A2 =
      some (sumSheetCleared, .number 11) :=
  ⟨sum_built, sum_value, ⟨_, rfl, by decide⟩, sum_cleared, sum_stale_cache, sum_stale_value⟩

/-- C5 (what the code does): the sheet after `SetCell(A2, "=A1+1")`,
`SetCell(A1, "10")`, `GetValue(A2)` and `ClearCell(A1)` is reachable, the cache of A2 holds 11,
and evaluating A2 afresh (with any fuel from 2 on) yields 1. -/
theorem cache_differs_from_fresh_value :
    Reachable sampleLibrary sumSheetCleared ∧
    cacheAt sumSheetCleared A2 = some (.number 11) ∧
    ∀ n, freshValue sampleLibrary (n + 2) sumSheetCleared A2 = some (.number 1) :=
  ⟨sum_reachable, sum_stale_cache, sum_fresh_value⟩

/-- C6 (what the code does): on a fresh sheet `SetCell(B1, "5")` and `GetValue(B1)` lead to
`fiveSheet`, in which the cache of B1 is filled.  `SetCell(B1, "=C1")`, with the valid position
B1, then raises nothing: wiring the child C1 resizes row 0, the row of the slot of B1, from
length 2 to length 3, so the call reaches line 40 with an invalidated reference and its behaviour
is undefined.  A run that goes on, whatever line 40 reads, stores the new cell outside the grid:
the cell at B1 is the Text cell as before, with its cached value. -/
theorem lost_install_keeps_cached_value :
    (∃ s1, SetCell sampleLibrary CreateSheet B1 "5" = .ok s1 ∧
      GetValue sampleLibrary 1 s1 B1 = some (fiveSheet, .text "5")) ∧
    Reachable sampleLibrary fiveSheet ∧ B1.IsValid = true ∧
    cacheAt fiveSheet B1 = some (.text "5") ∧
    ((MaybeIncreaseSizeToIncludePosition fiveSheet B1).rowAt B1.row).length = 2 ∧
    ((SetCell_wired fiveSheet B1 (Cell.mk (.Formula (.cell C1)) none [C1] [])).1.rowAt
      B1.row).length = 3 ∧
    SetCell sampleLibrary fiveSheet B1 "=C1" = .undefined ∧
    ∀ test, ∃ s2, SetCell_goesOn sampleLibrary fiveSheet B1 "=C1" test = some s2 ∧
      s2.cells_ = fiveGrid ∧
      GetCell s2 B1 = .ok (some (Cell.mk (.Text "5") (some (.text "5")) [] [])) ∧
      cacheAt s2 B1 = some (.text "5") := by
  refine ⟨five_built, five_reachable, by decide, by decide, by decide, by decide, by decide, ?_⟩
  intro test
  cases test
  · exact ⟨_, rfl, by decide, rfl, by decide⟩
  · exact ⟨_, rfl, by decide, rfl, by decide⟩

/-- C7 (what the code does): on a fresh sheet `SetCell(B1, "=C1")` raises nothing; wiring the
child C1 resizes row 0, the row of the slot of B1, so the call reaches line 40 with an
invalidated reference and its behaviour is undefined.  A run that goes on with line 40 reading
true leaves `lostSheet`: the new cell is not in the grid, no cell has content, yet both counters
are raised and `GetPrintableSize` returns `(1, 2)`, not `(0, 0)`. -/
theorem lost_install_enlarges_printable_size :
    Reachable sampleLibrary CreateSheet ∧ B1.IsValid = true ∧
    SetCell sampleLibrary CreateSheet B1 "=C1" = .undefined ∧
    SetCell_goesOn sampleLibrary CreateSheet B1 "=C1" true = some lostSheet ∧
    GetCell lostSheet B1 = .ok none ∧
    (∀ p, nonEmptyAt lostSheet p = false) ∧
    GetPrintableSize lostSheet = some ⟨1, 2⟩ :=
  ⟨.create, by decide, by decide, by decide, rfl, lostSheet_no_content, by decide⟩

/-- C8 (what the code does): `SetCell(A2, "=B1")` on a fresh sheet gives `heldSheet`;
`SetCell(B1, "=C1")` then invalidates its slot reference, and a run that goes on leaves
`bareSheet`, in which the Empty cell at B1 has lost its parents.  `SetCell(A3, "=B1")` and
`ClearCell(A3)` return and lead to `orphanSheet`: removing the parent A3 has emptied the slot of
B1.  There the valid position A2 holds a formula cell, without parents, whose child B1 is inside
the storage and holds no cell, so the loop of `ClearCell(A2)` over the children calls
`RemoveParent(B1, _)`, which dereferences the empty slot (lines 171 and 172). -/
theorem ClearCell_after_lost_install_meets_empty_slot :
    SetCell sampleLibrary CreateSheet A2 "=B1" = .ok heldSheet ∧
    SetCell sampleLibrary heldSheet B1 "=C1" = .undefined ∧
    SetCell_goesOn sampleLibrary heldSheet B1 "=C1" true = some bareSheet ∧
    (∃ s1, SetCell sampleLibrary bareSheet A3 "=B1" = .ok s1 ∧
      ClearCell s1 A3 = .ok orphanSheet) ∧
    A2.IsValid = true ∧
    GetConcreteCell orphanSheet A2 = some (Cell.mk (.Formula (.cell B1)) none [B1] []) ∧
    (Cell.mk (.Formula (.cell B1)) none [B1] []).IsEmpty = false ∧
    CheckSize orphanSheet B1 = true ∧ GetConcreteCell orphanSheet B1 = none ∧
    ¬ unwireMeetsCells A2 orphanSheet [B1] := by
  refine ⟨held_built, by decide, by decide,
    ⟨(SetCell sampleLibrary bareSheet A3 "=B1").sheet bareSheet, by decide, by decide⟩,
    by decide, by decide, by decide, by decide, by decide, ?_⟩
  intro h
  have h1 : (GetConcreteCell orphanSheet B1).isSome = true := h.1
  rw [show GetConcreteCell orphanSheet B1 = none from by decide] at h1
  cases h1

/-- C9 (what the code does): on a fresh sheet `SetCell(A1, "")` installs a Text cell
with the empty text, for which `IsEmpty()` is false; the occupancy counters count it and the
printable size becomes `(1,1)`. -/
theorem SetCell_empty_text_is_counted (L : Library) :
    SetCell L CreateSheet A1 "" = .ok blankSheet ∧
    (∃ c, GetCell blankSheet A1 = .ok (some c) ∧ c.IsEmpty = false ∧ c.impl_ = .Text "") ∧
    CountMap.find blankSheet.row_cells_count_ 0 = some 1 ∧
    CountMap.find blankSheet.col_cells_count_ 0 = some 1 ∧
    GetPrintableSize blankSheet = some ⟨1, 1⟩ :=
  ⟨blank_built L, ⟨_, rfl, rfl, rfl⟩, rfl, rfl, rfl⟩

/-- C10 (counterexample): with the sample library it is not the case that after
`SetCell(A1, "=A2")` and `SetCell(A2, "=A3")` the call `SetCell(A3, "=A1")` raises
`CircularDependency` and leaves `GetCell(A3)` null with `GetValue(A1)` equal to 0. -/
theorem cycle_scenario_GetCell_not_null :
    ¬ ∃ s1 s2 s3, SetCell sampleLibrary CreateSheet A1 "=A2" = .ok s1 ∧
      SetCell sampleLibrary s1 A2 "=A3" = .ok s2 ∧
      SetCell sampleLibrary s2 A3 "=A1" = .raised .CircularDependency s3 ∧
      GetCell s3 A3 = .ok none ∧
      ∃ s4, GetValue sampleLibrary 3 s3 A1 = some (s4, .number 0) := by
  rintro ⟨s1, s2, s3, h1, h2, h3, h4, -⟩
  obtain ⟨t1, e1, e2⟩ := chain_built sampleLibrary rfl rfl
  rw [e1] at h1
  have h5 := Outcome.ok.inj h1
  subst h5
  rw [e2] at h2
  have h6 := Outcome.ok.inj h2
  subst h6
  have h7 := SetCell_raised_same sampleLibrary _ A3 "=A1" _ s3 h3
  subst h7
  rw [show GetCell chainSheet A3 = .ok (some (Cell.mk .Empty none [] [A2])) from rfl] at h4
  cases h4

/-- C10 (amended): starting from an empty sheet, after `SetCell(A1, "=A2")` and
`SetCell(A2, "=A3")`, the call `SetCell(A3, "=A1")` raises `CircularDependency` and leaves the
sheet as it was; afterwards `GetCell(A3)` is the Empty cell kept because A2 references A3, and
`GetValue(A1)` is 0. -/
theorem cycle_scenario_keeps_placeholder (L : Library)
    (h1 : L.ParseFormulaAST "A1" = some (.cell A1))
    (h2 : L.ParseFormulaAST "A2" = some (.cell A2))
    (h3 : L.ParseFormulaAST "A3" = some (.cell A3)) :
    (∃ s1, SetCell L CreateSheet A1 "=A2" = .ok s1 ∧ SetCell L s1 A2 "=A3" = .ok chainSheet) ∧
    SetCell L chainSheet A3 "=A1" = .raised .CircularDependency chainSheet ∧
    (∃ c, GetCell chainSheet A3 = .ok (some c) ∧ c.IsEmpty = true ∧ c.parents_ = [A2]) ∧
    ∀ n, ∃ s3, GetValue L (n + 3) chainSheet A1 = some (s3, .number 0) :=
  ⟨chain_built L h2 h3, chain_rejects L h1, ⟨_, rfl, rfl, rfl⟩,
    fun n => ⟨_, chain_value L n⟩⟩

/-- The cycle scenario with the sample library. -/
theorem cycle_scenario_keeps_placeholder_witness :
    sampleLibrary.ParseFormulaAST "A1" = some (.cell A1) ∧
    sampleLibrary.ParseFormulaAST "A2" = some (.cell A2) ∧
    sampleLibrary.ParseFormulaAST "A3" = some (.cell A3) ∧
    ((∃ s1, SetCell sampleLibrary CreateSheet A1 "=A2" = .ok s1 ∧
        SetCell sampleLibrary s1 A2 "=A3" = .ok chainSheet) ∧
      SetCell sampleLibrary chainSheet A3 "=A1" = .raised .CircularDependency chainSheet ∧
      (∃ c, GetCell chainSheet A3 = .ok (some c) ∧ c.IsEmpty = true ∧ c.parents_ = [A2]) ∧
      ∀ n, ∃ s3, GetValue sampleLibrary (n + 3) chainSheet A1 = some (s3, .number 0)) :=
  ⟨rfl, rfl, rfl, cycle_scenario_keeps_placeholder sampleLibrary rfl rfl rfl⟩

/-- C11 (what the code does): `SetCell(A2, "=B1")` on a fresh sheet gives the reachable sheet
`heldSheet`, where B1 holds the Empty cell kept for its parent A2.  `SetCell(B1, "=C1")`, with
the valid position B1, then raises nothing: line 34 moves the parents of the Empty cell to the
new cell, wiring the child C1 resizes row 0, the row of the slot of B1, and the call reaches
line 40 with an invalidated reference, where its behaviour is undefined.  A run that goes on,
whatever line 40 reads, stores the new cell outside the grid and leaves at B1 the Empty cell with
an empty parents set: `GetCell(B1)` is not null although B1 has neither content nor parents. -/
theorem lost_install_leaves_bare_empty_cell :
    SetCell sampleLibrary CreateSheet A2 "=B1" = .ok heldSheet ∧
    Reachable sampleLibrary heldSheet ∧ B1.IsValid = true ∧
    GetConcreteCell heldSheet B1 = some (Cell.mk .Empty none [] [A2]) ∧
    SetCell sampleLibrary heldSheet B1 "=C1" = .undefined ∧
    SetCell_goesOn sampleLibrary heldSheet B1 "=C1" true = some bareSheet ∧
    (∀ test, ∃ s1, SetCell_goesOn sampleLibrary heldSheet B1 "=C1" test = some s1 ∧
      s1.cells_ = bareSheet.cells_ ∧
      (∃ c, GetCell s1 B1 = .ok (some c) ∧ c.IsEmpty = true ∧ c.parents_ = []) ∧
      nonEmptyAt s1 B1 = false ∧ ¬ ∃ a, ParentEdge s1 B1 a) := by
  refine ⟨held_built, held_reachable, by decide, by decide, by decide, by decide, ?_⟩
  intro test
  cases test
  · refine ⟨_, rfl, by decide, ⟨_, rfl, rfl, rfl⟩, by decide, ?_⟩
    rintro ⟨a, c, hc, ha⟩
    rw [show GetConcreteCell _ B1 = some (Cell.mk .Empty none [] []) from by decide] at hc
    cases hc
    cases ha
  · refine ⟨_, rfl, by decide, ⟨_, rfl, rfl, rfl⟩, by decide, ?_⟩
    rintro ⟨a, c, hc, ha⟩
    rw [show GetConcreteCell _ B1 = some (Cell.mk .Empty none [] []) from by decide] at hc
    cases hc
    cases ha

/-- C12: for every non-empty text that is not turned into a formula (it does not begin with `=`,
or it is exactly `=`), the cell built from it is a Text cell whose `GetText()` is the text
verbatim; installed by `SetCell` at a valid position, its `GetValue()` is the text without its
first character when the text begins with an apostrophe, and the text itself otherwise. The text
`'=notformula` has value `=notformula` and text `'=notformula`; `hello` has value and text
`hello`. -/
theorem text_cell_text_and_value (L : Library) :
    (∀ text : String, text ≠ "" → (front text ≠ FORMULA_SIGN ∨ text = "=") →
      Cell.make L text = some (Cell.mk (.Text text) none [] []) ∧
      (Cell.mk (.Text text) none [] []).GetText L = text ∧
      ∀ (s : Sheet) (pos : Position), pos.IsValid = true →
        ∃ s1 c, SetCell L s pos text = .ok s1 ∧ GetCell s1 pos = .ok (some c) ∧
          c.GetText L = text ∧
          ∀ n, ∃ s2 v, GetValue L (n + 1) s1 pos = some (s2, .text v) ∧
            (∀ rest, text.data = ESCAPE_SIGN :: rest → v = String.mk rest) ∧
            (front text ≠ ESCAPE_SIGN → v = text)) ∧
    (∀ (s : Sheet) (pos : Position), pos.IsValid = true →
      ∃ s1 c, SetCell L s pos "'=notformula" = .ok s1 ∧ GetCell s1 pos = .ok (some c) ∧
        c.GetText L = "'=notformula" ∧
        ∀ n, ∃ s2, GetValue L (n + 1) s1 pos = some (s2, .text "=notformula")) ∧
    (∀ (s : Sheet) (pos : Position), pos.IsValid = true →
      ∃ s1 c, SetCell L s pos "hello" = .ok s1 ∧ GetCell s1 pos = .ok (some c) ∧
        c.GetText L = "hello" ∧
        ∀ n, ∃ s2, GetValue L (n + 1) s1 pos = some (s2, .text "hello")) := by
  refine ⟨fun text _ hnf => ⟨Cell.make_ne_formula L text hnf, rfl, fun s pos hv => ?_⟩,
    fun s pos hv => ?_, fun s pos hv => ?_⟩
  · obtain ⟨s1, c, h1, h2, h3, h4⟩ := SetCell_text_reads L text hnf s pos hv
    refine ⟨s1, c, h1, h2, h3, fun n => ?_⟩
    obtain ⟨s2, h5⟩ := h4 n
    by_cases he : front text = ESCAPE_SIGN
    · refine ⟨s2, substr1 text, ?_, fun rest hrest => ?_, fun hne => absurd he hne⟩
      · rw [h5]
        unfold TextImpl_GetValue
        rw [if_pos he]
      · unfold substr1
        rw [hrest]
        rfl
    · refine ⟨s2, text, ?_, fun rest hrest => ?_, fun _ => rfl⟩
      · rw [h5, TextImpl_GetValue_plain text he]
      · exfalso
        apply he
        unfold front
        rw [hrest]
        rfl
  · exact SetCell_text_reads L "'=notformula" (Or.inl (by decide)) s pos hv
  · exact SetCell_text_reads L "hello" (Or.inl (by decide)) s pos hv

/-- The escaped text `'12` at A1 of a fresh sheet, with the sample library. -/
theorem text_cell_text_and_value_witness :
    ("'12" : String) ≠ "" ∧ (front "'12" ≠ FORMULA_SIGN ∨ "'12" = "=") ∧ A1.IsValid = true ∧
    ∃ s1 c, SetCell sampleLibrary CreateSheet A1 "'12" = .ok s1 ∧
      GetCell s1 A1 = .ok (some c) ∧ c.GetText sampleLibrary = "'12" ∧
      ∀ n, ∃ s2 v, GetValue sampleLibrary (n + 1) s1 A1 = some (s2, .text v) ∧
        (∀ rest, ("'12" : String).data = ESCAPE_SIGN :: rest → v = String.mk rest) ∧
        (front "'12" ≠ ESCAPE_SIGN → v = "'12") :=
  ⟨by decide, Or.inl (by decide), by decide,
    ((text_cell_text_and_value sampleLibrary).1 "'12" (by decide) (Or.inl (by decide))).2.2
      CreateSheet A1 (by decide)⟩

/-- C14: for every formula cell, built by the constructor or installed in a reachable sheet,
`GetReferencedCells()` (which is the children list) is strictly increasing in the lexicographic
order on `(row, col)`, has no duplicates, and holds exactly the positions the expression
references; for an Empty or a Text cell it is the empty list. -/
theorem GetReferencedCells_sorted_and_exact (L : Library) :
    (∀ text c, Cell.make L text = some c → ReferencedCellsSpec c) ∧
    ReferencedCellsSpec Cell.makeEmpty ∧
    (∀ s, Reachable L s → ∀ p c, GetConcreteCell s p = some c → ReferencedCellsSpec c) :=
  ⟨fun _ _ h => .of_children (Cell.make_children h), .of_children rfl,
    fun _ hr p c hc => .of_children (hr.childrenOfImpl p c hc)⟩

/-- The formula `=B2+A1+B2`, whose expression names B2, A1 and B2 again: the cell the constructor
builds has the referenced cells `[A1, B2]`, in increasing order and without the duplicate, and so
has the cell `SetCell(A3, "=B2+A1+B2")` installs on a fresh sheet (its children lie in rows 0
and 1, so the row of its slot is not resized). -/
theorem GetReferencedCells_sorted_and_exact_witness :
    (FormulaAST.add (.add (.cell B2) (.cell A1)) (.cell B2)).GetCells = [B2, A1, B2] ∧
    Cell.make sampleLibrary "=B2+A1+B2" =
      some (Cell.mk (.Formula (.add (.add (.cell B2) (.cell A1)) (.cell B2))) none [A1, B2] []) ∧
    (Cell.mk (.Formula (.add (.add (.cell B2) (.cell A1)) (.cell B2))) none [A1, B2]
      []).GetReferencedCells = [A1, B2] ∧
    Position.lt A1 B2 = true ∧
    ReferencedCellsSpec
      (Cell.mk (.Formula (.add (.add (.cell B2) (.cell A1)) (.cell B2))) none [A1, B2] []) ∧
    SetCell sampleLibrary CreateSheet A3 "=B2+A1+B2" = .ok tripleSheet ∧
    Reachable sampleLibrary tripleSheet ∧
    GetConcreteCell tripleSheet A3 =
      some (Cell.mk (.Formula (.add (.add (.cell B2) (.cell A1)) (.cell B2))) none [A1, B2] []) ∧
    (∀ c, GetConcreteCell tripleSheet A3 = some c → ReferencedCellsSpec c) :=
  ⟨by decide, by decide, by decide, by decide,
    (GetReferencedCells_sorted_and_exact sampleLibrary).1 "=B2+A1+B2" _ (by decide),
    triple_built, triple_reachable, by decide,
    fun c hc => (GetReferencedCells_sorted_and_exact sampleLibrary).2.2 tripleSheet
      triple_reachable A3 c hc⟩

/-- C16: for every sheet and position, when the position is not valid `SetCell` (whatever the
text, also one that does not parse), `GetCell` and `ClearCell` raise `InvalidPosition` and the
sheet is as before; when it is valid `GetCell` and `ClearCell` return, and `GetCell` returns null
exactly when the position is outside the storage or its slot holds no cell. -/
theorem invalid_position_is_raised_first (L : Library) (s : Sheet) (pos : Position) :
    (pos.IsValid = false →
      (∀ text, SetCell L s pos text = .raised .InvalidPosition s) ∧
      GetCell s pos = .error .InvalidPosition ∧
      ClearCell s pos = .raised .InvalidPosition s) ∧
    (pos.IsValid = true →
      (∃ o, GetCell s pos = .ok o) ∧ (∃ s1, ClearCell s pos = .ok s1) ∧
      (GetCell s pos = .ok none ↔
        (CheckSize s pos = false ∨ (s.rowAt pos.row).getD pos.col none = none))) := by
  refine ⟨fun h => ⟨fun text => SetCell_invalid L s pos text h, GetCell_invalid s pos h,
    ClearCell_invalid s pos h⟩, fun h => ⟨⟨_, GetCell_valid h⟩, ClearCell_valid s pos h, ?_⟩⟩
  rw [GetCell_valid h, ← GetConcreteCell_eq_none_iff]
  constructor
  · intro h1; exact Except.ok.inj h1
  · intro h1; rw [h1]

/-- On `cornerSheet` the position in row `MAX_ROWS` is rejected, also with a text that does not
parse, and the valid position A1, whose row is empty, reads as null. -/
theorem invalid_position_is_raised_first_witness :
    beyondLastRow.IsValid = false ∧ Cell.make sampleLibrary "=?" = none ∧
    SetCell sampleLibrary cornerSheet beyondLastRow "=?" = .raised .InvalidPosition cornerSheet ∧
    GetCell cornerSheet beyondLastRow = .error .InvalidPosition ∧
    ClearCell cornerSheet beyondLastRow = .raised .InvalidPosition cornerSheet ∧
    A1.IsValid = true ∧ CheckSize cornerSheet A1 = false ∧ GetCell cornerSheet A1 = .ok none :=
  have h0 : beyondLastRow.IsValid = false := by decide
  have h1 := (invalid_position_is_raised_first sampleLibrary cornerSheet beyondLastRow).1 h0
  ⟨h0, by decide, h1.1 "=?", h1.2.1, h1.2.2, by decide, by decide,
    ((invalid_position_is_raised_first sampleLibrary cornerSheet A1).2 (by decide)).2.2.2
      (Or.inl (by decide))⟩

/-- C17 (what the code does): on a fresh sheet `SetCell(B1, "=C1")` raises nothing; wiring the
child C1 resizes row 0, the row of the slot of B1, and the call reaches line 40 with an
invalidated reference, where its behaviour is undefined.  A run that goes on, whatever line 40
reads, leaves the Empty cell at C1 with a parents entry for B1 while no cell is installed at B1.
On `heldSheet`, the sheet after `SetCell(A2, "=B1")`, the same call replaces the Empty cell at B1,
whose parents set is `[A2]`; a run that goes on leaves A2 with the child B1 and at B1 a cell whose
parents set does not name A2: the parents were handed to the new cell, which is not in the
grid. -/
theorem lost_install_breaks_mirror :
    Reachable sampleLibrary CreateSheet ∧
    SetCell sampleLibrary CreateSheet B1 "=C1" = .undefined ∧
    (∀ test, ∃ s1, SetCell_goesOn sampleLibrary CreateSheet B1 "=C1" test = some s1 ∧
      s1.cells_ = lostSheet.cells_ ∧
      (∃ cx, GetConcreteCell s1 C1 = some cx ∧ B1 ∈ cx.parents_) ∧
      GetConcreteCell s1 B1 = none) ∧
    Reachable sampleLibrary heldSheet ∧
    (∃ oc, GetConcreteCell heldSheet B1 = some oc ∧ oc.parents_ = [A2]) ∧
    SetCell sampleLibrary heldSheet B1 "=C1" = .undefined ∧
    (∀ test, ∃ s1, SetCell_goesOn sampleLibrary heldSheet B1 "=C1" test = some s1 ∧
      (∃ c, GetConcreteCell s1 A2 = some c ∧ B1 ∈ c.children_) ∧
      (∃ cp, GetConcreteCell s1 B1 = some cp ∧ A2 ∉ cp.parents_)) := by
  refine ⟨.create, by decide, ?_, held_reachable,
    ⟨Cell.mk .Empty none [] [A2], by decide, rfl⟩, by decide, ?_⟩
  · intro test
    cases test
    · exact ⟨_, rfl, by decide, ⟨Cell.mk .Empty none [] [B1], by decide, by decide⟩,
        by decide⟩
    · exact ⟨_, rfl, by decide, ⟨Cell.mk .Empty none [] [B1], by decide, by decide⟩,
        by decide⟩
  · intro test
    cases test
    · exact ⟨_, rfl, ⟨Cell.mk (.Formula (.cell B1)) none [B1] [], by decide, by decide⟩,
        ⟨Cell.mk .Empty none [] [], by decide, by decide⟩⟩
    · exact ⟨_, rfl, ⟨Cell.mk (.Formula (.cell B1)) none [B1] [], by decide, by decide⟩,
        ⟨Cell.mk .Empty none [] [], by decide, by decide⟩⟩

/-- C18 (what the code does): on a fresh sheet `SetCell(B1, "=C1")` raises nothing and reaches
line 40 with an invalidated reference.  A run that goes on with line 40 reading true leaves
`lostSheet`: the row map has the key 0 and the column map the key 1, each with count 1, while
neither row 0 nor column 1 holds a cell with content.  On `fiveSheet`, where B1 holds a Text
cell, the same call overwrites a cell with content, and a run that goes on with line 40 reading
true raises both counts from 1 to 2 while one cell has content. -/
theorem lost_install_counts_absent_cell :
    SetCell sampleLibrary CreateSheet B1 "=C1" = .undefined ∧
    SetCell_goesOn sampleLibrary CreateSheet B1 "=C1" true = some lostSheet ∧
    CountMap.find lostSheet.row_cells_count_ 0 = some 1 ∧
    (∀ c, nonEmptyAt lostSheet ⟨0, c⟩ = false) ∧
    CountMap.find lostSheet.col_cells_count_ 1 = some 1 ∧
    (∀ r, nonEmptyAt lostSheet ⟨r, 1⟩ = false) ∧
    Reachable sampleLibrary fiveSheet ∧ nonEmptyAt fiveSheet B1 = true ∧
    CountMap.find fiveSheet.row_cells_count_ 0 = some 1 ∧
    CountMap.find fiveSheet.col_cells_count_ 1 = some 1 ∧
    SetCell sampleLibrary fiveSheet B1 "=C1" = .undefined ∧
    (∃ s1, SetCell_goesOn sampleLibrary fiveSheet B1 "=C1" true = some s1 ∧
      s1.cells_ = fiveGrid ∧
      CountMap.find s1.row_cells_count_ 0 = some 2 ∧
      CountMap.find s1.col_cells_count_ 1 = some 2) :=
  ⟨by decide, by decide, by decide, fun c => lostSheet_no_content ⟨0, c⟩, by decide,
    fun r => lostSheet_no_content ⟨r, 1⟩, five_reachable, by decide, by decide, by decide,
    by decide, ⟨_, rfl, by decide, by decide, by decide⟩⟩

/-- C20 (what the code does): on a fresh sheet, which is reachable, `SetCell(A1, "=B1")` with the
valid position A1 does not raise; row 0 has length 1 when the slot of A1 is taken, right after the
grid has grown, and wiring the child B1 grows that same row to length 2 before the slot is read
for the occupancy test and assigned: the reference is not live there, and the behaviour of the
call is undefined. -/
theorem SetCell_wiring_grows_row_of_slot :
    Reachable sampleLibrary CreateSheet ∧ A1.IsValid = true ∧
    Cell.make sampleLibrary "=B1" = some (Cell.mk (.Formula (.cell B1)) none [B1] []) ∧
    FindCyclicDeps CreateSheet A1 (Cell.mk (.Formula (.cell B1)) none [B1] []) = some false ∧
    ((MaybeIncreaseSizeToIncludePosition CreateSheet A1).rowAt A1.row).length = 1 ∧
    ((SetCell_wired CreateSheet A1 (Cell.mk (.Formula (.cell B1)) none [B1] [])).1.rowAt
      A1.row).length = 2 ∧
    slotRefLive CreateSheet A1 (Cell.mk (.Formula (.cell B1)) none [B1] []) = false ∧
    SetCell sampleLibrary CreateSheet A1 "=B1" = .undefined :=
  ⟨.create, by decide, by decide, by decide, by decide, by decide, by decide, by decide⟩

/-- C13 (what the code does): on a fresh sheet `SetCell(A1, t)` with the text `t` of six
characters `12`, NUL, `abc`, then `SetCell(A2, "=A1")`. The value of A1 is the string `t`, which
is not empty and not entirely a numeric literal; the visitor reads it as 12, because `strtod` and
the test on `*endptr` stop at the first terminator, so the lookup returns 12 and `GetValue(A2)` is
the number 12 instead of the error `Value`. The strings `oops` and `12abc` do raise `Value`. -/
theorem lookup_reads_text_up_to_NUL :
    (∃ s1, SetCell sampleLibrary CreateSheet A1 nulText = .ok s1 ∧
      SetCell sampleLibrary s1 A2 "=A1" = .ok nulSheet) ∧
    nulText ≠ "" ∧ nulText.data.length = 6 ∧ ¬ NumericLiteral sampleLibrary nulText ∧
    (∃ s2, GetValue sampleLibrary 1 nulSheet A1 = some (s2, .text nulText)) ∧
    ValueToDouble sampleLibrary (.text nulText) = .ok 12 ∧
    (∃ s2, Evaluate_lookup sampleLibrary (GetValue sampleLibrary 1) nulSheet A1 =
      some (s2, .ok 12)) ∧
    (∀ n, ∃ s3, GetValue sampleLibrary (n + 2) nulSheet A2 = some (s3, .number 12)) ∧
    ValueToDouble sampleLibrary (.text "oops") = .error .Value ∧
    ValueToDouble sampleLibrary (.text "12abc") = .error .Value := by
  have h12 : ((12 : Nat) : ℚ) = 12 := by norm_num
  have hv : ValueToDouble sampleLibrary (.text nulText) = .ok 12 := by
    rw [← h12]
    rfl
  have hl : ∃ s2, Evaluate_lookup sampleLibrary (GetValue sampleLibrary 1) nulSheet A1 =
      some (s2, .ok 12) := by
    rw [← h12]
    exact ⟨_, rfl⟩
  have hg : ∀ n, ∃ s3, GetValue sampleLibrary (n + 2) nulSheet A2 =
      some (s3, .number 12) := by
    intro n
    rw [← h12]
    exact ⟨_, rfl⟩
  have hnum : ¬ NumericLiteral sampleLibrary nulText := by
    unfold NumericLiteral
    decide
  exact ⟨⟨(SetCell sampleLibrary CreateSheet A1 nulText).sheet CreateSheet, by decide,
    by decide⟩, by decide, by decide, hnum, ⟨_, rfl⟩, hv, hl, hg, rfl, rfl⟩

/-- C19: on every sheet, with or without shared cells or cycles in its graph,
`FindCyclicDepsImpl` and `InvalidateCacheImpl`, which receive the visited set by value, return as
soon as the fuel exceeds the number of cells not in the visited set, and so do `FindCyclicDeps`
and `InvalidateCache`; each returns the answer, and leaves the sheet and the new cell, of the same
traversal run with one visited set shared by all calls. The nested calls are made with the
visited set of the caller and one more cell, the one of the caller, which was not in it (the last
two parts), so the number of cells outside the set drops with every level. -/
theorem per_path_traversals_return_and_agree (s : Sheet) (bad pos : Position)
    (st : Sheet × Cell) :
    (∀ fuel V x, V.Nodup → (∀ v ∈ V, v ∈ occupied s) →
      (occupied s).length < fuel + V.length →
      ∃ b V1, FindCyclicDepsImpl s fuel V x bad = some b ∧
        FindCyclicDepsShared s fuel V x bad = some (b, V1)) ∧
    (∀ cell, ∃ b, FindCyclicDeps s bad cell = some b ∧
      FindCyclicDepsSharedAll s bad cell = some b) ∧
    (∀ fuel V x, V.Nodup → (∀ v ∈ V, v ∈ pos :: occupied st.1) →
      (pos :: occupied st.1).length < fuel + V.length →
      ∃ st1 V1, InvalidateCacheImpl pos fuel st x V = some st1 ∧
        InvalidateCacheShared pos fuel (st, V) x = some (st1, V1)) ∧
    (∃ st1, InvalidateCache pos st = some st1 ∧
      InvalidateCacheSharedAll pos st = some st1) ∧
    (∀ fuel V x c, x ≠ bad → GetConcreteCell s x = some c → x ∉ V →
      FindCyclicDepsImpl s (fuel + 1) V x bad =
        anyChild (fun child_pos => FindCyclicDepsImpl s fuel (x :: V) child_pos bad)
          c.children_) ∧
    (∀ fuel V x c, x ∉ V → deref pos st x = some c →
      InvalidateCacheImpl pos (fuel + 1) st x V =
        forEachParent (fun st1 parent_cell =>
            InvalidateCacheImpl pos fuel st1 parent_cell (x :: V))
          c.parents_ (invalidateAt pos st x)) := by
  refine ⟨fun fuel V x hnd hsub hlt => FindCyclicDepsShared_agrees s bad fuel V x hnd hsub hlt,
    fun cell => ?_,
    fun fuel V x hnd hsub hlt =>
      InvalidateCacheShared_agrees pos _ fuel st V x hnd hsub (deref_nodes pos st) hlt, ?_,
    fun fuel V x c hx hc hv => ?_, fun fuel V x c hv hc => ?_⟩
  · obtain ⟨b, hb⟩ := FindCyclicDeps_total s bad cell
    exact ⟨b, hb, by rw [FindCyclicDepsSharedAll_eq, hb]⟩
  · obtain ⟨st1, h1, -⟩ := InvalidateCache_spec pos st
    exact ⟨st1, h1, by rw [InvalidateCacheSharedAll_eq, h1]⟩
  · rw [FindCyclicDepsImpl, if_neg hx, hc]
    simp only [if_neg hv]
  · rw [InvalidateCacheImpl, if_neg hv, hc]

/-- The sheet `loopSheet`, whose graph is a cycle through A1 and A2: the search for A3 from A1
and the invalidation from A1 return with fuel 3 and 4, as do the shared ones. -/
theorem per_path_traversals_return_and_agree_witness :
    ([] : List Position).Nodup ∧ (occupied loopSheet).length < 3 + ([] : List Position).length ∧
    (∃ b V1, FindCyclicDepsImpl loopSheet 3 [] A1 A3 = some b ∧
      FindCyclicDepsShared loopSheet 3 [] A1 A3 = some (b, V1)) ∧
    (A3 :: occupied loopSheet).length < 4 + ([] : List Position).length ∧
    (∃ st1 V1, InvalidateCacheImpl A3 4 (loopSheet, Cell.makeEmpty) A1 [] = some st1 ∧
      InvalidateCacheShared A3 4 ((loopSheet, Cell.makeEmpty), []) A1 = some (st1, V1)) :=
  ⟨List.nodup_nil, by decide,
    (per_path_traversals_return_and_agree loopSheet A3 A3 (loopSheet, Cell.makeEmpty)).1
      3 [] A1 List.nodup_nil (fun _ h => by cases h) (by decide),
    by decide,
    (per_path_traversals_return_and_agree loopSheet A3 A3 (loopSheet, Cell.makeEmpty)).2.2.1
      4 [] A1 List.nodup_nil (fun _ h => by cases h) (by decide)⟩

end Spreadsheet
